import Mathlib

/-! mc-router: the wire codec and the handshake reader.

A shallow embedding of `mcproto/read.go` and `mcproto/types.go`.

Conventions of the embedding.

* A byte is a `Nat` (a value below 256 wherever the code produces one); a Go
  `string` and a `[]byte` are both `List Nat`, the string being its UTF-8 bytes.
* A Go `int` is an `Int` (64-bit platform); `uint64(i)`, `uint16(i)` are written
  out as `% 2 ^ 64`, `% 2 ^ 16`.
* An `io.Reader` is a type `ρ` of reader states with a `Read` operation.
  `Read r k` is the call `r.Read(p)` with `len(p) = k`: it gives the bytes stored
  in `p[:n]`, the error, and the state of the reader afterwards.
* A loop that may spin (a reader can deliver zero bytes without an error, and
  `ReadFrame` keeps polling after `io.EOF`) takes a `fuel : Nat`, the number of
  iterations it may still run; the result `none` means that the loop was still
  running when the fuel ran out.
* An `io.Writer` is the list of the bytes written to it; writing never fails.
-/

namespace mcproto

/-! ## Errors and readers -/

/-- Go `error` values: the sentinels of package `io` and the errors built with
`errors.New` and `errors.Errorf` (the format string and its argument). -/
inductive Error where
  | EOF
  | ErrUnexpectedEOF
  | ErrNoProgress
  | New (msg : String)
  | Errorf (format : String) (arg : List Nat)
  deriving DecidableEq, Repr

deriving instance DecidableEq for Except

/-- The `io.Reader` interface. -/
class Reader (ρ : Type) where
  Read : ρ → Nat → (List Nat × Option Error) × ρ

/-- A byte stream as a connection delivers it. `chunks` are the deliveries still
to come, one per `Read` call (a call with a buffer smaller than the chunk takes a
part of it and leaves the rest for the next call; an empty chunk is a read of
zero bytes without an error). Once every chunk is delivered `Read` returns
`atEnd` (`io.EOF` for a stream that was closed). With `early` set, the call that
delivers the last byte already returns `atEnd` together with the data, as
`io.Reader` allows. -/
structure Conn where
  chunks : List (List Nat)
  atEnd : Error
  early : Bool
  deriving DecidableEq, Repr

/-- One `Read` call on a connection with a buffer of `k` bytes. -/
def Conn.Read (c : Conn) (k : Nat) : (List Nat × Option Error) × Conn :=
  match c.chunks with
  | [] => (([], some c.atEnd), c)
  | d :: rest =>
    let left := d.drop k
    let chunks := if left.isEmpty then rest else left :: rest
    let err := if c.early && chunks.isEmpty then some c.atEnd else none
    ((d.take k, err), { c with chunks := chunks })

instance : Reader Conn := ⟨Conn.Read⟩

/-- The type `bytes.Buffer`, by its unread bytes. -/
structure Buffer where
  buf : List Nat
  deriving DecidableEq, Repr

/-- The constructor `bytes.NewBuffer`. -/
def NewBuffer (buf : List Nat) : Buffer := ⟨buf⟩

/-- The method `(*bytes.Buffer).Read`: `io.EOF` once the buffer is empty, and
otherwise as many of the unread bytes as fit. -/
def Buffer.Read (b : Buffer) (k : Nat) : (List Nat × Option Error) × Buffer :=
  if b.buf.isEmpty then
    if k == 0 then (([], none), b) else (([], some .EOF), b)
  else ((b.buf.take k, none), ⟨b.buf.drop k⟩)

/-- The method `(*bytes.Buffer).Bytes`: the unread portion. -/
def Buffer.Bytes (b : Buffer) : List Nat := b.buf

instance : Reader Buffer := ⟨Buffer.Read⟩

/-- The type `bufio.Reader` over a reader `rd`: `buf` is the buffered, unread
data `b.buf[b.r:b.w]` and `err` the error kept back for a later call. -/
structure BufReader (ρ : Type) where
  buf : List Nat
  err : Option Error
  rd : ρ

/-- The size of the buffer of `bufio.NewReader`. -/
def defaultBufSize : Nat := 4096

/-- The constant `maxConsecutiveEmptyReads` of package `bufio`. -/
def maxConsecutiveEmptyReads : Nat := 100

/-- The constructor `bufio.NewReader`. -/
def NewReader {ρ : Type} (rd : ρ) : BufReader ρ := ⟨[], none, rd⟩

/-- The loop of `(*bufio.Reader).fill`: read from the underlying reader until
some data or an error arrives, `i` times at most. -/
def BufReader.fill.loop {ρ : Type} [Reader ρ] : Nat → BufReader ρ → BufReader ρ
  | 0, b => { b with err := some .ErrNoProgress }
  | i + 1, b =>
    match Reader.Read b.rd (defaultBufSize - b.buf.length) with
    | ((d, err), rd) =>
      let b : BufReader ρ := { b with buf := b.buf ++ d, rd := rd }
      match err with
      | some e => { b with err := some e }
      | none => if d.length > 0 then b else BufReader.fill.loop i b

/-- The method `(*bufio.Reader).fill`. -/
def BufReader.fill {ρ : Type} [Reader ρ] (b : BufReader ρ) : BufReader ρ :=
  BufReader.fill.loop maxConsecutiveEmptyReads b

/-- The method `(*bufio.Reader).readErr`: the error kept back, which is cleared. -/
def BufReader.readErr {ρ : Type} (b : BufReader ρ) : Option Error × BufReader ρ :=
  (b.err, { b with err := none })

/-- The call `(*bufio.Reader).Peek(1)`: the next byte, which is not consumed. -/
def BufReader.Peek1 {ρ : Type} [Reader ρ] (b : BufReader ρ) :
    Except Error Nat × BufReader ρ :=
  let b := if b.buf.isEmpty ∧ b.err = none then b.fill else b
  match b.buf with
  | c :: _ => (.ok c, b)
  | [] =>
    match b.readErr with
    | (some e, b) => (.error e, b)
    | (none, b) => (.error (.New "bufio: buffer full"), b)

/-- The method `(*bufio.Reader).Read`: buffered data first; with an empty
buffer one read of the underlying reader, straight into `p` when `p` is at
least as large as the buffer. -/
def BufReader.Read {ρ : Type} [Reader ρ] (b : BufReader ρ) (k : Nat) :
    (List Nat × Option Error) × BufReader ρ :=
  if k == 0 then
    if b.buf.length > 0 then (([], none), b)
    else match b.readErr with
      | (e, b) => (([], e), b)
  else if b.buf.isEmpty then
    if b.err ≠ none then
      match b.readErr with
      | (e, b) => (([], e), b)
    else if k ≥ defaultBufSize then
      match Reader.Read b.rd k with
      | ((d, err), rd) => ((d, err), { b with rd := rd, err := none })
    else
      match Reader.Read b.rd defaultBufSize with
      | ((d, err), rd) =>
        if d.length == 0 then ((d, err), { b with rd := rd, err := none })
        else ((d.take k, none), { buf := d.drop k, err := err, rd := rd })
  else ((b.buf.take k, none), { b with buf := b.buf.drop k })

instance {ρ : Type} [Reader ρ] : Reader (BufReader ρ) := ⟨BufReader.Read⟩

/-- The method `(*bufio.Reader).ReadByte`. After `fill` the buffer holds data
or an error is kept back, so that the loop of the method runs twice at most. -/
def BufReader.ReadByte {ρ : Type} [Reader ρ] (b : BufReader ρ) :
    Except Error Nat × BufReader ρ :=
  match b.buf with
  | c :: rest => (.ok c, { b with buf := rest })
  | [] =>
    match b.err with
    | some e => (.error e, { b with err := none })
    | none =>
      let b := b.fill
      match b.buf with
      | c :: rest => (.ok c, { b with buf := rest })
      | [] => (.error (b.err.getD .ErrNoProgress), { b with err := none })

/-- The type `io.LimitedReader`, as `io.LimitReader(R, N)` builds it. -/
structure LimitedReader (ρ : Type) where
  R : ρ
  N : Int

/-- The constructor `io.LimitReader`. -/
def LimitReader {ρ : Type} (r : ρ) (n : Int) : LimitedReader ρ := ⟨r, n⟩

/-- The method `(*io.LimitedReader).Read`. -/
def LimitedReader.Read {ρ : Type} [Reader ρ] (l : LimitedReader ρ) (k : Nat) :
    (List Nat × Option Error) × LimitedReader ρ :=
  if l.N ≤ 0 then (([], some .EOF), l)
  else
    let k := if (k : Int) > l.N then l.N.toNat else k
    match Reader.Read l.R k with
    | ((d, err), r) => ((d, err), ⟨r, l.N - d.length⟩)

instance {ρ : Type} [Reader ρ] : Reader (LimitedReader ρ) := ⟨LimitedReader.Read⟩

/-- The loop of `io.ReadAtLeast(r, buf, min)` with `min = len(buf) = size`, which
is `io.ReadFull`: `got` is `buf[:n]`. -/
def ioReadFull.loop {ρ : Type} [Reader ρ] :
    Nat → ρ → Nat → List Nat → Option ((List Nat × Option Error) × ρ)
  | 0, _, _, _ => none
  | fuel + 1, r, size, got =>
    if got.length < size then
      match Reader.Read r (size - got.length) with
      | ((d, err), r) =>
        let got := got ++ d
        match err with
        | none => ioReadFull.loop fuel r size got
        | some e =>
          if got.length ≥ size then some ((got, none), r)
          else if got.length > 0 ∧ e = .EOF then some ((got, some .ErrUnexpectedEOF), r)
          else some ((got, some e), r)
    else some ((got, none), r)

/-- The function `io.ReadFull(r, buf)` with `len(buf) = size`. -/
def ioReadFull {ρ : Type} [Reader ρ] (fuel : Nat) (r : ρ) (size : Nat) :
    Option ((List Nat × Option Error) × ρ) :=
  ioReadFull.loop fuel r size []

/-! ## types.go -/

/-- The struct `Frame`. -/
structure Frame where
  Length : Int
  Payload : List Nat
  deriving DecidableEq, Repr

/-- The type `State` and its constants. -/
abbrev State := Int

def StateHandshaking : State := 0
def StateLogin : State := 1
def StateEncryption : State := 2
def StateFinished : State := 3

def PacketIdHandshake : Nat := 0x00
def PacketIdLegacyServerListPing : Nat := 0xFE

/-- The struct `Handshake`. -/
structure Handshake where
  ProtocolVersion : Int
  ServerAddress : List Nat
  ServerPort : Nat
  NextState : Int
  deriving DecidableEq, Repr

/-- The struct `LegacyServerListPing`. -/
structure LegacyServerListPing where
  ProtocolVersion : Int
  ServerAddress : List Nat
  ServerPort : Nat
  deriving DecidableEq, Repr

/-- The field `Packet.Data`, an `interface{}`: a byte slice of raw content or a
parsed message. -/
inductive PacketData where
  | bytes (b : List Nat)
  | legacy (p : LegacyServerListPing)
  deriving DecidableEq, Repr

/-- The struct `Packet`. -/
structure Packet where
  Length : Int
  PacketID : Int
  Data : PacketData
  deriving DecidableEq, Repr

/-! ## read.go: VarInt -/

/-- The loop of `ReadVarInt`. `result` is never negative and stays below `2 ^ 42`,
so it is carried as a `Nat` and returned as the Go `int`. -/
def ReadVarInt.loop {ρ : Type} [Reader ρ] :
    Nat → ρ → Nat → Nat → Option (Except Error Int × ρ)
  | 0, _, _, _ => none
  | fuel + 1, reader, numRead, result =>
    if numRead ≤ 5 then
      match Reader.Read reader 1 with
      | ((_, some err), reader) => some (.error err, reader)
      | (([], none), reader) => ReadVarInt.loop fuel reader numRead result
      | ((b :: _, none), reader) =>
        let value := b &&& 0x7F
        let result := result ||| (value <<< (7 * numRead))
        let numRead := numRead + 1
        if b &&& 0x80 == 0 then some (.ok (result : Int), reader)
        else ReadVarInt.loop fuel reader numRead result
    else some (.error (.New "VarInt is too big"), reader)

/-- The function `ReadVarInt`. -/
def ReadVarInt {ρ : Type} [Reader ρ] (fuel : Nat) (reader : ρ) :
    Option (Except Error Int × ρ) :=
  ReadVarInt.loop fuel reader 0 0

/-- The conversion `uint64(i)` of a Go `int`. -/
def uint64 (i : Int) : Nat := (i % 2 ^ 64).toNat

/-- The loop of `WriteVarInt`; `vi` is the slice built so far. Every turn
shifts `num` right by seven bits, so `num + 1` turns are never used up: the
first argument only tells Lean that the loop ends. -/
def WriteVarInt.loop : Nat → Nat → List Nat → List Nat
  | 0, _, vi => vi
  | fuel + 1, num, vi =>
    let b := num &&& 0x7F
    let num := num >>> 7
    let b := if num != 0 then b ||| 0x80 else b
    let vi := vi ++ [b % 256]
    if num == 0 then vi else WriteVarInt.loop fuel num vi

/-- The function `WriteVarInt`: the bytes it writes to `w`. -/
def WriteVarInt (i : Int) : List Nat :=
  WriteVarInt.loop (uint64 i + 1) (uint64 i) []

/-! ## read.go: strings, bytes and fixed-width integers -/

/-- The loop of `ReadString`, with `n` turns left (`length - i`). A read of zero
bytes takes the `continue`, which still runs the `i++` of the `for` clause. -/
def ReadString.loop {ρ : Type} [Reader ρ] :
    Nat → ρ → List Nat → Except Error (List Nat) × ρ
  | 0, reader, str => (.ok str, reader)
  | n + 1, reader, str =>
    match Reader.Read reader 1 with
    | ((_, some err), reader) => (.error err, reader)
    | (([], none), reader) => ReadString.loop n reader str
    | ((b :: _, none), reader) => ReadString.loop n reader (str ++ [b])

/-- The function `ReadString`. -/
def ReadString {ρ : Type} [Reader ρ] (fuel : Nat) (reader : ρ) :
    Option (Except Error (List Nat) × ρ) :=
  match ReadVarInt fuel reader with
  | none => none
  | some (.error err, reader) => some (.error err, reader)
  | some (.ok length, reader) => some (ReadString.loop length.toNat reader [])

/-- The function `WriteString`: the bytes it writes to `w`. -/
def WriteString (s : List Nat) : List Nat :=
  WriteVarInt s.length ++ s

/-- The function `ReadByte`: one `Read` into a one-byte buffer, whose content is
returned when the read reports no error. -/
def ReadByte {ρ : Type} [Reader ρ] (reader : ρ) : Except Error Nat × ρ :=
  match Reader.Read reader 1 with
  | ((_, some err), reader) => (.error err, reader)
  | ((d, none), reader) => (.ok (d.headD 0), reader)

/-- The function `ReadUnsignedShort`: `binary.Read` of a `uint16` is
`io.ReadFull` of two bytes and `binary.BigEndian.Uint16`. -/
def ReadUnsignedShort {ρ : Type} [Reader ρ] (fuel : Nat) (reader : ρ) :
    Option (Except Error Nat × ρ) :=
  match ioReadFull fuel reader 2 with
  | none => none
  | some ((_, some err), reader) => some (.error err, reader)
  | some ((bs, none), reader) => some (.ok (bs.getD 1 0 ||| (bs.getD 0 0 <<< 8)), reader)

/-- The function `WriteUnsignedShort`: `binary.Write` of a `uint16`, big endian. -/
def WriteUnsignedShort (i : Nat) : List Nat :=
  [(i >>> 8) % 256, i % 256]

/-- The function `ReadUnsignedInt`: `io.ReadFull` of four bytes and
`binary.BigEndian.Uint32`. -/
def ReadUnsignedInt {ρ : Type} [Reader ρ] (fuel : Nat) (reader : ρ) :
    Option (Except Error Nat × ρ) :=
  match ioReadFull fuel reader 4 with
  | none => none
  | some ((_, some err), reader) => some (.error err, reader)
  | some ((bs, none), reader) =>
    some (.ok (bs.getD 3 0 ||| (bs.getD 2 0 <<< 8) ||| (bs.getD 1 0 <<< 16)
      ||| (bs.getD 0 0 <<< 24)), reader)

/-- The constant `bytes.MinRead`. -/
def MinRead : Nat := 512

/-- The loop of `(*bytes.Buffer).ReadFrom`: read from `r` and append to the buffer
until `r` reports an error; `io.EOF` ends the copy without one. The buffer passes
the room it has after growing by `MinRead`, which is `MinRead` bytes at least: the
model passes `MinRead`. `n` counts the bytes read. -/
def Buffer.ReadFrom.loop {ρ : Type} [Reader ρ] :
    Nat → Buffer → ρ → Nat → Option ((Buffer × Nat × Option Error) × ρ)
  | 0, _, _, _ => none
  | fuel + 1, b, r, n =>
    match Reader.Read r MinRead with
    | ((d, e), r) =>
      let b : Buffer := ⟨b.buf ++ d⟩
      let n := n + d.length
      match e with
      | none => Buffer.ReadFrom.loop fuel b r n
      | some e => if e = .EOF then some ((b, n, none), r) else some ((b, n, some e), r)

/-- The function `io.CopyN(dst, src, n)` for a `bytes.Buffer` as `dst`: it is
`dst.ReadFrom(io.LimitReader(src, n))`, with `io.EOF` for a copy that ended before
`n` bytes without an error. -/
def ioCopyN {ρ : Type} [Reader ρ] (fuel : Nat) (dst : Buffer) (src : ρ) (n : Int) :
    Option ((Buffer × Option Error) × ρ) :=
  match Buffer.ReadFrom.loop fuel dst (LimitReader src n) 0 with
  | none => none
  | some ((dst, written, err), l) =>
    if (written : Int) = n then some ((dst, none), l.R)
    else if (written : Int) < n ∧ err = none then some ((dst, some .EOF), l.R)
    else some ((dst, err), l.R)

/-- The function `ReadByteArray`. The buffer that receives the copy is made
with `bytes.NewBuffer(make([]byte, n1))`, whose content is the `n1` zero bytes of
the slice. -/
def ReadByteArray {ρ : Type} [Reader ρ] (fuel : Nat) (reader : ρ) :
    Option (Except Error (List Nat) × ρ) :=
  match ReadVarInt fuel reader with
  | none => none
  | some (.error err, reader) => some (.error err, reader)
  | some (.ok n1, reader) =>
    match ioCopyN fuel (NewBuffer (List.replicate n1.toNat 0)) reader n1 with
    | none => none
    | some ((_, some err), reader) => some (.error err, reader)
    | some ((buf, none), reader) => some (.ok buf.Bytes, reader)

/-- The function `WriteByteArray`: the bytes it writes to `w`. -/
def WriteByteArray (bytes : List Nat) : List Nat :=
  WriteVarInt bytes.length ++ bytes

/-! ## read.go: frames -/

/-- The effect of a `Read` into `payload[total:]` that stored the bytes `d`. -/
def storeAt (payload : List Nat) (total : Nat) (d : List Nat) : List Nat :=
  payload.take total ++ d ++ payload.drop (total + d.length)

/-- The loop of `ReadFrame`. An error other than `io.EOF` is returned; `io.EOF`
is not, and the loop goes on (after a sleep when nothing was read). -/
def ReadFrame.loop {ρ : Type} [Reader ρ] :
    Nat → ρ → Frame → Nat → Option (Except Error Frame × ρ)
  | 0, _, _, _ => none
  | fuel + 1, reader, frame, total =>
    if (total : Int) < frame.Length then
      match Reader.Read reader (frame.Payload.length - total) with
      | ((d, err), reader) =>
        match err.filter (fun e => e ≠ Error.EOF) with
        | some e => some (.error e, reader)
        | none =>
          ReadFrame.loop fuel reader
            { frame with Payload := storeAt frame.Payload total d } (total + d.length)
    else some (.ok frame, reader)

/-- The function `ReadFrame`. -/
def ReadFrame {ρ : Type} [Reader ρ] (fuel : Nat) (reader : ρ) :
    Option (Except Error Frame × ρ) :=
  match ReadVarInt fuel reader with
  | none => none
  | some (.error err, reader) => some (.error err, reader)
  | some (.ok length, reader) =>
    ReadFrame.loop fuel reader ⟨length, List.replicate length.toNat 0⟩ 0

/-! ## read.go: the legacy server list ping -/

/-- The function `utf8.EncodeRune`: a surrogate or a value above `U+10FFFF` is
written as `U+FFFD`. -/
def EncodeRune (r : Nat) : List Nat :=
  if r ≤ 0x7F then [r]
  else if r ≤ 0x7FF then [0xC0 ||| (r >>> 6), 0x80 ||| (r &&& 0x3F)]
  else if r > 0x10FFFF ∨ (0xD800 ≤ r ∧ r ≤ 0xDFFF) then [0xEF, 0xBF, 0xBD]
  else if r ≤ 0xFFFF then
    [0xE0 ||| (r >>> 12), 0x80 ||| ((r >>> 6) &&& 0x3F), 0x80 ||| (r &&& 0x3F)]
  else
    [0xF0 ||| (r >>> 18), 0x80 ||| ((r >>> 12) &&& 0x3F), 0x80 ||| ((r >>> 6) &&& 0x3F),
      0x80 ||| (r &&& 0x3F)]

/-- The function `utf16.DecodeRune`: the code point of a surrogate pair, or
`U+FFFD` when the two values are not one. -/
def DecodeRune (r1 r2 : Nat) : Nat :=
  if 0xD800 ≤ r1 ∧ r1 < 0xDC00 ∧ 0xDC00 ≤ r2 ∧ r2 < 0xE000 then
    (((r1 - 0xD800) <<< 10) ||| (r2 - 0xDC00)) + 0x10000
  else 0xFFFD

/-- The decoder `unicode.UTF16(unicode.BigEndian, unicode.IgnoreBOM).NewDecoder()`
run by `transform.Bytes` on the whole of `src`: two bytes a code unit, a
surrogate followed by a unit in `DC00..DFFF` read as a pair, whatever is not a
code point written as `U+FFFD`, as is a single trailing byte. The result is
UTF-8 and there is no error. -/
def decodeUTF16BE : List Nat → List Nat
  | [] => []
  | [_] => EncodeRune 0xFFFD
  | b0 :: b1 :: rest =>
    let x := ((b0 <<< 8) ||| b1) % 2 ^ 16
    let single := EncodeRune x ++ decodeUTF16BE rest
    if 0xD800 ≤ x ∧ x < 0xE000 then
      match rest with
      | b2 :: b3 :: rest2 =>
        let y := ((b2 <<< 8) ||| b3) % 2 ^ 16
        if 0xDC00 ≤ y ∧ y ≤ 0xDFFF then EncodeRune (DecodeRune x y) ++ decodeUTF16BE rest2
        else single
      | _ => single
    else single

/-- The function `ReadUTF16BEString`. The size of the slice is computed in
`uint16`. -/
def ReadUTF16BEString {ρ : Type} [Reader ρ] (fuel : Nat) (reader : ρ) (symbolLen : Nat) :
    Option (Except Error (List Nat) × ρ) :=
  match ioReadFull fuel reader ((symbolLen * 2) % 2 ^ 16) with
  | none => none
  | some ((_, some err), reader) => some (.error err, reader)
  | some ((bsUtf16be, none), reader) => some (.ok (decodeUTF16BE bsUtf16be), reader)

/-- The string `"MC|PingHost"`. -/
def pingHost : List Nat := [77, 67, 124, 80, 105, 110, 103, 72, 111, 115, 116]

/-- The part of `ReadLegacyServerListPing` that reads through the limited
reader, from `protocolVersion` on. -/
def ReadLegacyServerListPing.remaining {ρ : Type} [Reader ρ] (fuel : Nat)
    (remainingReader : ρ) : Option (Except Error Packet) :=
  match ReadByte remainingReader with
  | (.error err, _) => some (.error err)
  | (.ok protocolVersion, remainingReader) =>
    match ReadUnsignedShort fuel remainingReader with
    | none => none
    | some (.error err, _) => some (.error err)
    | some (.ok hostnameLen, remainingReader) =>
      match ReadUTF16BEString fuel remainingReader hostnameLen with
      | none => none
      | some (.error err, _) => some (.error err)
      | some (.ok hostname, remainingReader) =>
        match ReadUnsignedInt fuel remainingReader with
        | none => none
        | some (.error err, _) => some (.error err)
        | some (.ok port, _) =>
          some (.ok {
            PacketID := PacketIdLegacyServerListPing
            Length := 0
            Data := .legacy {
              ProtocolVersion := protocolVersion
              ServerAddress := hostname
              ServerPort := port % 2 ^ 16 } })

/-- The part of `ReadLegacyServerListPing` from `messageNameShortLen` on. The
error of the read of `messageName` is not looked at, only the string (empty on
an error); neither is the error of the read of `remainingLen` (zero on an
error). -/
def ReadLegacyServerListPing.message {ρ : Type} [Reader ρ] (fuel : Nat)
    (reader : BufReader ρ) : Option (Except Error Packet) :=
  match ReadUnsignedShort fuel reader with
  | none => none
  | some (.error err, _) => some (.error err)
  | some (.ok messageNameShortLen, reader) =>
    if messageNameShortLen ≠ 11 then
      some (.error (.Errorf
        "expected messageNameShortLen=11 from legacy server listing ping, got %d"
        [messageNameShortLen]))
    else
      match ReadUTF16BEString fuel reader messageNameShortLen with
      | none => none
      | some (res, reader) =>
        let messageName := match res with
          | .ok s => s
          | .error _ => []
        if messageName ≠ pingHost then
          some (.error (.Errorf "expected messageName=MC|PingHost, got %s" messageName))
        else
          match ReadUnsignedShort fuel reader with
          | none => none
          | some (res, reader) =>
            let remainingLen := match res with
              | .ok v => v
              | .error _ => 0
            ReadLegacyServerListPing.remaining fuel (LimitReader reader (remainingLen : Int))

/-- The function `ReadLegacyServerListPing`. -/
def ReadLegacyServerListPing {ρ : Type} [Reader ρ] (fuel : Nat) (reader : BufReader ρ) :
    Option (Except Error Packet) :=
  match reader.ReadByte with
  | (.error err, _) => some (.error err)
  | (.ok packetId, reader) =>
    if packetId ≠ PacketIdLegacyServerListPing then
      some (.error (.Errorf "expected legacy server listing ping packet ID, got %x"
        [packetId]))
    else
      match reader.ReadByte with
      | (.error err, _) => some (.error err)
      | (.ok payload, reader) =>
        if payload ≠ 0x01 then
          some (.error (.Errorf
            "expected payload=1 from legacy server listing ping, got %x" [payload]))
        else
          match reader.ReadByte with
          | (.error err, _) => some (.error err)
          | (.ok packetIdForPluginMsg, reader) =>
            if packetIdForPluginMsg ≠ 0xFA then
              some (.error (.Errorf
                "expected packetIdForPluginMsg=0xFA from legacy server listing ping, got %x"
                [packetIdForPluginMsg]))
            else ReadLegacyServerListPing.message fuel reader

/-! ## read.go: packets and the handshake -/

/-- The part of `ReadPacket` after the choice of the reader: one frame, whose
payload is a VarInt packet id and the data. -/
def ReadPacket.framed {ρ : Type} [Reader ρ] (fuel : Nat) (reader : ρ) :
    Option (Except Error Packet) :=
  match ReadFrame fuel reader with
  | none => none
  | some (.error err, _) => some (.error err)
  | some (.ok frame, _) =>
    match ReadVarInt fuel (NewBuffer frame.Payload) with
    | none => none
    | some (.error err, _) => some (.error err)
    | some (.ok packetID, remainder) =>
      some (.ok { Length := frame.Length, PacketID := packetID,
                  Data := .bytes remainder.Bytes })

/-- The function `ReadPacket`. In the state `StateHandshaking` the first byte is
looked at through a `bufio.Reader`, and `0xFE` sends the packet to
`ReadLegacyServerListPing`. -/
def ReadPacket {ρ : Type} [Reader ρ] (fuel : Nat) (reader : ρ) (state : State) :
    Option (Except Error Packet) :=
  if state = StateHandshaking then
    match (NewReader reader).Peek1 with
    | (.error err, _) => some (.error err)
    | (.ok data0, bufReader) =>
      if data0 = PacketIdLegacyServerListPing then ReadLegacyServerListPing fuel bufReader
      else ReadPacket.framed fuel bufReader
  else ReadPacket.framed fuel reader

/-- The function `ReadHandshake`. -/
def ReadHandshake (fuel : Nat) (data : PacketData) : Option (Except Error Handshake) :=
  match data with
  | .legacy _ => some (.error (.New "data is not expected byte slice"))
  | .bytes dataBytes =>
    match ReadVarInt fuel (NewBuffer dataBytes) with
    | none => none
    | some (.error err, _) => some (.error err)
    | some (.ok protocolVersion, buffer) =>
      match ReadString fuel buffer with
      | none => none
      | some (.error err, _) => some (.error err)
      | some (.ok serverAddress, buffer) =>
        match ReadUnsignedShort fuel buffer with
        | none => none
        | some (.error err, _) => some (.error err)
        | some (.ok serverPort, buffer) =>
          match ReadVarInt fuel buffer with
          | none => none
          | some (.error err, _) => some (.error err)
          | some (.ok nextState, _) =>
            some (.ok {
              ProtocolVersion := protocolVersion
              ServerAddress := serverAddress
              ServerPort := serverPort
              NextState := nextState })

/-- The function `WriteHandShake`: the bytes it writes to `w`. -/
def WriteHandShake (handshake : Handshake) : List Nat :=
  WriteVarInt handshake.ProtocolVersion
    ++ WriteString handshake.ServerAddress
    ++ WriteUnsignedShort (handshake.ServerPort % 2 ^ 16)
    ++ WriteVarInt handshake.NextState

/-! ## The vocabulary of the statements

What follows is not in the Go code: the streams that a reader supplies, and the
value and the shape of a VarInt on the wire. -/

/-- A family of reader states that hands out the bytes `pend r` still to come:
a `Read` with a non-empty buffer, while bytes are pending, returns a first part
`d` of them and leaves the rest pending. It may return nothing, which uses up one
of the `stall r` idle reads that are left. It reports no error, except that with
`lax` the read that delivers the last pending byte may report `io.EOF`. -/
structure Tracks {ρ : Type} [Reader ρ] (pend : ρ → List Nat) (stall : ρ → Nat)
    (ok : ρ → Prop) (lax : Prop) : Prop where
  step : ∀ (r : ρ) (k : Nat), ok r → 0 < k → pend r ≠ [] →
    ∃ d e r', Reader.Read r k = ((d, e), r') ∧ d.length ≤ k ∧ d ++ pend r' = pend r ∧
      ok r' ∧ stall r' ≤ stall r ∧ (d = [] → stall r' < stall r) ∧
      (e = none ∨ (lax ∧ e = some Error.EOF ∧ pend r' = []))

/-- The value that the loop of `ReadVarInt` has built once it has taken the
bytes of the list, from `numRead` and `result`. -/
def decodeFrom : Nat → Nat → List Nat → Nat
  | _, result, [] => result
  | numRead, result, b :: bs =>
    decodeFrom (numRead + 1) (result ||| ((b &&& 0x7F) <<< (7 * numRead))) bs

/-- A run of bytes with the continuation bit set, ended by one byte without. -/
def Terminated : List Nat → Prop
  | [] => False
  | [b] => b &&& 0x80 = 0
  | b :: b' :: bs => b &&& 0x80 ≠ 0 ∧ Terminated (b' :: bs)

instance : DecidablePred Terminated := by
  intro l
  induction l with
  | nil => exact isFalse (by simp [Terminated])
  | cons b bs ih =>
    cases bs with
    | nil => exact decEq _ _
    | cons b' bs => exact @instDecidableAnd _ _ _ ih

/-- The value of a run of 7-bit groups, least significant group first. -/
def leValue : List Nat → Nat
  | [] => 0
  | b :: bs => b % 128 + 128 * leValue bs

/-- The groups that `WriteVarInt.loop` appends, by division instead of shifts. -/
def groups : Nat → Nat → List Nat
  | 0, _ => []
  | fuel + 1, num =>
    if num / 128 = 0 then [num % 128] else (num % 128 + 128) :: groups fuel (num / 128)

/-- The bytes that a connection has still to deliver. -/
def Conn.pend (c : Conn) : List Nat := c.chunks.flatten

/-- The number of reads of zero bytes that a connection has still to deliver. -/
def Conn.stall (c : Conn) : Nat := c.chunks.countP (fun d => d.isEmpty)

/-- The bytes that a `bufio.Reader` has still to deliver: the buffered data,
then what its reader has. -/
def BufReader.pend {ρ : Type} (pend : ρ → List Nat) (b : BufReader ρ) : List Nat :=
  b.buf ++ pend b.rd

/-- The state of a `bufio.Reader` over a tracked reader: an error is kept back
only once the reader has delivered everything. -/
def BufReader.ok {ρ : Type} (pend : ρ → List Nat) (ok : ρ → Prop) (b : BufReader ρ) : Prop :=
  ok b.rd ∧ (b.err = none ∨ pend b.rd = [])

/-- A family of reader states at the end of the stream: with no bytes pending, a
`Read` with a non-empty buffer returns no data, and either an error or nothing at
all, which uses up one of the idle reads that are left. -/
structure Ends {ρ : Type} [Reader ρ] (pend : ρ → List Nat) (stall : ρ → Nat)
    (ok : ρ → Prop) : Prop where
  stop : ∀ (r : ρ) (k : Nat), ok r → 0 < k → pend r = [] →
    ∃ e r', Reader.Read r k = (([], e), r') ∧ ok r' ∧ pend r' = [] ∧
      stall r' ≤ stall r ∧ (e = none → stall r' < stall r)

/-- The bytes that a limited reader has still to deliver: those of its reader,
up to the limit. -/
def LimitedReader.pend {ρ : Type} (pend : ρ → List Nat) (l : LimitedReader ρ) : List Nat :=
  (pend l.R).take l.N.toNat

/-- The state of a limited reader over a tracked reader that has as many bytes
pending as the limit allows. -/
def LimitedReader.ok {ρ : Type} (pend : ρ → List Nat) (ok : ρ → Prop)
    (l : LimitedReader ρ) : Prop :=
  ok l.R ∧ 0 ≤ l.N ∧ l.N.toNat ≤ (pend l.R).length

/-- The bytes of UTF-16 code units, big endian. -/
def utf16BE (units : List Nat) : List Nat :=
  units.flatMap WriteUnsignedShort

/-- The four bytes of a `uint32`, big endian. -/
def u32BE (v : Nat) : List Nat :=
  [(v >>> 24) % 256, (v >>> 16) % 256, (v >>> 8) % 256, v % 256]

/-- The bytes of a legacy server list ping, as a client sends it for the
protocol byte `v`, the host name of the UTF-16 code units `h` and the port `p`:
`FE 01 FA`, the length 11 and the text of `MC|PingHost`, the length of what
remains as a `uint16`, then `v`, the number of code units of the host name, the
host name, and the port as a `uint32`. -/
def legacyPing (v : Nat) (h : List Nat) (p : Nat) : List Nat :=
  [0xFE, 0x01, 0xFA] ++ WriteUnsignedShort 11 ++ utf16BE pingHost
    ++ WriteUnsignedShort (7 + 2 * h.length)
    ++ ([v] ++ WriteUnsignedShort h.length ++ utf16BE h ++ u32BE p)

/-- A stream whose first 27 bytes are not the head of a legacy server list
ping: the second byte is not `01`, or the third is not `FA`, or the length of the
message name is not 11, or the 22 bytes after it do not decode to `MC|PingHost`,
or the stream ends before these 27 bytes are complete. -/
def MalformedLegacyPing (s : List Nat) : Prop :=
  (∃ x, s[1]? = some x ∧ x ≠ 0x01) ∨ (∃ x, s[2]? = some x ∧ x ≠ 0xFA) ∨
  (∃ hi lo, s[3]? = some hi ∧ s[4]? = some lo ∧ hi * 256 + lo ≠ 11) ∨
  (27 ≤ s.length ∧ decodeUTF16BE ((s.drop 5).take 22) ≠ pingHost) ∨
  s.length < 27

/-- A stream that starts with the head of a legacy server list ping, as
`ReadLegacyServerListPing` takes it. -/
def LegacyHead (s : List Nat) : Prop :=
  ∃ hi lo w rest, s = 0xFE :: 0x01 :: 0xFA :: hi :: lo :: (w ++ rest) ∧
    lo ||| (hi <<< 8) = 11 ∧ w.length = 22 ∧ decodeUTF16BE w = pingHost

end mcproto

namespace server

/-! ## k8s.go

In this package a Go `string` is the list of its characters: the code compares
strings, joins them and splits them at the comma, for which the characters and the
bytes of a string agree. The calls that the handlers make on the route table
`Routes` are the list of the calls, in the order they are made. -/

def AnnotationExternalServerName : List Char := "mc-router.itzg.me/externalServerName".toList
def AnnotationDefaultServer : List Char := "mc-router.itzg.me/defaultServer".toList

/-- The struct `v1.ServicePort`, by the fields that the code reads; `Port` is an
`int32`. -/
structure ServicePort where
  Name : List Char
  Port : Int
  deriving DecidableEq, Repr

/-- The struct `v1.Service`, by the fields that the code reads: the map
`Annotations`, as its lookup, and `Spec.ClusterIP` and `Spec.Ports`. -/
structure Service where
  Annotations : List Char → Option (List Char)
  ClusterIP : List Char
  Ports : List ServicePort

/-- The argument `obj interface{}` of the handlers: a `*v1.Service`, or a value
of another type. -/
inductive Obj where
  | service (s : Service)
  | other

/-- The struct `routableService`. -/
structure routableService where
  externalServiceName : List Char
  containerEndpoint : List Char
  deriving DecidableEq, Repr

/-- The function `strings.Split(s, sep)` for a separator `sep` of one character:
the pieces of `s` between the separators, one more than there are separators. -/
def stringsSplit (s : List Char) (sep : Char) : List (List Char) :=
  List.splitOn sep s

/-- The function `strconv.Itoa`: the decimal digits, after a minus sign for a
negative number. -/
def Itoa (i : Int) : List Char :=
  if i < 0 then '-' :: Nat.toDigits 10 i.natAbs else Nat.toDigits 10 i.toNat

/-- The function `net.JoinHostPort`: `host:port`, and `[host]:port` for a host
with a colon in it, as a literal IPv6 address has. -/
def JoinHostPort (host port : List Char) : List Char :=
  if ':' ∈ host then "[".toList ++ host ++ "]:".toList ++ port
  else host ++ ":".toList ++ port

/-- The function `buildDetails`. -/
def buildDetails (service : Service) (externalServiceName : List Char) : routableService :=
  let clusterIp := service.ClusterIP
  let port := service.Ports.foldl
    (fun port p => if p.Name = "mc-router".toList then Itoa p.Port else port) "25565".toList
  { externalServiceName := externalServiceName
    containerEndpoint := JoinHostPort clusterIp port }

/-- The function `extractRoutableServices`; `nil` is the empty list. -/
def extractRoutableServices (obj : Obj) : List routableService :=
  match obj with
  | .other => []
  | .service service =>
    match service.Annotations AnnotationExternalServerName with
    | some externalServiceName =>
      (stringsSplit externalServiceName ',').foldl
        (fun routableServices serviceName =>
          routableServices ++ [buildDetails service serviceName]) []
    | none =>
      match service.Annotations AnnotationDefaultServer with
      | some _ => [buildDetails service []]
      | none => []

/-- A call on the route table `Routes`. -/
inductive RouteOp where
  | CreateMapping (host endpoint : List Char)
  | DeleteMapping (host : List Char)
  | SetDefaultRoute (endpoint : List Char)
  deriving DecidableEq, Repr

/-- The method `handleDelete`: the calls it makes, one for each routable
service. -/
def handleDelete (obj : Obj) : List RouteOp :=
  (extractRoutableServices obj).map fun routableService =>
    if routableService.externalServiceName ≠ [] then
      .DeleteMapping routableService.externalServiceName
    else .SetDefaultRoute []

/-- The method `handleAdd`: the calls it makes, one for each routable service. -/
def handleAdd (obj : Obj) : List RouteOp :=
  (extractRoutableServices obj).map fun routableService =>
    if routableService.externalServiceName ≠ [] then
      .CreateMapping routableService.externalServiceName routableService.containerEndpoint
    else .SetDefaultRoute routableService.containerEndpoint

end server

namespace mcproto

/-! ## Readers that supply a known stream -/

theorem Terminated.length_pos {l : List Nat} (h : Terminated l) : 0 < l.length := by
  cases l with
  | nil => exact absurd h (by simp [Terminated])
  | cons b bs => simp

/-- A read of one byte from a tracked reader, with a byte pending: it stalls or
it delivers that byte, without an error. -/
theorem Tracks.step_one {ρ : Type} [Reader ρ] {pend : ρ → List Nat} {stall : ρ → Nat}
    {ok : ρ → Prop} {lax : Prop} (T : Tracks pend stall ok lax) (r : ρ) (b : Nat)
    (rest : List Nat) (hok : ok r) (hp : pend r = b :: rest) (hl : lax → rest ≠ []) :
    ∃ r', ok r' ∧ stall r' ≤ stall r ∧
      ((Reader.Read r 1 = (([], none), r') ∧ pend r' = b :: rest ∧ stall r' < stall r) ∨
       (Reader.Read r 1 = (([b], none), r') ∧ pend r' = rest)) := by
  obtain ⟨d, e, r', hr, hlen, hd, hok', hst, hst', he⟩ :=
    T.step r 1 hok Nat.one_pos (by rw [hp]; exact List.cons_ne_nil _ _)
  refine ⟨r', hok', hst, ?_⟩
  match d, hlen, hd, hst', hr with
  | [], _, hd, hst', hr =>
    left
    have hp' : pend r' = b :: rest := by rw [← hp, ← hd]; rfl
    rcases he with he | ⟨_, _, he⟩
    · exact ⟨by rw [hr, he], hp', hst' rfl⟩
    · rw [hp'] at he; exact absurd he (List.cons_ne_nil _ _)
  | [x], _, hd, _, hr =>
    right
    rw [hp] at hd
    have hx : x = b := (List.cons.inj hd).1
    have hp' : pend r' = rest := (List.cons.inj hd).2
    subst hx
    rcases he with he | ⟨hlax, _, he⟩
    · exact ⟨by rw [hr, he], hp'⟩
    · rw [hp'] at he; exact absurd he (hl hlax)
  | _ :: _ :: _, hlen, _, _, _ => simp at hlen

/-- `ReadVarInt` on a tracked reader whose pending bytes start with a terminated
run of at most six bytes: it returns the value of the run and leaves the bytes
after it pending. -/
theorem ReadVarInt_loop_ok {ρ : Type} [Reader ρ] {pend : ρ → List Nat} {stall : ρ → Nat}
    {ok : ρ → Prop} {lax : Prop} (T : Tracks pend stall ok lax) (rest : List Nat)
    (hl : lax → rest ≠ []) :
    ∀ (fuel : Nat) (r : ρ) (numRead result : Nat) (enc : List Nat),
      ok r → pend r = enc ++ rest → Terminated enc → numRead + enc.length ≤ 6 →
      stall r + enc.length ≤ fuel →
      ∃ r', ReadVarInt.loop fuel r numRead result
          = some (.ok (decodeFrom numRead result enc : Int), r') ∧
        pend r' = rest ∧ ok r' ∧ stall r' ≤ stall r := by
  intro fuel
  induction fuel with
  | zero =>
    intro r numRead result enc _ _ ht _ hf
    have := ht.length_pos
    omega
  | succ fuel ih =>
    intro r numRead result enc hok hp ht hn hf
    match enc, ht, hp, hn, hf with
    | [b], ht, hp, hn, hf =>
      obtain ⟨r', hok', hst, h | h⟩ := T.step_one r b rest hok (by simpa using hp) hl
      · obtain ⟨hr, hp', hlt⟩ := h
        obtain ⟨r'', h1, h2, h3, h4⟩ := ih r' numRead result [b] hok' hp' ht hn
          (by simp at hf ⊢; omega)
        refine ⟨r'', ?_, h2, h3, by omega⟩
        rw [ReadVarInt.loop, if_pos (by simp at hn; omega), hr]
        exact h1
      · obtain ⟨hr, hp'⟩ := h
        refine ⟨r', ?_, hp', hok', hst⟩
        have ht' : b &&& 0x80 = 0 := ht
        rw [ReadVarInt.loop, if_pos (by simp at hn; omega), hr]
        simp [ht', decodeFrom]
    | b :: b' :: bs, ht, hp, hn, hf =>
      have hl' : lax → (b' :: bs ++ rest) ≠ [] := fun _ => by simp
      obtain ⟨r', hok', hst, h | h⟩ :=
        T.step_one r b (b' :: bs ++ rest) hok (by simpa using hp) hl'
      · obtain ⟨hr, hp', hlt⟩ := h
        obtain ⟨r'', h1, h2, h3, h4⟩ := ih r' numRead result (b :: b' :: bs) hok' hp' ht hn
          (by simp at hf ⊢; omega)
        refine ⟨r'', ?_, h2, h3, by omega⟩
        rw [ReadVarInt.loop, if_pos (by simp at hn; omega), hr]
        exact h1
      · obtain ⟨hr, hp'⟩ := h
        obtain ⟨hb, ht'⟩ : b &&& 0x80 ≠ 0 ∧ Terminated (b' :: bs) := ht
        obtain ⟨r'', h1, h2, h3, h4⟩ := ih r' (numRead + 1)
          (result ||| ((b &&& 0x7F) <<< (7 * numRead))) (b' :: bs) hok' hp' ht'
          (by simp at hn ⊢; omega) (by simp at hf ⊢; omega)
        refine ⟨r'', ?_, h2, h3, by omega⟩
        rw [ReadVarInt.loop, if_pos (by simp at hn; omega), hr]
        simp only [beq_iff_eq, hb, if_false]
        exact h1

/-! ## The arithmetic of VarInts -/

theorem low7_lor_high (x : Nat) (h : x < 128) : x ||| 0x80 = x + 128 := by
  interval_cases x <;> rfl

theorem high_bit_clear (x : Nat) (h : x < 128) : x &&& 0x80 = 0 := by
  interval_cases x <;> rfl

theorem high_bit_set (x : Nat) (h : x < 128) : (x + 128) &&& 0x80 ≠ 0 := by
  interval_cases x <;> decide

theorem land_7F (b : Nat) : b &&& 0x7F = b % 128 :=
  Nat.and_pow_two_sub_one_eq_mod b 7

theorem WriteVarInt_loop_eq (fuel : Nat) :
    ∀ (num : Nat) (vi : List Nat), WriteVarInt.loop fuel num vi = vi ++ groups fuel num := by
  induction fuel with
  | zero => intro num vi; simp [WriteVarInt.loop, groups]
  | succ fuel ih =>
    intro num vi
    have hlt : num % 128 < 128 := Nat.mod_lt _ (by norm_num)
    rw [WriteVarInt.loop, groups]
    simp only [land_7F, Nat.shiftRight_eq_div_pow, bne_iff_ne, ne_eq, beq_iff_eq]
    norm_num
    by_cases h : num / 128 = 0
    · have h1 : num % 128 % 256 = num % 128 := Nat.mod_eq_of_lt (by omega)
      simp [h, h1]
    · have h1 : (num % 128 ||| 128) % 256 = num % 128 + 128 := by
        rw [low7_lor_high _ hlt]; exact Nat.mod_eq_of_lt (by omega)
      simp [h, h1, ih]

theorem groups_terminated (fuel : Nat) :
    ∀ num, num < fuel → Terminated (groups fuel num) := by
  induction fuel with
  | zero => intro num h; omega
  | succ fuel ih =>
    intro num h
    have hlt : num % 128 < 128 := Nat.mod_lt _ (by norm_num)
    rw [groups]
    by_cases h0 : num / 128 = 0
    · simp only [h0, if_true]
      exact high_bit_clear _ hlt
    · simp only [h0, if_false]
      have hrec := ih (num / 128) (by omega)
      match hg : groups fuel (num / 128), hrec with
      | [], hrec => exact absurd hrec (by simp [Terminated])
      | b :: bs, hrec => exact ⟨high_bit_set _ hlt, hrec⟩

theorem groups_value (fuel : Nat) : ∀ num, num < fuel → leValue (groups fuel num) = num := by
  induction fuel with
  | zero => intro num h; omega
  | succ fuel ih =>
    intro num h
    rw [groups]
    by_cases h0 : num / 128 = 0
    · simp only [h0, if_true, leValue]; omega
    · simp only [h0, if_false, leValue]
      rw [ih (num / 128) (by omega)]
      omega

theorem groups_length (fuel : Nat) :
    ∀ num k, num < fuel → num < 128 ^ (k + 1) → (groups fuel num).length ≤ k + 1 := by
  induction fuel with
  | zero => intro num k h; omega
  | succ fuel ih =>
    intro num k h hk
    rw [groups]
    by_cases h0 : num / 128 = 0
    · simp [h0]
    · simp only [h0, if_false, List.length_cons]
      match k, hk with
      | 0, hk => simp at hk; omega
      | k + 1, hk =>
        have := ih (num / 128) k (by omega)
          (by rw [Nat.div_lt_iff_lt_mul (by norm_num)]; rw [pow_succ] at hk; exact hk)
        omega

theorem groups_bytes (fuel : Nat) : ∀ num, ∀ b ∈ groups fuel num, b < 256 := by
  induction fuel with
  | zero => intro num b hb; simp [groups] at hb
  | succ fuel ih =>
    intro num b hb
    rw [groups] at hb
    by_cases h0 : num / 128 = 0
    · simp [h0] at hb; omega
    · simp only [h0, if_false, List.mem_cons] at hb
      rcases hb with hb | hb
      · omega
      · exact ih _ b hb

/-- The last group is zero only in the encoding of zero, the single byte `0x00`. -/
theorem groups_last (fuel : Nat) :
    ∀ num, num < fuel → (groups fuel num).getLast? = some 0 → groups fuel num = [0] := by
  induction fuel with
  | zero => intro num h; omega
  | succ fuel ih =>
    intro num h
    rw [groups]
    by_cases h0 : num / 128 = 0
    · simp only [h0, if_true]
      intro hl
      simp at hl
      simp [hl]
    · simp only [h0, if_false]
      intro hl
      have hne : groups fuel (num / 128) ≠ [] := by
        have := (groups_terminated fuel (num / 128) (by omega)).length_pos
        intro hn; rw [hn] at this; simp at this
      have hl' : (groups fuel (num / 128)).getLast? = some 0 := by
        match hg : groups fuel (num / 128), hne with
        | [], hne => exact absurd rfl hne
        | b :: bs, _ => rw [hg, List.getLast?_cons_cons] at hl; exact hl
      have h1 := ih (num / 128) (by omega) hl'
      have h2 := groups_value fuel (num / 128) (by omega)
      rw [h1] at h2
      simp [leValue] at h2
      omega

theorem decodeFrom_eq (enc : List Nat) :
    ∀ numRead result, result < 128 ^ numRead →
      decodeFrom numRead result enc = result + 128 ^ numRead * leValue enc := by
  induction enc with
  | nil => intro numRead result _; simp [decodeFrom, leValue]
  | cons b bs ih =>
    intro numRead result h
    have hlt : b % 128 < 128 := Nat.mod_lt _ (by norm_num)
    have hpow : (128 : Nat) ^ numRead = 2 ^ (7 * numRead) := by
      rw [pow_mul]; norm_num
    have hor : result ||| ((b &&& 0x7F) <<< (7 * numRead))
        = result + 128 ^ numRead * (b % 128) := by
      rw [land_7F, Nat.shiftLeft_eq, Nat.lor_comm, hpow, Nat.mul_comm (b % 128),
        ← Nat.mul_add_lt_is_or (by rw [← hpow]; exact h), Nat.add_comm]
    rw [decodeFrom, hor, ih (numRead + 1) _ (by
      rw [pow_succ]
      calc result + 128 ^ numRead * (b % 128)
          < 128 ^ numRead + 128 ^ numRead * (b % 128) := by omega
        _ = 128 ^ numRead * (b % 128 + 1) := by ring
        _ ≤ 128 ^ numRead * 128 := Nat.mul_le_mul_left _ (by omega)), leValue]
    ring

/-- The conversion `uint64` gives a value of 64 bits. -/
theorem uint64_lt (i : Int) : uint64 i < 2 ^ 64 := by
  unfold uint64
  have h1 : (0 : Int) ≤ i % 2 ^ 64 := Int.emod_nonneg _ (by norm_num)
  have h2 : i % 2 ^ 64 < 2 ^ 64 := Int.emod_lt_of_pos _ (by norm_num)
  omega

theorem uint64_of_nat (n : Nat) (h : n < 2 ^ 64) : uint64 (n : Int) = n := by
  unfold uint64
  have : ((n : Int) % 2 ^ 64) = n := Int.emod_eq_of_lt (by omega) (by exact_mod_cast h)
  rw [this]; simp

theorem WriteVarInt_eq (i : Int) : WriteVarInt i = groups (uint64 i + 1) (uint64 i) := by
  rw [WriteVarInt, WriteVarInt_loop_eq]; simp

theorem WriteVarInt_terminated (i : Int) : Terminated (WriteVarInt i) := by
  rw [WriteVarInt_eq]; exact groups_terminated _ _ (by omega)

theorem WriteVarInt_decode (i : Int) : decodeFrom 0 0 (WriteVarInt i) = uint64 i := by
  rw [decodeFrom_eq _ 0 0 (by norm_num), WriteVarInt_eq, groups_value _ _ (by omega)]
  simp

theorem WriteVarInt_length (i : Int) (k : Nat) (h : uint64 i < 128 ^ (k + 1)) :
    (WriteVarInt i).length ≤ k + 1 := by
  rw [WriteVarInt_eq]; exact groups_length _ _ k (by omega) h

/-! ## The readers of the model are tracked -/

theorem take_ne_nil {d : List Nat} {k : Nat} (hd : d ≠ []) (hk : 0 < k) : d.take k ≠ [] := by
  cases d with
  | nil => exact absurd rfl hd
  | cons x xs =>
    cases k with
    | zero => omega
    | succ k => simp

/-- A `bytes.Buffer` hands out its bytes without stalls or errors. -/
theorem Buffer_tracks :
    Tracks (fun b : Buffer => b.buf) (fun _ => 0) (fun _ => True) False where
  step := by
    intro r k _ hk hp
    have hp' : r.buf ≠ [] := hp
    refine ⟨r.buf.take k, none, ⟨r.buf.drop k⟩, ?_, ?_, ?_, trivial, le_refl _, ?_, Or.inl rfl⟩
    · show Buffer.Read r k = _
      simp [Buffer.Read, hp']
    · simp [List.length_take]
    · exact List.take_append_drop k r.buf
    · intro h; exact absurd h (take_ne_nil hp' hk)

/-- A connection hands out the concatenation of its chunks, whatever error `E`
it ends with, when it reports the error after the last byte (`B = false`); it is
`lax` when it may report `io.EOF` with the last byte. -/
theorem Conn_tracks (lax : Prop) (E : Error) (B : Bool) (hB : B = true → lax ∧ E = Error.EOF) :
    Tracks Conn.pend Conn.stall (fun c => c.atEnd = E ∧ c.early = B) lax where
  step := by
    intro r k hok hk hp
    obtain ⟨chunks, atEnd, early⟩ := r
    obtain ⟨hE, hearly⟩ := hok
    simp only [] at hE hearly
    subst hE hearly
    match chunks, hp with
    | [], hp => exact absurd rfl hp
    | [] :: rest, hp =>
      have hrest : rest ≠ [] := by
        intro h; subst h; exact hp rfl
      refine ⟨[], none, ⟨rest, atEnd, early⟩, ?_, by simp, ?_, ⟨rfl, rfl⟩, ?_, ?_, Or.inl rfl⟩
      · show Conn.Read _ k = _
        simp [Conn.Read, hrest]
      · simp [Conn.pend]
      · simp [Conn.stall, List.countP_cons]
      · intro _; simp [Conn.stall, List.countP_cons]
    | (x :: xs) :: rest, _ =>
      by_cases hleft : (x :: xs).drop k = []
      · refine ⟨(x :: xs).take k, if early && rest.isEmpty then some atEnd else none,
          ⟨rest, atEnd, early⟩, ?_, ?_, ?_, ⟨rfl, rfl⟩, ?_, ?_, ?_⟩
        · show Conn.Read _ k = _
          simp [Conn.Read, hleft]
        · simp [List.length_take]
        · have h := List.take_append_drop k (x :: xs)
          rw [hleft, List.append_nil] at h
          simp [Conn.pend, h]
        · simp [Conn.stall, List.countP_cons]
        · intro h; exact absurd h (take_ne_nil (List.cons_ne_nil _ _) hk)
        · by_cases he : early = true ∧ rest = []
          · right
            obtain ⟨he1, he2⟩ := he
            obtain ⟨hlax, hend⟩ := hB he1
            refine ⟨hlax, ?_, ?_⟩
            · simp [he1, he2, hend]
            · simp [Conn.pend, he2]
          · left
            have : (early && rest.isEmpty) = false := by
              cases early <;> simp_all
            simp [this]
      · refine ⟨(x :: xs).take k, none, ⟨(x :: xs).drop k :: rest, atEnd, early⟩,
          ?_, ?_, ?_, ⟨rfl, rfl⟩, ?_, ?_, Or.inl rfl⟩
        · show Conn.Read _ k = _
          simp only [Conn.Read]
          have h1 : ((x :: xs).drop k).isEmpty = false := by
            cases h : (x :: xs).drop k with
            | nil => exact absurd h hleft
            | cons _ _ => rfl
          simp [h1]
        · simp [List.length_take]
        · simp only [Conn.pend, List.flatten_cons]
          rw [← List.append_assoc, List.take_append_drop]
        · have h1 : ((x :: xs).drop k).isEmpty = false := by
            cases h : (x :: xs).drop k with
            | nil => exact absurd h hleft
            | cons _ _ => rfl
          simp [Conn.stall, List.countP_cons, h1]
        · intro h; exact absurd h (take_ne_nil (List.cons_ne_nil _ _) hk)

/-- A connection that reports its final error after the last byte. -/
theorem Conn_tracks_strict (E : Error) :
    Tracks Conn.pend Conn.stall (fun c => c.atEnd = E ∧ c.early = false) False :=
  Conn_tracks False E false (fun h => absurd h (by decide))

/-- A `bufio.Reader` over a tracked reader is tracked. -/
theorem BufReader_tracks {ρ : Type} [Reader ρ] {pend : ρ → List Nat} {stall : ρ → Nat}
    {ok : ρ → Prop} {lax : Prop} (T : Tracks pend stall ok lax) :
    Tracks (BufReader.pend pend) (fun b => stall b.rd) (BufReader.ok pend ok) lax where
  step := by
    intro b k hok hk hp
    obtain ⟨buf, err, rd⟩ := b
    obtain ⟨hokr, herr⟩ := hok
    simp only [] at hokr herr
    have hk0 : (k == 0) = false := by simp; omega
    match buf, hp with
    | x :: xs, _ =>
      refine ⟨(x :: xs).take k, none, ⟨(x :: xs).drop k, err, rd⟩, ?_, ?_, ?_, ⟨hokr, herr⟩,
        le_refl _, ?_, Or.inl rfl⟩
      · show BufReader.Read _ k = _
        simp [BufReader.Read, hk0]
      · simp [List.length_take]
      · simp only [BufReader.pend]
        rw [← List.append_assoc, List.take_append_drop]
      · intro h; exact absurd h (take_ne_nil (List.cons_ne_nil _ _) hk)
    | [], hp =>
      have hpr : pend rd ≠ [] := by simpa [BufReader.pend] using hp
      have herr' : err = none := by
        rcases herr with h | h
        · exact h
        · exact absurd h hpr
      subst herr'
      by_cases hbig : defaultBufSize ≤ k
      · obtain ⟨d, e, rd', hr, hlen, hd, hok', hst, hst', he⟩ := T.step rd k hokr hk hpr
        refine ⟨d, e, ⟨[], none, rd'⟩, ?_, hlen, ?_, ⟨hok', Or.inl rfl⟩, hst, hst', ?_⟩
        · show BufReader.Read _ k = _
          simp [BufReader.Read, hk0, hbig, hr]
        · simpa [BufReader.pend] using hd
        · simpa [BufReader.pend] using he
      · obtain ⟨d, e, rd', hr, hlen, hd, hok', hst, hst', he⟩ :=
          T.step rd defaultBufSize hokr (by decide) hpr
        by_cases hd0 : d = []
        · subst hd0
          have hp' : pend rd' ≠ [] := by
            intro h; rw [h] at hd; exact hpr hd.symm
          have he' : e = none := by
            rcases he with h | ⟨_, _, h⟩
            · exact h
            · exact absurd h hp'
          subst he'
          refine ⟨[], none, ⟨[], none, rd'⟩, ?_, by simp, ?_, ⟨hok', Or.inl rfl⟩, hst, hst',
            Or.inl rfl⟩
          · show BufReader.Read _ k = _
            simp [BufReader.Read, hk0, hbig, hr]
          · simpa [BufReader.pend] using hd
        · have hlen0 : (d.length == 0) = false := by
            cases d with
            | nil => exact absurd rfl hd0
            | cons _ _ => rfl
          refine ⟨d.take k, none, ⟨d.drop k, e, rd'⟩, ?_, ?_, ?_, ⟨hok', ?_⟩, hst, ?_,
            Or.inl rfl⟩
          · show BufReader.Read _ k = _
            simp [BufReader.Read, hk0, hbig, hr, hlen0]
          · simp [List.length_take]
          · simp only [BufReader.pend]
            rw [← List.append_assoc, List.take_append_drop]
            simpa using hd
          · rcases he with h | ⟨_, _, h⟩
            · exact Or.inl h
            · exact Or.inr h
          · intro h; exact absurd h (take_ne_nil hd0 hk)

/-! ## Reading back what the writers wrote -/

/-- `ReadVarInt` reads back a VarInt of at most `k + 1 ≤ 6` bytes that
`WriteVarInt` wrote, from any tracked reader. -/
theorem ReadVarInt_ok {ρ : Type} [Reader ρ] {pend : ρ → List Nat} {stall : ρ → Nat}
    {ok : ρ → Prop} {lax : Prop} (T : Tracks pend stall ok lax) (r : ρ) (i : Int)
    (rest : List Nat) (k : Nat) (hok : ok r) (hp : pend r = WriteVarInt i ++ rest)
    (hl : lax → rest ≠ []) (hk : k + 1 ≤ 6) (hi : uint64 i < 128 ^ (k + 1))
    (fuel : Nat) (hf : stall r + (k + 1) ≤ fuel) :
    ∃ r', ReadVarInt fuel r = some (.ok (uint64 i : Int), r') ∧
      pend r' = rest ∧ ok r' ∧ stall r' ≤ stall r := by
  have hlen := WriteVarInt_length i k hi
  obtain ⟨r', h1, h2⟩ := ReadVarInt_loop_ok T rest hl fuel r 0 0 (WriteVarInt i) hok hp
    (WriteVarInt_terminated i) (by omega) (by omega)
  rw [WriteVarInt_decode] at h1
  exact ⟨r', h1, h2⟩

theorem Conn.stall_le (c : Conn) : c.stall ≤ c.chunks.length :=
  List.countP_le_length _

theorem uint64_cast (n : Int) (h0 : 0 ≤ n) (h : n < 2 ^ 64) : (uint64 n : Int) = n := by
  unfold uint64
  rw [Int.emod_eq_of_lt h0 h]
  exact Int.toNat_of_nonneg h0

theorem uint64_lt_of_lt (n : Int) (m : Nat) (h0 : 0 ≤ n) (h : n < m) (hm : m ≤ 2 ^ 64) :
    uint64 n < m := by
  have h1 := uint64_cast n h0 (by
    have : (m : Int) ≤ 2 ^ 64 := by exact_mod_cast hm
    omega)
  omega

/-- C2. VarInt round trip: for every `n` with `0 ≤ n < 2 ^ 32`, `WriteVarInt n`
writes at most 5 bytes, and `ReadVarInt` returns `n`, without an error, both from a
buffer that holds exactly those bytes and from a connection that delivers exactly
those bytes, in whatever pieces. -/
theorem varint_round_trip (n : Int) (h0 : 0 ≤ n) (h : n < 2 ^ 32) :
    (WriteVarInt n).length ≤ 5 ∧
    (∀ fuel, 5 ≤ fuel →
      ReadVarInt fuel (NewBuffer (WriteVarInt n)) = some (.ok n, NewBuffer [])) ∧
    (∀ chunks atEnd fuel, chunks.flatten = WriteVarInt n → chunks.length + 5 ≤ fuel →
      ∃ c, ReadVarInt fuel (Conn.mk chunks atEnd false) = some (.ok n, c) ∧
        c.chunks.flatten = []) := by
  have hu : uint64 n < 128 ^ (4 + 1) :=
    uint64_lt_of_lt n (128 ^ (4 + 1)) h0 (by norm_num; omega) (by norm_num)
  have hc : (uint64 n : Int) = n := uint64_cast n h0 (by omega)
  refine ⟨WriteVarInt_length n 4 hu, ?_, ?_⟩
  · intro fuel hf
    obtain ⟨r', h1, h2, _⟩ := ReadVarInt_ok Buffer_tracks (NewBuffer (WriteVarInt n)) n [] 4
      trivial (by simp [NewBuffer]) (fun hf => hf.elim) (by norm_num) hu fuel (by omega)
    rw [hc] at h1
    rw [h1]
    obtain ⟨buf⟩ := r'
    simp only [] at h2
    subst h2
    rfl
  · intro chunks atEnd fuel hch hf
    have hst := Conn.stall_le (Conn.mk chunks atEnd false)
    obtain ⟨r', h1, h2, _⟩ := ReadVarInt_ok (Conn_tracks_strict atEnd)
      (Conn.mk chunks atEnd false) n [] 4 ⟨rfl, rfl⟩ (by simp [Conn.pend, hch]) (fun hf => hf.elim) (by norm_num) hu fuel
      (by simp only [] at hst; omega)
    rw [hc] at h1
    exact ⟨r', h1, h2⟩

/-- The round trip of C2 at `n = 300`, written `AC 02`. -/
theorem varint_round_trip_witness :
    (0 : Int) ≤ 300 ∧ (300 : Int) < 2 ^ 32 ∧ WriteVarInt 300 = [0xAC, 0x02] ∧
    ReadVarInt 5 (NewBuffer (WriteVarInt 300)) = some (.ok 300, NewBuffer []) :=
  ⟨by decide, by decide, by decide,
    (varint_round_trip 300 (by decide) (by decide)).2.1 5 (le_refl 5)⟩

theorem storeAt_length (payload d : List Nat) (total : Nat)
    (h : total + d.length ≤ payload.length) : (storeAt payload total d).length = payload.length := by
  simp only [storeAt, List.length_append, List.length_take, List.length_drop]
  omega

theorem storeAt_take (payload d : List Nat) (total : Nat) (h : total ≤ payload.length) :
    (storeAt payload total d).take (total + d.length) = payload.take total ++ d := by
  rw [storeAt]
  exact List.take_left' (by simp [List.length_take]; omega)

/-- What a read took from pending bytes `P ++ rest`, when it took at most
`P.length` bytes, is a first part of `P`. -/
theorem split_pending {d p' P rest : List Nat} (h : d ++ p' = P ++ rest)
    (hlen : d.length ≤ P.length) : d ++ P.drop d.length = P ∧ p' = P.drop d.length ++ rest := by
  have h1 : d = P.take d.length := by
    have := congrArg (List.take d.length) h
    rw [List.take_left' rfl, List.take_append_of_le_length hlen] at this
    exact this
  have h2 : p' = P.drop d.length ++ rest := by
    have := congrArg (List.drop d.length) h
    rw [List.drop_left' rfl, List.drop_append_of_le_length hlen] at this
    exact this
  refine ⟨?_, h2⟩
  conv_lhs => rw [h1]
  rw [List.length_take, Nat.min_eq_left hlen]
  exact List.take_append_drop _ _

/-- The loop of `ReadFrame` on a tracked reader that has the rest `P` of the
payload pending: it fills the payload and returns the frame. -/
theorem ReadFrame_loop_ok {ρ : Type} [Reader ρ] {pend : ρ → List Nat} {stall : ρ → Nat}
    {ok : ρ → Prop} {lax : Prop} (T : Tracks pend stall ok lax) (rest : List Nat) :
    ∀ (fuel : Nat) (r : ρ) (frame : Frame) (total : Nat) (P : List Nat),
      ok r → pend r = P ++ rest → frame.Length = (frame.Payload.length : Int) →
      total + P.length = frame.Payload.length → stall r + P.length + 1 ≤ fuel →
      ∃ r', ReadFrame.loop fuel r frame total
          = some (.ok ⟨frame.Length, frame.Payload.take total ++ P⟩, r') ∧
        pend r' = rest ∧ ok r' ∧ stall r' ≤ stall r := by
  intro fuel
  induction fuel with
  | zero => intro r frame total P _ _ _ _ hf; omega
  | succ fuel ih =>
    intro r frame total P hok hp hL htot hf
    obtain ⟨L, payload⟩ := frame
    simp only [] at hL htot
    subst hL
    match P, hp, htot, hf with
    | [], hp, htot, hf =>
      refine ⟨r, ?_, by simpa using hp, hok, le_refl _⟩
      have : total = payload.length := by simpa using htot
      subst this
      rw [ReadFrame.loop, if_neg (by simp)]
      simp
    | x :: xs, hp, htot, hf =>
      have hk : payload.length - total = (x :: xs).length := by omega
      obtain ⟨d, e, r', hr, hlen, hd, hok', hst, hst', he⟩ :=
        T.step r (payload.length - total) hok (by rw [hk]; simp) (by rw [hp]; simp)
      rw [hp] at hd
      rw [hk] at hlen
      obtain ⟨hd1, hd2⟩ := split_pending hd hlen
      have hfilter : e.filter (fun e => e ≠ Error.EOF) = none := by
        rcases he with h | ⟨_, h, _⟩ <;> subst h <;> simp [Option.filter]
      have hdl : (d ++ List.drop d.length (x :: xs)).length = (x :: xs).length := by rw [hd1]
      rw [List.length_append] at hdl
      obtain ⟨r'', h1, h2, h3', h3⟩ := ih r' ⟨(payload.length : Int), storeAt payload total d⟩
        (total + d.length) ((x :: xs).drop d.length) hok' hd2
        (by simp only []; rw [storeAt_length _ _ _ (by omega)])
        (by simp only []; rw [storeAt_length _ _ _ (by omega)]; omega)
        (by
          by_cases hd0 : d = []
          · have := hst' hd0
            subst hd0
            simp at hf ⊢
            omega
          · have : 0 < d.length := List.length_pos.mpr hd0
            omega)
      refine ⟨r'', ?_, h2, h3', by omega⟩
      have hpos : total < payload.length := by
        have : 0 < (x :: xs).length := by simp
        omega
      rw [ReadFrame.loop, if_pos (by simp only []; exact_mod_cast hpos)]
      simp only [hr, hfilter]
      rw [h1]
      simp only []
      rw [storeAt_take _ _ _ (by omega), List.append_assoc, hd1]

/-- `ReadFrame` on a tracked reader whose pending bytes are a VarInt (a
terminated run `enc` of at most six bytes) and a payload whose length is the value
of the VarInt: it returns the frame and leaves the bytes after the payload
pending. -/
theorem ReadFrame_enc_ok {ρ : Type} [Reader ρ] {pend : ρ → List Nat} {stall : ρ → Nat}
    {ok : ρ → Prop} {lax : Prop} (T : Tracks pend stall ok lax) (r : ρ)
    (enc P rest : List Nat) (hok : ok r) (hp : pend r = enc ++ (P ++ rest))
    (hl : lax → P ++ rest ≠ []) (ht : Terminated enc) (h6 : enc.length ≤ 6)
    (hv : leValue enc = P.length) (fuel : Nat) (hf : stall r + P.length + 6 ≤ fuel) :
    ∃ r', ReadFrame fuel r = some (.ok ⟨P.length, P⟩, r') ∧ pend r' = rest ∧ ok r' ∧
      stall r' ≤ stall r := by
  obtain ⟨r1, h1, h2, h3, h4⟩ := ReadVarInt_loop_ok T (P ++ rest) hl fuel r 0 0 enc hok hp ht
    (by omega) (by omega)
  rw [decodeFrom_eq enc 0 0 (by norm_num), hv] at h1
  simp only [pow_zero, one_mul, zero_add] at h1
  obtain ⟨r2, h5, h6, h7', h7⟩ := ReadFrame_loop_ok T rest fuel r1
    ⟨(P.length : Int), List.replicate P.length 0⟩ 0 P h3 h2 (by simp) (by simp) (by omega)
  refine ⟨r2, ?_, h6, h7', by omega⟩
  rw [ReadFrame, ReadVarInt, h1]
  simp only [Int.toNat_ofNat]
  rw [h5]
  simp

theorem WriteVarInt_value (n : Nat) (h : n < 2 ^ 64) : leValue (WriteVarInt n) = n := by
  rw [WriteVarInt_eq, groups_value _ _ (by omega), uint64_of_nat n h]

theorem WriteVarInt_length_six (n : Nat) (h : n < 2 ^ 42) : (WriteVarInt n).length ≤ 6 :=
  WriteVarInt_length n 5 (by rw [uint64_of_nat n (by omega)]; norm_num; omega)

/-- `ReadFrame` reads back a frame of less than `2 ^ 42` bytes whose length
`WriteVarInt` wrote. -/
theorem ReadFrame_ok {ρ : Type} [Reader ρ] {pend : ρ → List Nat} {stall : ρ → Nat}
    {ok : ρ → Prop} {lax : Prop} (T : Tracks pend stall ok lax) (r : ρ)
    (P rest : List Nat) (hok : ok r) (hp : pend r = WriteVarInt P.length ++ (P ++ rest))
    (hl : lax → P ++ rest ≠ []) (hP : P.length < 2 ^ 42)
    (fuel : Nat) (hf : stall r + P.length + 6 ≤ fuel) :
    ∃ r', ReadFrame fuel r = some (.ok ⟨P.length, P⟩, r') ∧ pend r' = rest ∧ ok r' ∧
      stall r' ≤ stall r :=
  ReadFrame_enc_ok T r (WriteVarInt P.length) P rest hok hp hl (WriteVarInt_terminated _)
    (WriteVarInt_length_six _ hP) (WriteVarInt_value _ (by omega)) fuel hf

/-! ## VarInts that are too long -/

/-- The loop of `ReadVarInt` on a tracked reader whose pending bytes go on with
the continuation bit set up to the sixth byte of the VarInt. -/
theorem ReadVarInt_loop_too_big {ρ : Type} [Reader ρ] {pend : ρ → List Nat}
    {stall : ρ → Nat} {ok : ρ → Prop} {lax : Prop} (T : Tracks pend stall ok lax)
    (rest : List Nat) (hl : lax → rest ≠ []) :
    ∀ (fuel : Nat) (r : ρ) (numRead result : Nat) (conts : List Nat),
      ok r → pend r = conts ++ rest → (∀ b ∈ conts, b &&& 0x80 ≠ 0) →
      numRead + conts.length = 6 → stall r + conts.length + 1 ≤ fuel →
      ∃ r', ReadVarInt.loop fuel r numRead result
          = some (.error (.New "VarInt is too big"), r') ∧ pend r' = rest := by
  intro fuel
  induction fuel with
  | zero => intro r numRead result conts _ _ _ _ hf; omega
  | succ fuel ih =>
    intro r numRead result conts hok hp hc hn hf
    match conts, hp, hc, hn, hf with
    | [], hp, _, hn, _ =>
      refine ⟨r, ?_, by simpa using hp⟩
      rw [ReadVarInt.loop, if_neg (by simp at hn; omega)]
    | b :: bs, hp, hc, hn, hf =>
      have hl' : lax → bs ++ rest ≠ [] := fun h => by
        simp only [ne_eq, List.append_eq_nil, not_and]
        intro _; exact hl h
      have hb : b &&& 0x80 ≠ 0 := hc b (by simp)
      have hc' : ∀ b ∈ bs, b &&& 0x80 ≠ 0 := fun b' hb' => hc b' (by simp [hb'])
      have hnr : numRead ≤ 5 := by simp at hn; omega
      obtain ⟨r', hok', hst, h | h⟩ := T.step_one r b (bs ++ rest) hok (by simpa using hp) hl'
      · obtain ⟨hr, hp', hlt⟩ := h
        obtain ⟨r'', h1, h2⟩ := ih r' numRead result (b :: bs) hok' (by simpa using hp') hc hn
          (by omega)
        refine ⟨r'', ?_, h2⟩
        rw [ReadVarInt.loop, if_pos hnr, hr]
        exact h1
      · obtain ⟨hr, hp'⟩ := h
        obtain ⟨r'', h1, h2⟩ := ih r' (numRead + 1)
          (result ||| ((b &&& 0x7F) <<< (7 * numRead))) bs hok' hp' hc'
          (by simp at hn; omega) (by simp at hf; omega)
        refine ⟨r'', ?_, h2⟩
        rw [ReadVarInt.loop, if_pos hnr, hr]
        simp only [beq_iff_eq, hb, if_false]
        exact h1

/-- C5. VarInt rejection: when the first six bytes of the input all have the
continuation bit `0x80` set, `ReadVarInt` returns the error `VarInt is too big`
and no value, from a buffer that holds the input and from a connection that
delivers it, in whatever pieces. -/
theorem varint_rejection (six rest : List Nat) (h6 : six.length = 6)
    (hc : ∀ b ∈ six, b &&& 0x80 ≠ 0) :
    (∀ fuel, 7 ≤ fuel →
      ReadVarInt fuel (NewBuffer (six ++ rest))
        = some (.error (.New "VarInt is too big"), NewBuffer rest)) ∧
    (∀ chunks atEnd fuel, chunks.flatten = six ++ rest → chunks.length + 7 ≤ fuel →
      ∃ c, ReadVarInt fuel (Conn.mk chunks atEnd false)
        = some (.error (.New "VarInt is too big"), c)) := by
  refine ⟨?_, ?_⟩
  · intro fuel hf
    obtain ⟨r', h1, h2⟩ := ReadVarInt_loop_too_big Buffer_tracks rest (fun hf => hf.elim) fuel
      (NewBuffer (six ++ rest)) 0 0 six trivial rfl hc (by omega) (by simp; omega)
    obtain ⟨buf⟩ := r'
    simp only [] at h2
    subst h2
    exact h1
  · intro chunks atEnd fuel hch hf
    have hst := Conn.stall_le (Conn.mk chunks atEnd false)
    obtain ⟨r', h1, _⟩ := ReadVarInt_loop_too_big (Conn_tracks_strict atEnd) rest
      (fun hf => hf.elim) fuel (Conn.mk chunks atEnd false) 0 0 six ⟨rfl, rfl⟩
      (by simp [Conn.pend, hch]) hc
      (by omega) (by simp only [] at hst; omega)
    exact ⟨r', h1⟩

/-- The rejection of C5 on six bytes `0xFF`. -/
theorem varint_rejection_witness :
    [0xFF, 0xFF, 0xFF, 0xFF, 0xFF, 0xFF].length = 6 ∧
    (∀ b ∈ [0xFF, 0xFF, 0xFF, 0xFF, 0xFF, 0xFF], b &&& 0x80 ≠ 0) ∧
    ReadVarInt 7 (NewBuffer [0xFF, 0xFF, 0xFF, 0xFF, 0xFF, 0xFF])
      = some (.error (.New "VarInt is too big"), NewBuffer []) :=
  ⟨rfl, by decide, (varint_rejection [0xFF, 0xFF, 0xFF, 0xFF, 0xFF, 0xFF] [] rfl
    (by decide)).1 7 (le_refl 7)⟩

/-- C4. `ReadVarInt` takes a VarInt of six bytes: on five bytes `0x80` and the
byte `0x01` it reads all six and returns `2 ^ 35` without an error, where the claim
has it read five bytes at most. -/
theorem varint_six_bytes_accepted :
    ReadVarInt 6 (NewBuffer [0x80, 0x80, 0x80, 0x80, 0x80, 0x01])
      = some (.ok (2 ^ 35), NewBuffer []) := by
  decide

/-- C6, as the code has it. `WriteVarInt` encodes its argument as the 64-bit
unsigned value `uint64(n)`: the output is the run of 7-bit groups, least
significant first, of `n mod 2 ^ 64`; it has between 1 and 10 bytes, and at most 5
when `0 ≤ n < 2 ^ 32`; every byte but the last has the high bit set and the last
has it clear; and the last byte is zero only when the output is the single byte
`0x00`. -/
theorem write_varint_encoding (n : Int) :
    leValue (WriteVarInt n) = (n % 2 ^ 64).toNat ∧
    1 ≤ (WriteVarInt n).length ∧ (WriteVarInt n).length ≤ 10 ∧
    (0 ≤ n → n < 2 ^ 32 → (WriteVarInt n).length ≤ 5) ∧
    Terminated (WriteVarInt n) ∧
    (∀ b ∈ WriteVarInt n, b < 256) ∧
    ((WriteVarInt n).getLast? = some 0 → WriteVarInt n = [0x00]) := by
  refine ⟨?_, (WriteVarInt_terminated n).length_pos, ?_, ?_, WriteVarInt_terminated n, ?_, ?_⟩
  · rw [WriteVarInt_eq, groups_value _ _ (by omega)]; rfl
  · exact WriteVarInt_length n 9 (lt_of_lt_of_le (uint64_lt n) (by norm_num))
  · intro h0 h
    exact WriteVarInt_length n 4
      (uint64_lt_of_lt n (128 ^ (4 + 1)) h0 (by norm_num; omega) (by norm_num))
  · rw [WriteVarInt_eq]; exact groups_bytes _ _
  · rw [WriteVarInt_eq]; exact groups_last _ _ (by omega)

/-- C6, as the claim has it, fails at `n = -1`: `WriteVarInt` writes ten bytes,
`FF FF FF FF FF FF FF FF FF 01`, not the five bytes `FF FF FF FF 0F` of the 32-bit
value. -/
theorem write_varint_minus_one :
    WriteVarInt (-1) = [0xFF, 0xFF, 0xFF, 0xFF, 0xFF, 0xFF, 0xFF, 0xFF, 0xFF, 0x01] ∧
    WriteVarInt (-1) ≠ [0xFF, 0xFF, 0xFF, 0xFF, 0x0F] ∧
    ¬ (WriteVarInt (-1)).length ≤ 5 := by
  decide

/-- What `ReadVarInt` returns is never negative. -/
theorem ReadVarInt_nonneg {ρ : Type} [Reader ρ] :
    ∀ (fuel : Nat) (r : ρ) (numRead result : Nat) (v : Int) (r' : ρ),
      ReadVarInt.loop fuel r numRead result = some (.ok v, r') → 0 ≤ v := by
  intro fuel
  induction fuel with
  | zero => intro r numRead result v r' h; simp [ReadVarInt.loop] at h
  | succ fuel ih =>
    intro r numRead result v r' h
    rw [ReadVarInt.loop] at h
    by_cases hn : numRead ≤ 5
    · rw [if_pos hn] at h
      rcases hread : Reader.Read r 1 with ⟨⟨d, e⟩, r1⟩
      rw [hread] at h
      match e, d, h with
      | some e, [], h => simp at h
      | some e, _ :: _, h => simp at h
      | none, [], h => exact ih _ _ _ _ _ h
      | none, b :: _, h =>
        simp only [] at h
        by_cases hb : (b &&& 0x80 == 0) = true
        · rw [if_pos hb] at h
          have hv := (Except.ok.inj (Prod.mk.inj (Option.some.inj h)).1)
          rw [← hv]
          exact Int.natCast_nonneg _
        · rw [if_neg hb] at h; exact ih _ _ _ _ _ h
    · rw [if_neg hn] at h; simp at h

/-! ## Frames -/

/-- C3. Frame round trip: for every payload `P` with `|P| ≤ 2 ^ 21 - 1`,
`ReadFrame` on the byte stream `WriteVarInt(|P|) ++ P`, held by a buffer or
delivered by a connection in one piece, returns without an error the frame whose
`Length` is `|P|` and whose `Payload` is `P`, and has read the whole stream. -/
theorem frame_round_trip (P : List Nat) (hP : P.length ≤ 2 ^ 21 - 1) :
    (∀ fuel, P.length + 6 ≤ fuel →
      ReadFrame fuel (NewBuffer (WriteVarInt P.length ++ P))
        = some (.ok ⟨P.length, P⟩, NewBuffer [])) ∧
    (∀ atEnd fuel, P.length + 7 ≤ fuel →
      ∃ c, ReadFrame fuel (Conn.mk [WriteVarInt P.length ++ P] atEnd false)
        = some (.ok ⟨P.length, P⟩, c) ∧ c.pend = []) := by
  have h42 : P.length < 2 ^ 42 := by
    have : (2 : Nat) ^ 21 - 1 < 2 ^ 42 := by norm_num
    omega
  refine ⟨?_, ?_⟩
  · intro fuel hf
    obtain ⟨r', h1, h2, _⟩ := ReadFrame_ok Buffer_tracks (NewBuffer (WriteVarInt P.length ++ P))
      P [] trivial (by simp [NewBuffer]) (fun hf => hf.elim) h42 fuel (by omega)
    obtain ⟨buf⟩ := r'
    simp only [] at h2
    subst h2
    exact h1
  · intro atEnd fuel hf
    have hst := Conn.stall_le (Conn.mk [WriteVarInt P.length ++ P] atEnd false)
    simp only [List.length_singleton] at hst
    obtain ⟨r', h1, h2, _⟩ := ReadFrame_ok (Conn_tracks_strict atEnd)
      (Conn.mk [WriteVarInt P.length ++ P] atEnd false) P [] ⟨rfl, rfl⟩ (by simp [Conn.pend])
      (fun hf => hf.elim) h42 fuel (by omega)
    exact ⟨r', h1, h2⟩

/-- The round trip of C3 on the payload `41 42 43`. -/
theorem frame_round_trip_witness :
    [0x41, 0x42, 0x43].length ≤ 2 ^ 21 - 1 ∧
    WriteVarInt ([0x41, 0x42, 0x43] : List Nat).length ++ [0x41, 0x42, 0x43]
      = [0x03, 0x41, 0x42, 0x43] ∧
    ReadFrame 9 (NewBuffer (WriteVarInt ([0x41, 0x42, 0x43] : List Nat).length
        ++ [0x41, 0x42, 0x43]))
      = some (.ok ⟨3, [0x41, 0x42, 0x43]⟩, NewBuffer []) :=
  ⟨by decide, by decide, (frame_round_trip [0x41, 0x42, 0x43] (by decide)).1 9 (by decide)⟩

/-- C8, as the code has it. `ReadFrame` puts no bound on the length: when the
leading VarInt (a terminated run of at most six bytes) has a value `L` greater
than `2 ^ 21` and at least `L` bytes follow it, `ReadFrame` returns without an
error the frame of length `L` whose payload is the first `L` of them, however the
connection delivers the stream. And no length is negative: `ReadVarInt` returns
no negative value. -/
theorem oversize_frame_read (enc P rest : List Nat) (ht : Terminated enc)
    (h6 : enc.length ≤ 6) (hv : leValue enc = P.length) (_hbig : 2 ^ 21 < P.length) :
    (∀ chunks atEnd fuel, chunks.flatten = enc ++ (P ++ rest) →
      chunks.length + P.length + 6 ≤ fuel →
      ∃ c, ReadFrame fuel (Conn.mk chunks atEnd false) = some (.ok ⟨P.length, P⟩, c) ∧
        c.pend = rest) ∧
    (∀ (fuel : Nat) (c c' : Conn) (v : Int), ReadVarInt fuel c = some (.ok v, c') → 0 ≤ v) := by
  refine ⟨?_, fun fuel c c' v h => ReadVarInt_nonneg fuel c 0 0 v c' h⟩
  intro chunks atEnd fuel hch hf
  have hst := Conn.stall_le (Conn.mk chunks atEnd false)
  simp only [] at hst
  obtain ⟨r', h1, h2, _⟩ := ReadFrame_enc_ok (Conn_tracks_strict atEnd)
    (Conn.mk chunks atEnd false) enc P rest ⟨rfl, rfl⟩ (by simp [Conn.pend, hch])
    (fun hf => hf.elim) ht h6 hv fuel (by omega)
  exact ⟨r', h1, h2⟩

/-- The frame of C8 with the length `2 ^ 21 + 2`, written `82 80 80 01`, and
one byte after the payload. -/
theorem oversize_frame_read_witness :
    Terminated [0x82, 0x80, 0x80, 0x01] ∧ [0x82, 0x80, 0x80, 0x01].length ≤ 6 ∧
    leValue [0x82, 0x80, 0x80, 0x01] = (List.replicate (2 ^ 21 + 2) 0x41).length ∧
    2 ^ 21 < (List.replicate (2 ^ 21 + 2) 0x41).length ∧
    ∃ c, ReadFrame (2 ^ 21 + 9)
        (Conn.mk [[0x82, 0x80, 0x80, 0x01] ++ (List.replicate (2 ^ 21 + 2) 0x41 ++ [0x07])]
          .EOF false)
      = some (.ok ⟨(List.replicate (2 ^ 21 + 2) 0x41).length, List.replicate (2 ^ 21 + 2) 0x41⟩, c)
      ∧ c.pend = [0x07] := by
  have hlen : (List.replicate (2 ^ 21 + 2) 0x41).length = 2 ^ 21 + 2 := List.length_replicate _ _
  generalize List.replicate (2 ^ 21 + 2) 0x41 = P at hlen ⊢
  have ht : Terminated [0x82, 0x80, 0x80, 0x01] := by decide
  have hv : leValue [0x82, 0x80, 0x80, 0x01] = P.length := by rw [hlen]; decide
  have hbig : 2 ^ 21 < P.length := by rw [hlen]; omega
  exact ⟨ht, by decide, hv, hbig,
    (oversize_frame_read [0x82, 0x80, 0x80, 0x01] P [0x07] ht (by decide) hv hbig).1
      [[0x82, 0x80, 0x80, 0x01] ++ (P ++ [0x07])] .EOF (2 ^ 21 + 9)
      (by rw [List.flatten_cons, List.flatten_nil, List.append_nil])
      (by rw [hlen, List.length_singleton]; omega)⟩

/-- C8, as the claim has it, fails on the length `2 ^ 21 + 1` followed by that
many bytes: `ReadFrame` returns the frame, not an error. -/
theorem oversize_frame_accepted :
    WriteVarInt (2 ^ 21 + 1) = [0x81, 0x80, 0x80, 0x01] ∧
    ∃ c, ReadFrame (2 ^ 21 + 8)
        (Conn.mk [[0x81, 0x80, 0x80, 0x01] ++ List.replicate (2 ^ 21 + 1) 0x41] .EOF false)
      = some (.ok ⟨2 ^ 21 + 1, List.replicate (2 ^ 21 + 1) 0x41⟩, c) := by
  refine ⟨by decide, ?_⟩
  have hlen : (List.replicate (2 ^ 21 + 1) 0x41).length = 2 ^ 21 + 1 := List.length_replicate _ _
  generalize List.replicate (2 ^ 21 + 1) 0x41 = P at hlen ⊢
  have hst := Conn.stall_le (Conn.mk [[0x81, 0x80, 0x80, 0x01] ++ P] .EOF false)
  simp only [List.length_singleton] at hst
  obtain ⟨c, h1, _⟩ := ReadFrame_enc_ok (Conn_tracks_strict .EOF)
    (Conn.mk [[0x81, 0x80, 0x80, 0x01] ++ P] .EOF false)
    [0x81, 0x80, 0x80, 0x01] P [] ⟨rfl, rfl⟩
    (by simp [Conn.pend]) (fun hf => hf.elim) (by decide) (by decide)
    (by rw [hlen]; decide) (2 ^ 21 + 8) (by rw [hlen]; omega)
  rw [hlen] at h1
  exact ⟨c, by exact_mod_cast h1⟩

/-- C9, as the code has it. Short-read resilience: for every payload `P` of less
than `2 ^ 42` bytes and every way of splitting the stream `WriteVarInt(|P|) ++ P`
into chunks delivered one per `Read` call (1-byte chunks and reads of zero bytes
included), with `io.EOF` reported after the last chunk, or together with it when
`P` is not empty, `ReadFrame` returns the frame with `Length` `|P|` and `Payload`
`P`, the same as when the stream is delivered in one piece. -/
theorem frame_short_reads (P : List Nat) (chunks : List (List Nat)) (early : Bool)
    (h42 : P.length < 2 ^ 42) (hch : chunks.flatten = WriteVarInt P.length ++ P)
    (he : early = true → P ≠ []) (fuel : Nat) (hf : chunks.length + P.length + 6 ≤ fuel) :
    (∃ c, ReadFrame fuel (Conn.mk chunks .EOF early) = some (.ok ⟨P.length, P⟩, c) ∧
      c.pend = []) ∧
    (∃ c, ReadFrame fuel (Conn.mk [WriteVarInt P.length ++ P] .EOF early)
      = some (.ok ⟨P.length, P⟩, c) ∧ c.pend = []) := by
  have hT := Conn_tracks (early = true) .EOF early (fun h => ⟨h, rfl⟩)
  have hl : early = true → P ++ [] ≠ [] := by simpa using he
  have hpos : 0 < chunks.length := by
    cases chunks with
    | nil =>
      have := (WriteVarInt_terminated (P.length : Int)).length_pos
      have h0 := congrArg List.length hch
      simp at h0
      omega
    | cons _ _ => simp
  refine ⟨?_, ?_⟩
  · have hst := Conn.stall_le (Conn.mk chunks .EOF early)
    simp only [] at hst
    obtain ⟨r', h1, h2, _⟩ := ReadFrame_ok hT (Conn.mk chunks .EOF early) P [] ⟨rfl, rfl⟩
      (by simp [Conn.pend, hch]) hl h42 fuel (by omega)
    exact ⟨r', h1, h2⟩
  · have hst := Conn.stall_le (Conn.mk [WriteVarInt P.length ++ P] .EOF early)
    simp only [List.length_singleton] at hst
    obtain ⟨r', h1, h2, _⟩ := ReadFrame_ok hT (Conn.mk [WriteVarInt P.length ++ P] .EOF early)
      P [] ⟨rfl, rfl⟩ (by simp [Conn.pend]) hl h42 fuel (by omega)
    exact ⟨r', h1, h2⟩

/-- The frame of C9 with the payload `41 42 43`, delivered a byte at a time with
`io.EOF` on the last byte. -/
theorem frame_short_reads_witness :
    ([0x41, 0x42, 0x43] : List Nat).length < 2 ^ 42 ∧
    [[0x03], [0x41], [0x42], [0x43]].flatten
      = WriteVarInt ([0x41, 0x42, 0x43] : List Nat).length ++ [0x41, 0x42, 0x43] ∧
    ReadFrame 13 (Conn.mk [[0x03], [0x41], [0x42], [0x43]] .EOF true)
      = some (.ok ⟨3, [0x41, 0x42, 0x43]⟩, Conn.mk [] .EOF true) ∧
    ∃ c, ReadFrame 13 (Conn.mk [[0x03], [0x41], [0x42], [0x43]] .EOF true)
      = some (.ok ⟨([0x41, 0x42, 0x43] : List Nat).length, [0x41, 0x42, 0x43]⟩, c) ∧
      c.pend = [] :=
  ⟨by decide, by decide, by decide,
    (frame_short_reads [0x41, 0x42, 0x43] [[0x03], [0x41], [0x42], [0x43]] true (by decide)
      (by decide) (by decide) 13 (by decide)).1⟩

/-- C9, as the claim has it, fails on the empty payload: the stream is the
single byte `00`, and when it is delivered together with `io.EOF`, `ReadFrame`
returns `io.EOF` and no frame, where without the `io.EOF` it returns the empty
frame. -/
theorem empty_frame_with_eof :
    WriteVarInt ([] : List Nat).length ++ [] = [0x00] ∧
    ReadFrame 7 (Conn.mk [[0x00]] .EOF true) = some (.error .EOF, Conn.mk [] .EOF true) ∧
    ReadFrame 7 (Conn.mk [[0x00]] .EOF false) = some (.ok ⟨0, []⟩, Conn.mk [] .EOF false) := by
  decide

/-! ## Frames that are cut short -/

/-- More fuel does not change what the loop of `ReadVarInt` has returned. -/
theorem ReadVarInt_loop_mono {ρ : Type} [Reader ρ] :
    ∀ (fuel : Nat) (r : ρ) (numRead result : Nat) (x : Except Error Int × ρ),
      ReadVarInt.loop fuel r numRead result = some x →
      ReadVarInt.loop (fuel + 1) r numRead result = some x := by
  intro fuel
  induction fuel with
  | zero => intro r numRead result x h; simp [ReadVarInt.loop] at h
  | succ fuel ih =>
    intro r numRead result x h
    rw [ReadVarInt.loop] at h ⊢
    by_cases hn : numRead ≤ 5
    · rw [if_pos hn] at h ⊢
      rcases hread : Reader.Read r 1 with ⟨⟨d, e⟩, r'⟩
      rw [hread] at h
      match e, d, h with
      | some e, [], h => exact h
      | some e, _ :: _, h => exact h
      | none, [], h => exact ih _ _ _ _ h
      | none, b :: _, h =>
        simp only [] at h ⊢
        by_cases hb : (b &&& 0x80 == 0) = true
        · rw [if_pos hb] at h ⊢; exact h
        · rw [if_neg hb] at h ⊢; exact ih _ _ _ _ h
    · rw [if_neg hn] at h ⊢; exact h

theorem ReadVarInt_mono {ρ : Type} [Reader ρ] (r : ρ) (x : Except Error Int × ρ) :
    ∀ (n fuel : Nat), ReadVarInt fuel r = some x → ReadVarInt (fuel + n) r = some x := by
  intro n
  induction n with
  | zero => intro fuel h; exact h
  | succ n ih => intro fuel h; exact ReadVarInt_loop_mono _ _ _ _ _ (ih fuel h)

/-- The loop of `ReadFrame` on a connection that ends with `io.EOF` before the
payload is complete: it is still polling when the fuel runs out, whatever the
fuel. -/
theorem ReadFrame_loop_starved :
    ∀ (fuel : Nat) (c : Conn) (frame : Frame) (total : Nat),
      c.atEnd = Error.EOF → ((total + c.pend.length : Nat) : Int) < frame.Length →
      ReadFrame.loop fuel c frame total = none := by
  intro fuel
  induction fuel with
  | zero => intro c frame total _ _; rfl
  | succ fuel ih =>
    intro c frame total hE hlt
    obtain ⟨chunks, atEnd, early⟩ := c
    simp only [] at hE
    subst hE
    have htot : (total : Int) < frame.Length := by
      have : (total : Int) ≤ ((total + (Conn.mk chunks .EOF early).pend.length : Nat) : Int) := by
        exact_mod_cast Nat.le_add_right _ _
      omega
    rw [ReadFrame.loop, if_pos htot]
    match chunks, hlt with
    | [], hlt =>
      have hfilter : (some Error.EOF).filter (fun e => e ≠ Error.EOF) = none := by
        simp [Option.filter]
      simp only [Reader.Read, Conn.Read, hfilter]
      exact ih _ _ _ rfl (by simpa using hlt)
    | d :: rest, hlt =>
      simp only [Reader.Read, Conn.Read]
      have hfilter : ∀ b : Bool, (if b then some Error.EOF else none).filter
          (fun e => e ≠ Error.EOF) = none := by
        intro b; cases b <;> simp [Option.filter]
      rw [hfilter]
      refine ih _ _ _ rfl ?_
      simp only [Conn.pend, List.flatten_cons, List.length_append] at hlt
      have hsplit : d.length = (d.take (frame.Payload.length - total)).length
          + (d.drop (frame.Payload.length - total)).length := by
        conv_lhs => rw [← List.take_append_drop (frame.Payload.length - total) d]
        rw [List.length_append]
      by_cases hleft : (d.drop (frame.Payload.length - total)).isEmpty = true
      · have h0 : (d.drop (frame.Payload.length - total)).length = 0 := by
          rw [List.isEmpty_iff] at hleft; rw [hleft]; rfl
        simp only [hleft, if_true, Conn.pend]
        push_cast at hlt ⊢
        omega
      · simp only [hleft, Conn.pend, List.flatten_cons, List.length_append]
        simp only [Bool.false_eq_true, if_false, List.flatten_cons, List.length_append]
        push_cast at hlt ⊢
        omega

/-- `ReadFrame` on a connection that delivers a VarInt and fewer payload bytes
than its value, and then `io.EOF`: whatever the fuel, the call has not
returned. -/
theorem ReadFrame_starved (enc P : List Nat) (chunks : List (List Nat)) (early : Bool)
    (ht : Terminated enc) (h6 : enc.length ≤ 6) (hlen : P.length < leValue enc)
    (hch : chunks.flatten = enc ++ P) (he : early = true → P ≠ []) (fuel : Nat) :
    ReadFrame fuel (Conn.mk chunks .EOF early) = none := by
  have hT := Conn_tracks (early = true) .EOF early (fun h => ⟨h, rfl⟩)
  rw [ReadFrame]
  cases h : ReadVarInt fuel (Conn.mk chunks .EOF early) with
  | none => rfl
  | some x =>
    have hbig := ReadVarInt_mono _ x (chunks.length + 6) fuel h
    have hst := Conn.stall_le (Conn.mk chunks .EOF early)
    simp only [] at hst
    obtain ⟨r', h1, h2, h3, _⟩ := ReadVarInt_loop_ok hT P he (fuel + (chunks.length + 6))
      (Conn.mk chunks .EOF early) 0 0 enc ⟨rfl, rfl⟩ (by simp [Conn.pend, hch]) ht (by omega)
      (by omega)
    rw [decodeFrom_eq enc 0 0 (by norm_num)] at h1
    simp only [pow_zero, one_mul, zero_add] at h1
    rw [ReadVarInt, h1] at hbig
    have hx : x = (.ok (leValue enc : Int), r') := (Option.some.inj hbig).symm
    subst hx
    simp only []
    exact ReadFrame_loop_starved fuel r' _ 0 h3.1 (by
      simp only [zero_add]
      rw [show r'.pend.length = P.length from by rw [← h2]]
      exact_mod_cast hlen)

/-- C7, as the code has it. Truncated frame: for every stream that holds a
VarInt length `L` (a terminated run of at most six bytes) followed by fewer than
`L` payload bytes and then end-of-file (`io.EOF` reported after the last byte, or
with it when there is a payload byte), `ReadFrame` does not return: the loop takes
`io.EOF` for no error and polls the reader again, so that for no amount of fuel
the call has produced a frame or an error. -/
theorem truncated_frame_never_returns (enc P : List Nat) (chunks : List (List Nat))
    (early : Bool) (ht : Terminated enc) (h6 : enc.length ≤ 6) (hlen : P.length < leValue enc)
    (hch : chunks.flatten = enc ++ P) (he : early = true → P ≠ []) :
    ∀ fuel, ReadFrame fuel (Conn.mk chunks .EOF early) = none :=
  fun fuel => ReadFrame_starved enc P chunks early ht h6 hlen hch he fuel

/-- The frame of C7 with the length 3 and the two payload bytes `41 42`. -/
theorem truncated_frame_never_returns_witness :
    Terminated [0x03] ∧ [0x03].length ≤ 6 ∧ [0x41, 0x42].length < leValue [0x03] ∧
    [[0x03, 0x41], [0x42]].flatten = [0x03] ++ [0x41, 0x42] ∧
    ReadFrame 1000 (Conn.mk [[0x03, 0x41], [0x42]] .EOF false) = none :=
  ⟨by decide, by decide, by decide, by decide,
    truncated_frame_never_returns [0x03] [0x41, 0x42] [[0x03, 0x41], [0x42]] false (by decide)
      (by decide) (by decide) (by decide) (by decide) 1000⟩

/-- C7, as the claim has it, fails on the stream `02 41` followed by end-of-file
(a length of 2 and one payload byte): there is no fuel with which `ReadFrame`
returns, be it an error. -/
theorem truncated_frame_no_error :
    ¬ ∃ fuel res, ReadFrame fuel (Conn.mk [[0x02, 0x41]] .EOF false) = some res := by
  rintro ⟨fuel, res, h⟩
  rw [ReadFrame_starved [0x02] [0x41] [[0x02, 0x41]] false (by decide) (by decide) (by decide)
    (by decide) (by decide) fuel] at h
  exact Option.noConfusion h

/-! ## Strings -/

/-- The loop of `ReadString` on a tracked reader that never stalls and has the
`n` bytes `s` pending: it returns them. -/
theorem ReadString_loop_ok {ρ : Type} [Reader ρ] {pend : ρ → List Nat} {stall : ρ → Nat}
    {ok : ρ → Prop} {lax : Prop} (T : Tracks pend stall ok lax) (rest : List Nat)
    (hl : lax → rest ≠ []) :
    ∀ (n : Nat) (r : ρ) (str s : List Nat),
      ok r → stall r = 0 → pend r = s ++ rest → s.length = n →
      ∃ r', ReadString.loop n r str = (.ok (str ++ s), r') ∧ pend r' = rest ∧ ok r' ∧
        stall r' = 0 := by
  intro n
  induction n with
  | zero =>
    intro r str s hok hst hp hn
    have hs : s = [] := List.length_eq_zero.mp hn
    subst hs
    exact ⟨r, by simp [ReadString.loop], by simpa using hp, hok, hst⟩
  | succ n ih =>
    intro r str s hok hst hp hn
    match s, hp, hn with
    | b :: s', hp, hn =>
      have hl' : lax → s' ++ rest ≠ [] := fun h => by
        simp only [ne_eq, List.append_eq_nil, not_and]
        intro _; exact hl h
      obtain ⟨r', hok', hst', h | h⟩ := T.step_one r b (s' ++ rest) hok (by simpa using hp) hl'
      · omega
      · obtain ⟨hr, hp'⟩ := h
        obtain ⟨r'', h1, h2, h3, h4⟩ := ih r' (str ++ [b]) s' hok' (by omega) hp'
          (by simpa using hn)
        refine ⟨r'', ?_, h2, h3, h4⟩
        rw [ReadString.loop, hr]
        simp only []
        rw [h1]
        simp

/-- `ReadString` on a tracked reader that never stalls, whose pending bytes are
a VarInt (a terminated run `enc` of at most six bytes) and as many bytes `s` as
its value: it returns `s` and leaves the bytes after it pending. -/
theorem ReadString_enc_ok {ρ : Type} [Reader ρ] {pend : ρ → List Nat} {stall : ρ → Nat}
    {ok : ρ → Prop} {lax : Prop} (T : Tracks pend stall ok lax) (r : ρ)
    (enc s rest : List Nat) (hok : ok r) (hst : stall r = 0) (hp : pend r = enc ++ (s ++ rest))
    (hl : lax → rest ≠ []) (ht : Terminated enc) (h6 : enc.length ≤ 6)
    (hv : leValue enc = s.length) (fuel : Nat) (hf : 6 ≤ fuel) :
    ∃ r', ReadString fuel r = some (.ok s, r') ∧ pend r' = rest ∧ ok r' ∧ stall r' = 0 := by
  have hl' : lax → s ++ rest ≠ [] := fun h => by
    simp only [ne_eq, List.append_eq_nil, not_and]
    intro _; exact hl h
  obtain ⟨r1, h1, h2, h3, h4⟩ := ReadVarInt_loop_ok T (s ++ rest) hl' fuel r 0 0 enc hok hp ht
    (by omega) (by omega)
  rw [decodeFrom_eq enc 0 0 (by norm_num), hv] at h1
  simp only [pow_zero, one_mul, zero_add] at h1
  obtain ⟨r2, h5, h6, h7, h8⟩ := ReadString_loop_ok T rest hl s.length r1 [] s h3 (by omega) h2
    rfl
  refine ⟨r2, ?_, h6, h7, h8⟩
  rw [ReadString, ReadVarInt, h1]
  simp only [Int.toNat_ofNat]
  rw [h5]
  simp

/-- C10, as the code has it. `ReadString` puts no bound on the length: when the
leading VarInt (a terminated run of at most six bytes) has a value `L` greater
than 32767 and the buffer holds `L` bytes after it, `ReadString` returns those
`L` bytes as the string, without an error, and leaves the bytes after them. And
no length is negative: `ReadVarInt` returns no negative value. -/
theorem long_string_read (enc s rest : List Nat) (ht : Terminated enc) (h6 : enc.length ≤ 6)
    (hv : leValue enc = s.length) (_hbig : 32767 < s.length) :
    (∀ fuel, 6 ≤ fuel →
      ReadString fuel (NewBuffer (enc ++ (s ++ rest))) = some (.ok s, NewBuffer rest)) ∧
    (∀ (fuel : Nat) (b b' : Buffer) (v : Int), ReadVarInt fuel b = some (.ok v, b') → 0 ≤ v) := by
  refine ⟨?_, fun fuel b b' v h => ReadVarInt_nonneg fuel b 0 0 v b' h⟩
  intro fuel hf
  obtain ⟨r', h1, h2, _⟩ := ReadString_enc_ok Buffer_tracks (NewBuffer (enc ++ (s ++ rest)))
    enc s rest trivial rfl rfl (fun hf => hf.elim) ht h6 hv fuel hf
  obtain ⟨buf⟩ := r'
  simp only [] at h2
  subst h2
  exact h1

/-- The string of C10 with the length 32769, written `81 80 02`, and one byte
after the string. -/
theorem long_string_read_witness :
    Terminated [0x81, 0x80, 0x02] ∧ [0x81, 0x80, 0x02].length ≤ 6 ∧
    leValue [0x81, 0x80, 0x02] = (List.replicate 32769 0x61).length ∧
    32767 < (List.replicate 32769 0x61).length ∧
    ReadString 6 (NewBuffer ([0x81, 0x80, 0x02] ++ (List.replicate 32769 0x61 ++ [0x07])))
      = some (.ok (List.replicate 32769 0x61), NewBuffer [0x07]) := by
  have hlen : (List.replicate 32769 0x61).length = 32769 := List.length_replicate _ _
  generalize List.replicate 32769 0x61 = s at hlen ⊢
  have ht : Terminated [0x81, 0x80, 0x02] := by decide
  have hv : leValue [0x81, 0x80, 0x02] = s.length := by rw [hlen]; decide
  have hbig : 32767 < s.length := by rw [hlen]; omega
  exact ⟨ht, by decide, hv, hbig,
    (long_string_read [0x81, 0x80, 0x02] s [0x07] ht (by decide) hv hbig).1 6 (le_refl 6)⟩

/-- C10, as the claim has it, fails on the length 32768 followed by that many
bytes: `ReadString` returns the string of 32768 bytes, not an error. -/
theorem long_string_accepted :
    WriteVarInt 32768 = [0x80, 0x80, 0x02] ∧
    ReadString 6 (NewBuffer ([0x80, 0x80, 0x02] ++ List.replicate 32768 0x61))
      = some (.ok (List.replicate 32768 0x61), NewBuffer []) := by
  refine ⟨by decide, ?_⟩
  have hlen : (List.replicate 32768 0x61).length = 32768 := List.length_replicate _ _
  generalize List.replicate 32768 0x61 = s at hlen ⊢
  obtain ⟨r', h1, h2, _⟩ := ReadString_enc_ok Buffer_tracks
    (NewBuffer ([0x80, 0x80, 0x02] ++ (s ++ []))) [0x80, 0x80, 0x02] s [] trivial rfl rfl
    (fun hf => hf.elim) (by decide) (by decide) (by rw [hlen]; decide) 6 (le_refl 6)
  obtain ⟨buf⟩ := r'
  simp only [] at h2
  subst h2
  rw [List.append_nil] at h1
  exact h1

/-! ## Fixed-width integers -/

/-- The loop of `io.ReadFull` on a tracked reader that has the missing bytes `s`
pending: it returns the full slice, without an error. -/
theorem ioReadFull_loop_ok {ρ : Type} [Reader ρ] {pend : ρ → List Nat} {stall : ρ → Nat}
    {ok : ρ → Prop} {lax : Prop} (T : Tracks pend stall ok lax) (rest : List Nat) (size : Nat) :
    ∀ (fuel : Nat) (r : ρ) (got s : List Nat),
      ok r → pend r = s ++ rest → got.length + s.length = size →
      stall r + s.length + 1 ≤ fuel →
      ∃ r', ioReadFull.loop fuel r size got = some ((got ++ s, none), r') ∧
        pend r' = rest ∧ ok r' ∧ stall r' ≤ stall r := by
  intro fuel
  induction fuel with
  | zero => intro r got s _ _ _ hf; omega
  | succ fuel ih =>
    intro r got s hok hp hsz hf
    match s, hp, hsz, hf with
    | [], hp, hsz, _ =>
      refine ⟨r, ?_, by simpa using hp, hok, le_refl _⟩
      rw [ioReadFull.loop, if_neg (by simp at hsz; omega)]
      simp
    | x :: xs, hp, hsz, hf =>
      have hk : size - got.length = (x :: xs).length := by omega
      have hlt : got.length < size := by
        have : 0 < (x :: xs).length := by simp
        omega
      obtain ⟨d, e, r', hr, hlen, hd, hok', hst, hst', he⟩ :=
        T.step r (size - got.length) hok (by omega) (by rw [hp]; simp)
      rw [hp] at hd
      rw [hk] at hlen
      obtain ⟨hd1, hd2⟩ := split_pending hd hlen
      have hdl : (d ++ List.drop d.length (x :: xs)).length = (x :: xs).length := by rw [hd1]
      rw [List.length_append] at hdl
      rw [ioReadFull.loop, if_pos hlt, hr]
      simp only []
      rcases he with he | ⟨_, he, hpe⟩
      · subst he
        obtain ⟨r'', h1, h2, h3, h4⟩ := ih r' (got ++ d) ((x :: xs).drop d.length) hok' hd2
          (by rw [List.length_append]; omega)
          (by
            by_cases hd0 : d = []
            · have := hst' hd0
              subst hd0
              simp at hf ⊢
              omega
            · have : 0 < d.length := List.length_pos.mpr hd0
              omega)
        refine ⟨r'', ?_, h2, h3, by omega⟩
        simp only []
        rw [h1, List.append_assoc, hd1]
      · subst he
        rw [hd2] at hpe
        have hdrop : List.drop d.length (x :: xs) = [] := (List.append_eq_nil.mp hpe).1
        have hrest : rest = [] := (List.append_eq_nil.mp hpe).2
        rw [hdrop, List.append_nil] at hd1
        subst hd1
        refine ⟨r', ?_, by rw [hd2, hdrop, hrest]; rfl, hok', hst⟩
        simp only []
        rw [if_pos (by rw [List.length_append]; omega)]

theorem bigEndian16 (v : Nat) (h : v < 2 ^ 16) :
    v % 256 ||| ((v >>> 8) % 256) <<< 8 = v := by
  have h1 : v % 256 < 2 ^ 8 := Nat.mod_lt _ (by norm_num)
  rw [Nat.shiftLeft_eq, Nat.lor_comm, Nat.mul_comm, ← Nat.mul_add_lt_is_or h1,
    Nat.shiftRight_eq_div_pow]
  norm_num at h ⊢
  omega

/-- `ReadUnsignedShort` reads back what `WriteUnsignedShort` wrote. -/
theorem ReadUnsignedShort_ok {ρ : Type} [Reader ρ] {pend : ρ → List Nat} {stall : ρ → Nat}
    {ok : ρ → Prop} {lax : Prop} (T : Tracks pend stall ok lax) (r : ρ) (v : Nat)
    (rest : List Nat) (hok : ok r) (hp : pend r = WriteUnsignedShort v ++ rest)
    (hv : v < 2 ^ 16) (fuel : Nat) (hf : stall r + 3 ≤ fuel) :
    ∃ r', ReadUnsignedShort fuel r = some (.ok v, r') ∧ pend r' = rest ∧ ok r' ∧
      stall r' ≤ stall r := by
  obtain ⟨r', h1, h2, h3, h4⟩ := ioReadFull_loop_ok T rest 2 fuel r [] (WriteUnsignedShort v)
    hok hp (by simp [WriteUnsignedShort]) (by simp [WriteUnsignedShort]; omega)
  refine ⟨r', ?_, h2, h3, h4⟩
  rw [ReadUnsignedShort, ioReadFull, h1]
  simp only [List.nil_append, WriteUnsignedShort, List.getD_cons_zero, List.getD_cons_succ]
  rw [bigEndian16 v hv]

/-! ## The handshake -/

/-- `ReadHandshake` reads back what `WriteHandShake` wrote, for fields that a
VarInt of at most six bytes and a `uint16` hold. -/
theorem ReadHandshake_ok (h : Handshake) (hpv0 : 0 ≤ h.ProtocolVersion)
    (hpv : h.ProtocolVersion < 2 ^ 42) (haddr : h.ServerAddress.length < 2 ^ 42)
    (hport : h.ServerPort < 2 ^ 16) (hns0 : 0 ≤ h.NextState) (hns : h.NextState < 2 ^ 42)
    (fuel : Nat) (hf : 6 ≤ fuel) :
    ReadHandshake fuel (.bytes (WriteHandShake h)) = some (.ok h) := by
  obtain ⟨pv, addr, port, ns⟩ := h
  simp only [] at hpv0 hpv haddr hport hns0 hns
  have hupv : uint64 pv < 128 ^ (5 + 1) :=
    uint64_lt_of_lt pv (128 ^ (5 + 1)) hpv0 (by norm_num; omega) (by norm_num)
  have huns : uint64 ns < 128 ^ (5 + 1) :=
    uint64_lt_of_lt ns (128 ^ (5 + 1)) hns0 (by norm_num; omega) (by norm_num)
  have T := Buffer_tracks
  have nolax : ∀ l : List Nat, False → l ≠ [] := fun _ hf => hf.elim
  obtain ⟨r1, h1, p1, _, _⟩ := ReadVarInt_ok T (NewBuffer (WriteHandShake ⟨pv, addr, port, ns⟩))
    pv (WriteVarInt addr.length ++ (addr ++ (WriteUnsignedShort port ++ WriteVarInt ns))) 5
    trivial (by
      show WriteHandShake ⟨pv, addr, port, ns⟩ = _
      rw [WriteHandShake]
      simp only [Nat.mod_eq_of_lt hport, WriteString, List.append_assoc])
    (nolax _) (by norm_num) hupv fuel (by omega)
  obtain ⟨r2, h2, p2, _, _⟩ := ReadString_enc_ok T r1 (WriteVarInt addr.length) addr
    (WriteUnsignedShort port ++ WriteVarInt ns) trivial rfl p1 (nolax _)
    (WriteVarInt_terminated _) (WriteVarInt_length_six _ haddr) (WriteVarInt_value _ (by omega))
    fuel hf
  obtain ⟨r3, h3, p3, _, _⟩ := ReadUnsignedShort_ok T r2 port (WriteVarInt ns) trivial p2 hport
    fuel (by omega)
  obtain ⟨r4, h4, _⟩ := ReadVarInt_ok T r3 ns [] 5 trivial (by simpa using p3) (nolax _)
    (by norm_num) huns fuel (by omega)
  rw [uint64_cast pv hpv0 (by omega)] at h1
  rw [uint64_cast ns hns0 (by omega)] at h4
  rw [ReadHandshake]
  simp only [h1, h2, h3, h4]

/-- The first byte that `WriteVarInt` writes. -/
theorem WriteVarInt_head (n : Nat) (h : n < 2 ^ 64) :
    ∃ tl, WriteVarInt n = (if n / 128 = 0 then n % 128 else n % 128 + 128) :: tl := by
  rw [WriteVarInt_eq, uint64_of_nat n h, groups]
  by_cases h0 : n / 128 = 0
  · exact ⟨[], by simp [h0]⟩
  · exact ⟨groups n (n / 128), by simp [h0]⟩

/-- The `fill` of an empty `bufio.Reader` over a tracked reader that has bytes
pending and fewer than `i` idle reads left: it buffers some of the bytes. -/
theorem BufReader_fill_loop_ok {ρ : Type} [Reader ρ] {pend : ρ → List Nat} {stall : ρ → Nat}
    {ok : ρ → Prop} {lax : Prop} (T : Tracks pend stall ok lax) :
    ∀ (i : Nat) (rd : ρ), ok rd → pend rd ≠ [] → stall rd < i →
      (BufReader.fill.loop i ⟨[], none, rd⟩).buf ≠ [] ∧
      BufReader.pend pend (BufReader.fill.loop i ⟨[], none, rd⟩) = pend rd ∧
      BufReader.ok pend ok (BufReader.fill.loop i ⟨[], none, rd⟩) ∧
      stall (BufReader.fill.loop i ⟨[], none, rd⟩).rd ≤ stall rd := by
  intro i
  induction i with
  | zero => intro rd _ _ h; omega
  | succ i ih =>
    intro rd hok hp hst
    obtain ⟨d, e, rd', hr, _, hd, hok', hst1, hst2, he⟩ :=
      T.step rd defaultBufSize hok (by decide) hp
    rcases he with he | ⟨_, he, hpe⟩
    · subst he
      by_cases hd0 : d = []
      · subst hd0
        have hd' : pend rd' = pend rd := by simpa using hd
        obtain ⟨h1, h2, h3, h4⟩ := ih rd' hok' (by rw [hd']; exact hp) (by
          have := hst2 rfl
          omega)
        rw [BufReader.fill.loop]
        simp only [List.length_nil, Nat.sub_zero, hr, List.nil_append, gt_iff_lt,
          lt_self_iff_false, if_false]
        exact ⟨h1, by rw [h2, hd'], h3, by omega⟩
      · have hpos : 0 < d.length := List.length_pos.mpr hd0
        rw [BufReader.fill.loop]
        simp only [List.length_nil, Nat.sub_zero, hr, List.nil_append, gt_iff_lt, hpos, if_true]
        exact ⟨hd0, hd, ⟨hok', Or.inl rfl⟩, hst1⟩
    · subst he
      rw [BufReader.fill.loop]
      simp only [List.length_nil, Nat.sub_zero, hr, List.nil_append]
      refine ⟨?_, hd, ⟨hok', Or.inr hpe⟩, hst1⟩
      intro hd0
      rw [hd0, hpe] at hd
      exact hp hd.symm

/-- `Peek(1)` on a new `bufio.Reader` over a tracked reader that has bytes
pending: it shows the first of them, and all of them are still to come. -/
theorem BufReader_Peek1_ok {ρ : Type} [Reader ρ] {pend : ρ → List Nat} {stall : ρ → Nat}
    {ok : ρ → Prop} {lax : Prop} (T : Tracks pend stall ok lax) (rd : ρ) (x : Nat)
    (rest : List Nat) (hok : ok rd) (hp : pend rd = x :: rest)
    (hst : stall rd < maxConsecutiveEmptyReads) :
    ∃ b, (NewReader rd).Peek1 = (.ok x, b) ∧ BufReader.pend pend b = x :: rest ∧
      BufReader.ok pend ok b ∧ stall b.rd ≤ stall rd := by
  obtain ⟨h1, h2, h3, h4⟩ := BufReader_fill_loop_ok T maxConsecutiveEmptyReads rd hok
    (by rw [hp]; simp) hst
  refine ⟨BufReader.fill.loop maxConsecutiveEmptyReads ⟨[], none, rd⟩, ?_, by rw [h2, hp], h3, h4⟩
  rw [hp] at h2
  rw [BufReader.Peek1]
  simp only [NewReader, List.isEmpty_nil, and_self, if_true, BufReader.fill]
  match hb : (BufReader.fill.loop maxConsecutiveEmptyReads ⟨[], none, rd⟩).buf, h1 with
  | [], h1 => exact absurd rfl h1
  | c :: cs, _ =>
    simp only [BufReader.pend, hb, List.cons_append] at h2
    rw [(List.cons.inj h2).1]

/-- The frame part of `ReadPacket` on a tracked reader whose pending bytes are a
frame that holds the VarInt of a packet id and the data: it returns the packet. -/
theorem ReadPacket_framed_ok {ρ : Type} [Reader ρ] {pend : ρ → List Nat} {stall : ρ → Nat}
    {ok : ρ → Prop} {lax : Prop} (T : Tracks pend stall ok lax) (r : ρ) (pid : Int)
    (data rest : List Nat) (hok : ok r) (hpid0 : 0 ≤ pid) (hpid : pid < 2 ^ 42)
    (hp : pend r = WriteVarInt ((WriteVarInt pid ++ data).length : Nat)
      ++ ((WriteVarInt pid ++ data) ++ rest))
    (hlen : (WriteVarInt pid ++ data).length < 2 ^ 42) (fuel : Nat)
    (hf : stall r + (WriteVarInt pid ++ data).length + 6 ≤ fuel) :
    ReadPacket.framed fuel r
      = some (.ok ⟨((WriteVarInt pid ++ data).length : Nat), pid, .bytes data⟩) := by
  have hl : lax → (WriteVarInt pid ++ data) ++ rest ≠ [] := fun _ => by
    have hpos := (WriteVarInt_terminated pid).length_pos
    intro h0
    have h1 := (List.append_eq_nil.mp (List.append_eq_nil.mp h0).1).1
    rw [h1] at hpos
    exact absurd hpos (by simp)
  obtain ⟨r1, h1, _⟩ := ReadFrame_ok T r (WriteVarInt pid ++ data) rest hok hp hl hlen fuel hf
  have hu : uint64 pid < 128 ^ (5 + 1) :=
    uint64_lt_of_lt pid (128 ^ (5 + 1)) hpid0 (by norm_num; omega) (by norm_num)
  obtain ⟨r2, h2, p2, _⟩ := ReadVarInt_ok Buffer_tracks (NewBuffer (WriteVarInt pid ++ data)) pid
    data 5 trivial rfl (fun hf => hf.elim) (by norm_num) hu fuel
    (by show 0 + (5 + 1) ≤ fuel; omega)
  rw [uint64_cast pid hpid0 (by omega)] at h2
  rw [ReadPacket.framed, h1]
  simp only [h2, Buffer.Bytes]
  obtain ⟨buf⟩ := r2
  simp only [] at p2
  rw [p2]

theorem Conn.stall_eq_zero (chunks : List (List Nat)) (atEnd : Error) (early : Bool)
    (hne : ∀ c ∈ chunks, c ≠ []) : (Conn.mk chunks atEnd early).stall = 0 := by
  rw [Conn.stall, List.countP_eq_zero]
  intro c hc
  simp only [List.isEmpty_iff]
  exact hne c hc

/-- What `WriteHandShake` writes for a handshake with a protocol version below
`2 ^ 31`, an address of 255 bytes at most and the next state 1 or 2 has 265 bytes
at most. -/
theorem WriteHandShake_length (h : Handshake) (hpv0 : 0 ≤ h.ProtocolVersion)
    (hpv : h.ProtocolVersion < 2 ^ 31) (haddr : h.ServerAddress.length ≤ 255)
    (hns : h.NextState = 1 ∨ h.NextState = 2) : (WriteHandShake h).length ≤ 265 := by
  have h1 := WriteVarInt_length h.ProtocolVersion 4
    (uint64_lt_of_lt _ (128 ^ (4 + 1)) hpv0 (by norm_num; omega) (by norm_num))
  have h2 := WriteVarInt_length (h.ServerAddress.length : Int) 1
    (by rw [uint64_of_nat _ (by omega)]; norm_num; omega)
  have h3 : (WriteVarInt h.NextState).length ≤ 1 := by
    rcases hns with hns | hns <;> rw [hns] <;> decide
  simp only [WriteHandShake, WriteString, WriteUnsignedShort, List.length_append,
    List.length_cons, List.length_nil]
  omega

/-- C1, as the code has it. Every modern handshake but those of frame length
254 is accepted: for every Handshake `h` with `0 ≤ ProtocolVersion < 2 ^ 31`, a
`ServerAddress` of at most 255 bytes, a 16-bit `ServerPort` and `NextState` 1 or
2, let `body = WriteVarInt(0) ++ WriteHandShake(h)` and
`S = WriteVarInt(|body|) ++ body`. When `|body|` is not 254, `ReadPacket` in the
state `StateHandshaking`, on a connection that delivers `S` in non-empty chunks,
returns a packet with `Length = |body|` and `PacketID = 0`, and `ReadHandshake`
on the `Data` of that packet returns `h`. -/
theorem handshake_accepted (h : Handshake) (chunks : List (List Nat)) (atEnd : Error)
    (hpv0 : 0 ≤ h.ProtocolVersion) (hpv : h.ProtocolVersion < 2 ^ 31)
    (haddr : h.ServerAddress.length ≤ 255) (hport : h.ServerPort < 2 ^ 16)
    (hns : h.NextState = 1 ∨ h.NextState = 2)
    (h254 : (WriteVarInt 0 ++ WriteHandShake h).length ≠ 254)
    (hch : chunks.flatten = WriteVarInt ((WriteVarInt 0 ++ WriteHandShake h).length : Nat)
      ++ (WriteVarInt 0 ++ WriteHandShake h))
    (hne : ∀ c ∈ chunks, c ≠ []) (fuel : Nat)
    (hf : (WriteVarInt 0 ++ WriteHandShake h).length + 6 ≤ fuel) :
    ReadPacket fuel (Conn.mk chunks atEnd false) StateHandshaking
      = some (.ok ⟨((WriteVarInt 0 ++ WriteHandShake h).length : Nat), 0,
          .bytes (WriteHandShake h)⟩) ∧
    ReadHandshake fuel (.bytes (WriteHandShake h)) = some (.ok h) := by
  have hlen := WriteHandShake_length h hpv0 hpv haddr hns
  have hbody : (WriteVarInt 0 ++ WriteHandShake h).length ≤ 266 := by
    have : (WriteVarInt 0).length = 1 := by decide
    rw [List.length_append]; omega
  refine ⟨?_, ?_⟩
  · have hhead : ∃ x tl, WriteVarInt ((WriteVarInt 0 ++ WriteHandShake h).length : Nat) = x :: tl ∧
        x ≠ PacketIdLegacyServerListPing := by
      obtain ⟨tl, htl⟩ := WriteVarInt_head (WriteVarInt 0 ++ WriteHandShake h).length (by omega)
      refine ⟨_, tl, htl, ?_⟩
      rw [PacketIdLegacyServerListPing]
      split_ifs <;> omega
    obtain ⟨x, tl, htl, hx⟩ := hhead
    have hT := Conn_tracks_strict atEnd
    have hst := Conn.stall_eq_zero chunks atEnd false hne
    have hp : (Conn.mk chunks atEnd false).pend
        = x :: (tl ++ (WriteVarInt 0 ++ WriteHandShake h)) := by
      rw [Conn.pend, hch, htl]; rfl
    obtain ⟨b, hb1, hb2, hb3, hb4⟩ := BufReader_Peek1_ok hT (Conn.mk chunks atEnd false) x _
      ⟨rfl, rfl⟩ hp (by rw [hst]; decide)
    rw [ReadPacket, if_pos rfl, hb1]
    simp only [hx, if_false]
    exact ReadPacket_framed_ok (BufReader_tracks hT) b 0 (WriteHandShake h) [] hb3 (le_refl 0)
      (by norm_num)
      (by rw [hb2, htl]; simp)
      (by omega) fuel (by show Conn.stall b.rd + _ + 6 ≤ fuel; omega)
  · rcases hns with hns | hns
    · exact ReadHandshake_ok h hpv0 (by omega) (by omega) hport (by omega) (by omega) fuel
        (by omega)
    · exact ReadHandshake_ok h hpv0 (by omega) (by omega) hport (by omega) (by omega) fuel
        (by omega)

/-- The handshake of C1 with the protocol version 764, the address `my.srv`,
the port 25565 and the next state 1, delivered in two chunks. -/
theorem handshake_accepted_witness :
    WriteVarInt ((WriteVarInt 0 ++ WriteHandShake ⟨764, [109, 121, 46, 115, 114, 118], 25565,
        1⟩).length : Nat)
      ++ (WriteVarInt 0 ++ WriteHandShake ⟨764, [109, 121, 46, 115, 114, 118], 25565, 1⟩)
      = [0x0D, 0x00, 0xFC, 0x05, 0x06, 109, 121, 46, 115, 114, 118, 0x63, 0xDD, 0x01] ∧
    ReadPacket 19
        (Conn.mk [[0x0D, 0x00, 0xFC], [0x05, 0x06, 109, 121, 46, 115, 114, 118, 0x63, 0xDD, 0x01]]
          .EOF false) StateHandshaking
      = some (.ok ⟨((WriteVarInt 0 ++ WriteHandShake ⟨764, [109, 121, 46, 115, 114, 118], 25565,
          1⟩).length : Nat), 0,
          .bytes (WriteHandShake ⟨764, [109, 121, 46, 115, 114, 118], 25565, 1⟩)⟩) ∧
    ReadHandshake 19
        (.bytes (WriteHandShake ⟨764, [109, 121, 46, 115, 114, 118], 25565, 1⟩))
      = some (.ok ⟨764, [109, 121, 46, 115, 114, 118], 25565, 1⟩) :=
  ⟨by decide,
    handshake_accepted ⟨764, [109, 121, 46, 115, 114, 118], 25565, 1⟩
      [[0x0D, 0x00, 0xFC], [0x05, 0x06, 109, 121, 46, 115, 114, 118, 0x63, 0xDD, 0x01]] .EOF
      (by decide) (by decide) (by decide) (by decide) (by decide) (by decide) (by decide)
      (by decide) 19 (by decide)⟩

set_option maxRecDepth 100000 in
/-- C1, as the claim has it, fails for the handshake with the protocol version
764, an address of 246 bytes `a`, the port 25565 and the next state 1: its body has
254 bytes, so that the stream starts with `FE 01 00`, and `ReadPacket` hands it
to `ReadLegacyServerListPing`, which returns an error at the third byte. -/
theorem handshake_of_length_254_rejected :
    (WriteVarInt 0 ++ WriteHandShake ⟨764, List.replicate 246 0x61, 25565, 1⟩).length = 254 ∧
    WriteVarInt 254 = [0xFE, 0x01] ∧
    ReadPacket 300
        (Conn.mk [WriteVarInt 254
          ++ (WriteVarInt 0 ++ WriteHandShake ⟨764, List.replicate 246 0x61, 25565, 1⟩)]
          .EOF false) StateHandshaking
      = some (.error (.Errorf
          "expected packetIdForPluginMsg=0xFA from legacy server listing ping, got %x" [0])) := by
  decide

/-! ## Strings and byte arrays, written and read back -/

/-- C11. String round trip: for every string `s` of at most 32767 bytes,
`WriteString` writes `WriteVarInt(len(s))` followed by the bytes of `s`, and
`ReadString` on a buffer that holds that output, and whatever bytes `rest` after
it, returns `s` without an error and leaves exactly `rest` unread. -/
theorem string_round_trip (s rest : List Nat) (hs : s.length ≤ 32767) :
    WriteString s = WriteVarInt s.length ++ s ∧
    ∀ fuel, 6 ≤ fuel →
      ReadString fuel (NewBuffer (WriteString s ++ rest)) = some (.ok s, NewBuffer rest) := by
  refine ⟨rfl, ?_⟩
  intro fuel hf
  obtain ⟨r', h1, h2, _⟩ := ReadString_enc_ok Buffer_tracks (NewBuffer (WriteString s ++ rest))
    (WriteVarInt s.length) s rest trivial rfl
    (by show WriteString s ++ rest = _; rw [WriteString, List.append_assoc])
    (fun hf => hf.elim) (WriteVarInt_terminated _) (WriteVarInt_length_six _ (by omega))
    (WriteVarInt_value _ (by omega)) fuel hf
  obtain ⟨buf⟩ := r'
  simp only [] at h2
  subst h2
  exact h1

/-- The round trip of C11 on the string `my.srv`, and on the empty string. -/
theorem string_round_trip_witness :
    ([109, 121, 46, 115, 114, 118] : List Nat).length ≤ 32767 ∧
    WriteString [109, 121, 46, 115, 114, 118] = [0x06, 109, 121, 46, 115, 114, 118] ∧
    ReadString 6 (NewBuffer (WriteString [109, 121, 46, 115, 114, 118] ++ [0x63, 0xDD]))
      = some (.ok [109, 121, 46, 115, 114, 118], NewBuffer [0x63, 0xDD]) ∧
    ReadString 6 (NewBuffer (WriteString [])) = some (.ok [], NewBuffer []) :=
  ⟨by decide, by decide,
    (string_round_trip [109, 121, 46, 115, 114, 118] [0x63, 0xDD] (by decide)).2 6 (le_refl 6),
    by decide⟩

/-- C19. `ReadByteArray` does not return what `WriteByteArray` wrote: the
buffer it copies into already holds as many zero bytes as the array is long, so
that for the array `41 42`, written `02 41 42`, it returns `00 00 41 42`. Only
the empty array comes back as it was. -/
theorem byte_array_read_back_with_zeros :
    WriteByteArray [0x41, 0x42] = [0x02, 0x41, 0x42] ∧
    ReadByteArray 10 (NewBuffer (WriteByteArray [0x41, 0x42]))
      = some (.ok [0x00, 0x00, 0x41, 0x42], NewBuffer []) ∧
    ReadByteArray 10 (NewBuffer (WriteByteArray [])) = some (.ok [], NewBuffer []) := by
  decide

/-- C13. `ReadUTF16BEString` computes the size of its slice in `uint16`: for
32768 code units the size is 0, and on a stream that holds the 65536 bytes of
that many code units the call succeeds, has consumed none of them and returns the
empty string. -/
theorem utf16_count_wraps :
    ReadUTF16BEString 1 (NewBuffer (List.replicate 65536 0x61)) 32768
      = some (.ok [], NewBuffer (List.replicate 65536 0x61)) := by
  generalize List.replicate 65536 0x61 = s
  rfl

/-! ## The handshake body, written and read back -/

/-- C18, as the code has it. Handshake body round trip: for every Handshake `h`
with `0 ≤ ProtocolVersion < 2 ^ 32`, a `ServerAddress` of fewer than `2 ^ 42` bytes
(a length that a VarInt of six bytes holds), a 16-bit `ServerPort` and
`0 ≤ NextState < 2 ^ 32`, `ReadHandshake` on the bytes written by `WriteHandShake`
returns `h`, without an error. -/
theorem handshake_round_trip (h : Handshake) (hpv0 : 0 ≤ h.ProtocolVersion)
    (hpv : h.ProtocolVersion < 2 ^ 32) (haddr : h.ServerAddress.length < 2 ^ 42)
    (hport : h.ServerPort < 2 ^ 16) (hns0 : 0 ≤ h.NextState) (hns : h.NextState < 2 ^ 32) :
    ∀ fuel, 6 ≤ fuel → ReadHandshake fuel (.bytes (WriteHandShake h)) = some (.ok h) :=
  fun fuel hf => ReadHandshake_ok h hpv0 (by omega) haddr hport hns0 (by omega) fuel hf

/-- The round trip of C18 for the protocol version `2 ^ 32 - 1`, the address
`my.srv`, the port 65535 and the next state `2 ^ 32 - 1`. -/
theorem handshake_round_trip_witness :
    (0 : Int) ≤ 4294967295 ∧ (4294967295 : Int) < 2 ^ 32 ∧
    ([109, 121, 46, 115, 114, 118] : List Nat).length < 2 ^ 42 ∧ 65535 < 2 ^ 16 ∧
    WriteHandShake ⟨4294967295, [109, 121, 46, 115, 114, 118], 65535, 4294967295⟩
      = [0xFF, 0xFF, 0xFF, 0xFF, 0x0F, 0x06, 109, 121, 46, 115, 114, 118, 0xFF, 0xFF,
          0xFF, 0xFF, 0xFF, 0xFF, 0x0F] ∧
    ReadHandshake 6
        (.bytes (WriteHandShake ⟨4294967295, [109, 121, 46, 115, 114, 118], 65535, 4294967295⟩))
      = some (.ok ⟨4294967295, [109, 121, 46, 115, 114, 118], 65535, 4294967295⟩) :=
  ⟨by decide, by decide, by decide, by decide, by decide,
    handshake_round_trip ⟨4294967295, [109, 121, 46, 115, 114, 118], 65535, 4294967295⟩
      (by decide) (by decide) (by decide) (by decide) (by decide) (by decide) 6 (le_refl 6)⟩

/-- C18, as the claim has it, fails for an address of `2 ^ 42` bytes: its length
is written as the seven bytes `80 80 80 80 80 80 01`, and `ReadHandshake` returns
the error `VarInt is too big`. -/
theorem handshake_address_too_long :
    WriteVarInt ((2 ^ 42 : Nat) : Int) = [0x80, 0x80, 0x80, 0x80, 0x80, 0x80, 0x01] ∧
    ReadHandshake 8 (.bytes (WriteHandShake ⟨0, List.replicate (2 ^ 42) 0x61, 25565, 1⟩))
      = some (.error (.New "VarInt is too big")) := by
  have hw : WriteVarInt ((2 ^ 42 : Nat) : Int) = [0x80, 0x80, 0x80, 0x80, 0x80, 0x80, 0x01] := by
    decide
  refine ⟨hw, ?_⟩
  have hlen : (List.replicate (2 ^ 42) 0x61).length = 2 ^ 42 := List.length_replicate _ _
  generalize List.replicate (2 ^ 42) 0x61 = A at hlen ⊢
  have hbody : WriteHandShake ⟨0, A, 25565, 1⟩
      = WriteVarInt 0 ++ ([0x80, 0x80, 0x80, 0x80, 0x80, 0x80]
          ++ (0x01 :: (A ++ (WriteUnsignedShort 25565 ++ WriteVarInt 1)))) := by
    rw [WriteHandShake, WriteString]
    simp only [hlen, hw, List.append_assoc, List.cons_append, List.nil_append]
    rfl
  obtain ⟨r1, h1, p1, _⟩ := ReadVarInt_ok Buffer_tracks (NewBuffer (WriteHandShake ⟨0, A, 25565, 1⟩))
    0 _ 0 trivial hbody (fun hf => hf.elim) (by norm_num) (by decide) 8
    (by show 0 + (0 + 1) ≤ 8; omega)
  obtain ⟨r2, h2, _⟩ := ReadVarInt_loop_too_big Buffer_tracks
    (0x01 :: (A ++ (WriteUnsignedShort 25565 ++ WriteVarInt 1))) (fun hf => hf.elim) 8 r1 0 0
    [0x80, 0x80, 0x80, 0x80, 0x80, 0x80] trivial p1 (by decide) (by decide)
    (by show 0 + 6 + 1 ≤ 8; omega)
  have h1' : ReadVarInt 8 (NewBuffer (WriteHandShake ⟨0, A, 25565, 1⟩)) = some (.ok 0, r1) := h1
  have h2' : ReadString 8 r1 = some (.error (.New "VarInt is too big"), r2) := by
    rw [ReadString, ReadVarInt, h2]
  rw [ReadHandshake]
  simp only [h1', h2']

/-! ## The status ping of the specification -/

/-- The loop of `ReadFrame` on a `bufio.Reader` that is empty, over a connection
that has ended with `io.EOF`, while the payload is incomplete: it is still
polling when the fuel runs out, whatever the fuel. -/
theorem ReadFrame_loop_starved_buffered (atEnd : Error) (hE : atEnd = Error.EOF) :
    ∀ (fuel : Nat) (frame : Frame) (total : Nat),
      (total : Int) < frame.Length → total < frame.Payload.length →
      frame.Payload.length - total < defaultBufSize →
      ReadFrame.loop fuel (BufReader.mk [] none (Conn.mk [] atEnd false)) frame total = none := by
  subst hE
  intro fuel
  induction fuel with
  | zero => intro frame total _ _ _; rfl
  | succ fuel ih =>
    intro frame total hlt hpay hsmall
    have hk0 : (frame.Payload.length - total == 0) = false := by
      simp only [beq_eq_false_iff_ne, ne_eq]; omega
    have hbig : ¬ defaultBufSize ≤ frame.Payload.length - total := by omega
    have hread : Reader.Read (BufReader.mk [] none (Conn.mk [] Error.EOF false))
        (frame.Payload.length - total)
        = (([], some Error.EOF), BufReader.mk [] none (Conn.mk [] Error.EOF false)) := by
      show BufReader.Read _ _ = _
      simp [BufReader.Read, hk0, hbig, Reader.Read, Conn.Read]
    have hfilter : (some Error.EOF).filter (fun e => e ≠ Error.EOF) = none := by
      simp [Option.filter]
    rw [ReadFrame.loop, if_pos hlt, hread]
    simp only [hfilter]
    have hs : (storeAt frame.Payload total []).length = frame.Payload.length :=
      storeAt_length _ _ _ (by simp; omega)
    refine ih _ _ (by simpa using hlt) ?_ ?_
    · show total + ([] : List Nat).length < (storeAt frame.Payload total []).length
      rw [hs]; simpa using hpay
    · show (storeAt frame.Payload total []).length - (total + ([] : List Nat).length) < _
      rw [hs]; simpa using hsmall

/-- `ReadPacket` on the byte sequence of the specification's status ping, which
announces 16 bytes and holds 13, does not return. -/
theorem status_ping_as_given_starves (fuel : Nat) :
    ReadPacket fuel
      (Conn.mk [[0x10, 0x00, 0xFC, 0x05, 0x06, 109, 121, 46, 115, 114, 118, 0x63, 0xDD, 0x01]]
        .EOF false) StateHandshaking = none := by
  have hpeek : (NewReader (Conn.mk [[0x10, 0x00, 0xFC, 0x05, 0x06, 109, 121, 46, 115, 114, 118,
      0x63, 0xDD, 0x01]] .EOF false)).Peek1
      = (.ok 0x10, BufReader.mk [0x10, 0x00, 0xFC, 0x05, 0x06, 109, 121, 46, 115, 114, 118, 0x63,
          0xDD, 0x01] none (Conn.mk [] .EOF false)) := by
    rfl
  rw [ReadPacket, if_pos rfl, hpeek]
  simp only [PacketIdLegacyServerListPing, Nat.reduceEqDiff, if_false]
  rw [ReadPacket.framed, ReadFrame]
  cases fuel with
  | zero => rfl
  | succ fuel =>
    have hvar : ReadVarInt (fuel + 1) (BufReader.mk [0x10, 0x00, 0xFC, 0x05, 0x06, 109, 121, 46,
        115, 114, 118, 0x63, 0xDD, 0x01] none (Conn.mk [] .EOF false))
        = some (.ok 16, BufReader.mk [0x00, 0xFC, 0x05, 0x06, 109, 121, 46, 115, 114, 118, 0x63,
            0xDD, 0x01] none (Conn.mk [] .EOF false)) := by
      rfl
    have hloop : ReadFrame.loop (fuel + 1) (BufReader.mk [0x00, 0xFC, 0x05, 0x06, 109, 121, 46,
        115, 114, 118, 0x63, 0xDD, 0x01] none (Conn.mk [] .EOF false))
        ⟨16, List.replicate (16 : Int).toNat 0⟩ 0
        = ReadFrame.loop fuel (BufReader.mk [] none (Conn.mk [] .EOF false))
            ⟨16, [0x00, 0xFC, 0x05, 0x06, 109, 121, 46, 115, 114, 118, 0x63, 0xDD, 0x01, 0, 0, 0]⟩
            13 := by
      rfl
    rw [hvar]
    simp only []
    rw [hloop, ReadFrame_loop_starved_buffered .EOF rfl fuel _ 13 (by decide) (by decide)
      (by decide)]

/-- C15, as the code has it. The client byte sequence given in the
specification, `10 00 FC 05 06 m y . s r v 63 DD 01`, announces a frame of 16
bytes and holds 13: on it `ReadPacket` in the state `StateHandshaking` does not
return, for it waits for three more bytes. On the sequence with the length byte
`0D` of the 13 bytes that follow, `ReadPacket` returns a packet with `Length` 13
and `PacketID` 0, and `ReadHandshake` on its `Data` returns `ProtocolVersion`
`0x02FC`, `ServerAddress` `my.srv`, `ServerPort` 25565 and `NextState` 1. -/
theorem status_ping_scenario :
    (∀ fuel, ReadPacket fuel
      (Conn.mk [[0x10, 0x00, 0xFC, 0x05, 0x06, 109, 121, 46, 115, 114, 118, 0x63, 0xDD, 0x01]]
        .EOF false) StateHandshaking = none) ∧
    ReadPacket 19
      (Conn.mk [[0x0D, 0x00, 0xFC, 0x05, 0x06, 109, 121, 46, 115, 114, 118, 0x63, 0xDD, 0x01]]
        .EOF false) StateHandshaking
      = some (.ok ⟨0x0D, 0,
          .bytes [0xFC, 0x05, 0x06, 109, 121, 46, 115, 114, 118, 0x63, 0xDD, 0x01]⟩) ∧
    ReadHandshake 19 (.bytes [0xFC, 0x05, 0x06, 109, 121, 46, 115, 114, 118, 0x63, 0xDD, 0x01])
      = some (.ok ⟨0x02FC, [109, 121, 46, 115, 114, 118], 25565, 1⟩) :=
  ⟨status_ping_as_given_starves, by decide, by decide⟩

/-- C15, as the claim has it, fails: on the byte sequence given there is no fuel
with which `ReadPacket` returns a packet. -/
theorem status_ping_as_given_no_packet :
    ¬ ∃ fuel p, ReadPacket fuel
      (Conn.mk [[0x10, 0x00, 0xFC, 0x05, 0x06, 109, 121, 46, 115, 114, 118, 0x63, 0xDD, 0x01]]
        .EOF false) StateHandshaking = some (.ok p) := by
  rintro ⟨fuel, p, h⟩
  rw [status_ping_as_given_starves fuel] at h
  exact Option.noConfusion h

end mcproto

namespace server

/-! ## The routable services of a Kubernetes service -/

theorem extract_foldl (service : Service) (names : List (List Char)) :
    ∀ acc : List routableService,
      names.foldl (fun routableServices serviceName =>
        routableServices ++ [buildDetails service serviceName]) acc
      = acc ++ names.map (buildDetails service) := by
  induction names with
  | nil => intro acc; simp
  | cons n ns ih => intro acc; simp [ih]

/-- The routable services of a service that has the annotation
`externalServerName`: one for each piece of its value. -/
theorem extract_named (service : Service) (v : List Char)
    (ha : service.Annotations AnnotationExternalServerName = some v) :
    extractRoutableServices (.service service)
      = (stringsSplit v ',').map (buildDetails service) := by
  rw [extractRoutableServices]
  simp only [ha, extract_foldl, List.nil_append]

/-- C16. Multi-host splitting: for every service whose `externalServerName`
annotation is the comma-join of the hosts `h1..hk` (`k ≥ 1`, no host with a comma
in it), `extractRoutableServices` returns exactly `k` entries in the same order,
entry `i` with the `externalServiceName` `hi` and every entry with the same
`containerEndpoint`; for a service with neither the `externalServerName` nor the
`defaultServer` annotation, and for an object that is no service, it returns no
entries. -/
theorem multi_host_splitting :
    (∀ (service : Service) (hosts : List (List Char)), hosts ≠ [] →
      (∀ h ∈ hosts, ',' ∉ h) →
      service.Annotations AnnotationExternalServerName = some ([','].intercalate hosts) →
      extractRoutableServices (.service service)
        = hosts.map (fun h => ⟨h, (buildDetails service []).containerEndpoint⟩)) ∧
    (∀ service : Service, service.Annotations AnnotationExternalServerName = none →
      service.Annotations AnnotationDefaultServer = none →
      extractRoutableServices (.service service) = []) ∧
    extractRoutableServices .other = [] := by
  refine ⟨?_, ?_, rfl⟩
  · intro service hosts hk hc ha
    rw [extract_named service _ ha, stringsSplit, List.splitOn_intercalate hosts ',' hc hk]
    rfl
  · intro service h1 h2
    rw [extractRoutableServices]
    simp only [h1, h2]

/-- The splitting of C16 for the hosts `a.com` and `b.org` of a service with the
cluster IP `10.0.0.1` and no port. -/
theorem multi_host_splitting_witness :
    [','].intercalate ["a.com".toList, "b.org".toList] = "a.com,b.org".toList ∧
    extractRoutableServices (.service
        ⟨fun k => if k = AnnotationExternalServerName then some "a.com,b.org".toList else none,
          "10.0.0.1".toList, []⟩)
      = [⟨"a.com".toList, "10.0.0.1:25565".toList⟩, ⟨"b.org".toList, "10.0.0.1:25565".toList⟩] :=
  ⟨by decide,
    multi_host_splitting.1
      ⟨fun k => if k = AnnotationExternalServerName then some "a.com,b.org".toList else none,
        "10.0.0.1".toList, []⟩
      ["a.com".toList, "b.org".toList] (by decide) (by decide) (by decide)⟩

/-! ## The endpoint of a service -/

/-- The port that the loop of `buildDetails` ends with, from `port`: the number
of the last port that has the name `mc-router`, or `port` when none has. -/
theorem port_loop (ports : List ServicePort) :
    ∀ port : List Char,
      ports.foldl (fun port p => if p.Name = "mc-router".toList then Itoa p.Port else port) port
      = match (ports.filter (fun p => p.Name = "mc-router".toList)).getLast? with
        | some p => Itoa p.Port
        | none => port := by
  induction ports with
  | nil => intro port; rfl
  | cons p ps ih =>
    intro port
    rw [List.foldl_cons, ih, List.filter_cons]
    by_cases hp : p.Name = "mc-router".toList
    · simp only [hp, decide_True, if_true, List.getLast?_cons]
      cases (ps.filter (fun p => decide (p.Name = "mc-router".toList))).getLast? <;> rfl
    · simp only [hp, decide_False, if_false, Bool.false_eq_true]

/-- C17, as the code has it. Endpoint port selection: for every service,
`buildDetails` returns the endpoint `net.JoinHostPort(clusterIP, P)`, where `P` is
`25565` when the service has no port named `mc-router` and otherwise the number,
in decimal, of the last port named `mc-router`; ports with any other name never
change the result. The endpoint is `clusterIP:P` when the cluster IP has no colon
in it and `[clusterIP]:P` when it has, as an IPv6 address does. -/
theorem endpoint_port_selection (service : Service) (name : List Char) :
    (buildDetails service name).containerEndpoint
      = JoinHostPort service.ClusterIP
          (match (service.Ports.filter (fun p => p.Name = "mc-router".toList)).getLast? with
            | some p => Itoa p.Port
            | none => "25565".toList) ∧
    ((∀ p ∈ service.Ports, p.Name ≠ "mc-router".toList) →
      (buildDetails service name).containerEndpoint
        = JoinHostPort service.ClusterIP "25565".toList) ∧
    (buildDetails service name).containerEndpoint
      = (buildDetails { service with
          Ports := service.Ports.filter (fun p => p.Name = "mc-router".toList) }
          name).containerEndpoint ∧
    (∀ port : List Char, ':' ∉ service.ClusterIP →
      JoinHostPort service.ClusterIP port = service.ClusterIP ++ ":".toList ++ port) ∧
    (∀ port : List Char, ':' ∈ service.ClusterIP →
      JoinHostPort service.ClusterIP port
        = "[".toList ++ service.ClusterIP ++ "]:".toList ++ port) := by
  have hmain : (buildDetails service name).containerEndpoint
      = JoinHostPort service.ClusterIP
          (match (service.Ports.filter (fun p => p.Name = "mc-router".toList)).getLast? with
            | some p => Itoa p.Port
            | none => "25565".toList) := by
    simp only [buildDetails, port_loop]
  refine ⟨hmain, ?_, ?_, ?_, ?_⟩
  · intro hno
    have hf : service.Ports.filter (fun p => p.Name = "mc-router".toList) = [] := by
      rw [List.filter_eq_nil_iff]
      intro p hp
      simpa using hno p hp
    rw [hmain, hf]
    rfl
  · rw [hmain]
    simp only [buildDetails, port_loop, List.filter_filter, Bool.and_self]
  · intro port hc
    simp [JoinHostPort, hc]
  · intro port hc
    simp [JoinHostPort, hc]

/-- C17, as the claim has it, fails twice. A service with the cluster IP
`fd00::1` and no port has the endpoint `[fd00::1]:25565`, not `fd00::1:25565`;
and a service with the cluster IP `10.0.0.1` and two ports named `mc-router`, the
first with the number 25566 and the second with 25567, has the endpoint
`10.0.0.1:25567`, though it has a port named `mc-router` whose number is 25566. -/
theorem endpoint_with_colon_or_two_ports :
    (buildDetails ⟨fun _ => none, "fd00::1".toList, []⟩ []).containerEndpoint
      = "[fd00::1]:25565".toList ∧
    (buildDetails ⟨fun _ => none, "fd00::1".toList, []⟩ []).containerEndpoint
      ≠ "fd00::1:25565".toList ∧
    (buildDetails ⟨fun _ => none, "10.0.0.1".toList,
        [⟨"mc-router".toList, 25566⟩, ⟨"mc-router".toList, 25567⟩]⟩ []).containerEndpoint
      = "10.0.0.1:25567".toList ∧
    (buildDetails ⟨fun _ => none, "10.0.0.1".toList,
        [⟨"mc-router".toList, 25566⟩, ⟨"mc-router".toList, 25567⟩]⟩ []).containerEndpoint
      ≠ "10.0.0.1:25566".toList := by
  decide

/-! ## The calls on the route table -/

/-- C20, as the code has it. For every service that carries an
`externalServerName` annotation whose comma-separated items are all non-empty
(so that the value is not empty and has no leading, trailing or doubled comma),
the calls that `handleAdd` makes on the route table are `CreateMapping` calls with
non-empty hosts only, one for each item in order and all with the endpoint of the
service, and never a `SetDefaultRoute` call; likewise `handleDelete` makes only
`DeleteMapping` calls for it, one for each item. -/
theorem mappings_for_named_hosts (service : Service) (v : List Char)
    (ha : service.Annotations AnnotationExternalServerName = some v)
    (hne : ∀ h ∈ stringsSplit v ',', h ≠ []) :
    handleAdd (.service service)
      = (stringsSplit v ',').map
          (fun h => .CreateMapping h (buildDetails service []).containerEndpoint) ∧
    handleDelete (.service service) = (stringsSplit v ',').map (fun h => .DeleteMapping h) ∧
    (∀ op ∈ handleAdd (.service service), ∃ h, h ≠ [] ∧
      op = .CreateMapping h (buildDetails service []).containerEndpoint) ∧
    (∀ op ∈ handleDelete (.service service), ∃ h, h ≠ [] ∧ op = .DeleteMapping h) := by
  have hadd : handleAdd (.service service)
      = (stringsSplit v ',').map
          (fun h => .CreateMapping h (buildDetails service []).containerEndpoint) := by
    rw [handleAdd, extract_named service v ha, List.map_map]
    apply List.map_congr_left
    intro h hh
    simp [buildDetails, hne h hh]
  have hdel : handleDelete (.service service)
      = (stringsSplit v ',').map (fun h => .DeleteMapping h) := by
    rw [handleDelete, extract_named service v ha, List.map_map]
    apply List.map_congr_left
    intro h hh
    simp [buildDetails, hne h hh]
  refine ⟨hadd, hdel, ?_, ?_⟩
  · intro op hop
    rw [hadd, List.mem_map] at hop
    obtain ⟨h, hh, rfl⟩ := hop
    exact ⟨h, hne h hh, rfl⟩
  · intro op hop
    rw [hdel, List.mem_map] at hop
    obtain ⟨h, hh, rfl⟩ := hop
    exact ⟨h, hne h hh, rfl⟩

/-- The calls of C20 for a service with the annotation value `a.com,b.org`, the
cluster IP `10.0.0.1` and no port. -/
theorem mappings_for_named_hosts_witness :
    stringsSplit "a.com,b.org".toList ',' = ["a.com".toList, "b.org".toList] ∧
    handleAdd (.service
        ⟨fun k => if k = AnnotationExternalServerName then some "a.com,b.org".toList else none,
          "10.0.0.1".toList, []⟩)
      = [.CreateMapping "a.com".toList "10.0.0.1:25565".toList,
          .CreateMapping "b.org".toList "10.0.0.1:25565".toList] ∧
    handleDelete (.service
        ⟨fun k => if k = AnnotationExternalServerName then some "a.com,b.org".toList else none,
          "10.0.0.1".toList, []⟩)
      = [.DeleteMapping "a.com".toList, .DeleteMapping "b.org".toList] :=
  have h := mappings_for_named_hosts
    ⟨fun k => if k = AnnotationExternalServerName then some "a.com,b.org".toList else none,
      "10.0.0.1".toList, []⟩ "a.com,b.org".toList (by decide) (by decide)
  ⟨by decide, h.1, h.2.1⟩

/-- C20, as the claim has it, fails for an annotation with an empty item. With
the empty value, `handleAdd` makes the one call `SetDefaultRoute` with the endpoint
of the service and `handleDelete` the one call `SetDefaultRoute` with the empty
endpoint; with the value `a.com,` the second call of `handleAdd` is a
`SetDefaultRoute`. -/
theorem empty_host_sets_default_route :
    handleAdd (.service
        ⟨fun k => if k = AnnotationExternalServerName then some [] else none,
          "10.0.0.1".toList, []⟩)
      = [.SetDefaultRoute "10.0.0.1:25565".toList] ∧
    handleDelete (.service
        ⟨fun k => if k = AnnotationExternalServerName then some [] else none,
          "10.0.0.1".toList, []⟩)
      = [.SetDefaultRoute []] ∧
    handleAdd (.service
        ⟨fun k => if k = AnnotationExternalServerName then some "a.com,".toList else none,
          "10.0.0.1".toList, []⟩)
      = [.CreateMapping "a.com".toList "10.0.0.1:25565".toList,
          .SetDefaultRoute "10.0.0.1:25565".toList] := by
  decide

end server

namespace mcproto

/-! ## More readers that are tracked -/

/-- A limited reader over a tracked reader is tracked. -/
theorem LimitedReader_tracks {ρ : Type} [Reader ρ] {pend : ρ → List Nat} {stall : ρ → Nat}
    {ok : ρ → Prop} {lax : Prop} (T : Tracks pend stall ok lax) :
    Tracks (LimitedReader.pend pend) (fun l => stall l.R) (LimitedReader.ok pend ok) lax where
  step := by
    intro l k hok hk hp
    obtain ⟨R, N⟩ := l
    obtain ⟨hokR, hN0, hNle⟩ := hok
    simp only [] at hokR hN0 hNle
    simp only [LimitedReader.pend] at hp
    have hNpos : 0 < N.toNat := by
      rcases Nat.eq_zero_or_pos N.toNat with h | h
      · rw [h, List.take_zero] at hp; exact absurd rfl hp
      · exact h
    have hpR : pend R ≠ [] := by
      intro h; rw [h, List.take_nil] at hp; exact hp rfl
    have hN : ¬ N ≤ 0 := by omega
    obtain ⟨d, e, r', hr, hlen, hd, hok', hst, hst', he⟩ :=
      T.step R (if (k : Int) > N then N.toNat else k) hokR (by split_ifs <;> omega) hpR
    have hk' : (if (k : Int) > N then N.toNat else k) ≤ N.toNat ∧
        (if (k : Int) > N then N.toNat else k) ≤ k := by
      split_ifs <;> omega
    have hdl : d.length ≤ N.toNat := by omega
    have hlenR : (pend R).length = d.length + (pend r').length := by
      rw [← hd, List.length_append]
    have htoNat : (N - (d.length : Int)).toNat = N.toNat - d.length := by omega
    refine ⟨d, e, ⟨r', N - d.length⟩, ?_, by omega, ?_,
      ⟨hok', by show 0 ≤ N - (d.length : Int); omega, ?_⟩, hst, hst', ?_⟩
    · show LimitedReader.Read _ k = _
      rw [LimitedReader.Read, if_neg hN]
      simp only [hr]
    · simp only [LimitedReader.pend, htoNat]
      rw [← hd, List.take_append_eq_append_take, List.take_of_length_le hdl]
    · simp only [htoNat]; omega
    · rcases he with he | ⟨hl, he, hpe⟩
      · exact Or.inl he
      · exact Or.inr ⟨hl, he, by simp only [LimitedReader.pend, hpe, List.take_nil]⟩

/-- A connection at the end of its stream. -/
theorem Conn_ends (E : Error) (B : Bool) :
    Ends Conn.pend Conn.stall (fun c => c.atEnd = E ∧ c.early = B) where
  stop := by
    intro r k hok _ hp
    obtain ⟨chunks, atEnd, early⟩ := r
    match chunks, hp with
    | [], _ =>
      exact ⟨some atEnd, ⟨[], atEnd, early⟩, rfl, hok, rfl, le_refl _, fun h => by simp at h⟩
    | d :: rest, hp =>
      have hd : d = [] := by
        simp only [Conn.pend, List.flatten_cons, List.append_eq_nil] at hp; exact hp.1
      have hrest : rest.flatten = [] := by
        simp only [Conn.pend, List.flatten_cons, List.append_eq_nil] at hp; exact hp.2
      subst hd
      refine ⟨if early && rest.isEmpty then some atEnd else none, ⟨rest, atEnd, early⟩, ?_, hok,
        hrest, ?_, ?_⟩
      · show Conn.Read _ k = _
        simp [Conn.Read]
      · simp [Conn.stall, List.countP_cons]
      · intro _; simp [Conn.stall, List.countP_cons]

/-- A `bufio.Reader` at the end of the stream of its reader. -/
theorem BufReader_ends {ρ : Type} [Reader ρ] {pend : ρ → List Nat} {stall : ρ → Nat}
    {ok : ρ → Prop} (E : Ends pend stall ok) :
    Ends (BufReader.pend pend) (fun b => stall b.rd) (BufReader.ok pend ok) where
  stop := by
    intro b k hok hk hp
    obtain ⟨buf, err, rd⟩ := b
    obtain ⟨hokr, _⟩ := hok
    simp only [] at hokr
    simp only [BufReader.pend, List.append_eq_nil] at hp
    obtain ⟨hbuf, hpr⟩ := hp
    subst hbuf
    have hk0 : (k == 0) = false := by simp; omega
    cases err with
    | some e =>
      refine ⟨some e, ⟨[], none, rd⟩, ?_, ⟨hokr, Or.inl rfl⟩, by simp [BufReader.pend, hpr],
        le_refl _, fun h => by simp at h⟩
      show BufReader.Read _ k = _
      simp [BufReader.Read, hk0, BufReader.readErr]
    | none =>
      by_cases hbig : defaultBufSize ≤ k
      · obtain ⟨e, rd', hr, hok', hp', hst, hst'⟩ := E.stop rd k hokr hk hpr
        refine ⟨e, ⟨[], none, rd'⟩, ?_, ⟨hok', Or.inl rfl⟩, by simp [BufReader.pend, hp'], hst,
          hst'⟩
        show BufReader.Read _ k = _
        simp [BufReader.Read, hk0, hbig, hr]
      · obtain ⟨e, rd', hr, hok', hp', hst, hst'⟩ := E.stop rd defaultBufSize hokr (by decide) hpr
        refine ⟨e, ⟨[], none, rd'⟩, ?_, ⟨hok', Or.inl rfl⟩, by simp [BufReader.pend, hp'], hst,
          hst'⟩
        show BufReader.Read _ k = _
        simp [BufReader.Read, hk0, hbig, hr]

/-! ## Single reads from a known stream -/

/-- `ReadByte` of a `bufio.Reader` over a tracked reader, with a byte pending: it
returns that byte. -/
theorem BufReader_ReadByte_ok {ρ : Type} [Reader ρ] {pend : ρ → List Nat} {stall : ρ → Nat}
    {ok : ρ → Prop} {lax : Prop} (T : Tracks pend stall ok lax) (b : BufReader ρ) (x : Nat)
    (rest : List Nat) (hok : BufReader.ok pend ok b) (hp : BufReader.pend pend b = x :: rest)
    (hst : stall b.rd < maxConsecutiveEmptyReads) :
    ∃ b', b.ReadByte = (.ok x, b') ∧ BufReader.pend pend b' = rest ∧
      BufReader.ok pend ok b' ∧ stall b'.rd ≤ stall b.rd := by
  obtain ⟨buf, err, rd⟩ := b
  obtain ⟨hokr, herr⟩ := hok
  simp only [] at hokr herr hst
  match buf, hp with
  | c :: cs, hp =>
    simp only [BufReader.pend, List.cons_append] at hp
    obtain ⟨hc, hcs⟩ := List.cons.inj hp
    subst hc
    exact ⟨⟨cs, err, rd⟩, rfl, hcs, ⟨hokr, herr⟩, le_refl _⟩
  | [], hp =>
    have hpr : pend rd = x :: rest := by simpa [BufReader.pend] using hp
    have herr' : err = none := by
      rcases herr with h | h
      · exact h
      · rw [hpr] at h; exact absurd h (List.cons_ne_nil _ _)
    subst herr'
    obtain ⟨h1, h2, h3, h4⟩ := BufReader_fill_loop_ok T maxConsecutiveEmptyReads rd hokr
      (by rw [hpr]; simp) hst
    rw [hpr] at h2
    match hb : (BufReader.fill.loop maxConsecutiveEmptyReads ⟨[], none, rd⟩).buf, h1 with
    | [], h1 => exact absurd rfl h1
    | c :: cs, _ =>
      simp only [BufReader.pend, hb, List.cons_append] at h2
      obtain ⟨hc, hcs⟩ := List.cons.inj h2
      subst hc
      refine ⟨{ BufReader.fill.loop maxConsecutiveEmptyReads ⟨[], none, rd⟩ with buf := cs },
        ?_, hcs, h3, h4⟩
      simp only [BufReader.ReadByte, BufReader.fill, hb]

/-- The `fill` of an empty `bufio.Reader` over a reader at the end of its
stream buffers nothing. -/
theorem BufReader_fill_loop_end {ρ : Type} [Reader ρ] {pend : ρ → List Nat} {stall : ρ → Nat}
    {ok : ρ → Prop} (E : Ends pend stall ok) :
    ∀ (i : Nat) (rd : ρ), ok rd → pend rd = [] →
      (BufReader.fill.loop i ⟨[], none, rd⟩).buf = [] := by
  intro i
  induction i with
  | zero => intro rd _ _; rfl
  | succ i ih =>
    intro rd hok hp
    obtain ⟨e, rd', hr, hok', hp', _, _⟩ := E.stop rd defaultBufSize hok (by decide) hp
    rw [BufReader.fill.loop]
    simp only [List.length_nil, Nat.sub_zero, hr, List.nil_append]
    cases e with
    | some e => rfl
    | none =>
      simp only [List.length_nil, gt_iff_lt, lt_self_iff_false, if_false]
      exact ih rd' hok' hp'

/-- `ReadByte` of a `bufio.Reader` over a reader at the end of its stream, with
nothing buffered: it returns an error. -/
theorem BufReader_ReadByte_end {ρ : Type} [Reader ρ] {pend : ρ → List Nat} {stall : ρ → Nat}
    {ok : ρ → Prop} (E : Ends pend stall ok) (b : BufReader ρ)
    (hok : BufReader.ok pend ok b) (hp : BufReader.pend pend b = []) :
    ∃ e b', b.ReadByte = (.error e, b') := by
  obtain ⟨buf, err, rd⟩ := b
  obtain ⟨hokr, _⟩ := hok
  simp only [] at hokr
  simp only [BufReader.pend, List.append_eq_nil] at hp
  obtain ⟨hbuf, hpr⟩ := hp
  subst hbuf
  cases err with
  | some e => exact ⟨e, _, rfl⟩
  | none =>
    have hfill := BufReader_fill_loop_end E maxConsecutiveEmptyReads rd hokr hpr
    have hread : (BufReader.mk [] none rd).ReadByte
        = (.error ((BufReader.fill.loop maxConsecutiveEmptyReads ⟨[], none, rd⟩).err.getD
            .ErrNoProgress),
          { BufReader.fill.loop maxConsecutiveEmptyReads ⟨[], none, rd⟩ with err := none }) := by
      simp only [BufReader.ReadByte, BufReader.fill, hfill]
    exact ⟨_, _, hread⟩

/-- The loop of `io.ReadFull` on a tracked reader whose stream ends before the
slice is full: it returns an error. -/
theorem ioReadFull_loop_short {ρ : Type} [Reader ρ] {pend : ρ → List Nat} {stall : ρ → Nat}
    {ok : ρ → Prop} (T : Tracks pend stall ok False) (E : Ends pend stall ok) (size : Nat) :
    ∀ (fuel : Nat) (r : ρ) (got : List Nat),
      ok r → got.length + (pend r).length < size → stall r + (pend r).length + 1 ≤ fuel →
      ∃ got' e r', ioReadFull.loop fuel r size got = some ((got', some e), r') := by
  intro fuel
  induction fuel with
  | zero => intro r got _ _ hf; omega
  | succ fuel ih =>
    intro r got hok hsz hf
    have hlt : got.length < size := by omega
    rw [ioReadFull.loop, if_pos hlt]
    by_cases hp : pend r = []
    · obtain ⟨e, r', hr, hok', hp', hst, hst'⟩ := E.stop r (size - got.length) hok (by omega) hp
      rw [hr]
      simp only [List.append_nil]
      cases e with
      | none =>
        have := hst' rfl
        exact ih r' got hok' (by rw [hp']; rw [hp] at hsz; exact hsz)
          (by rw [hp']; rw [hp] at hf; simp at hf ⊢; omega)
      | some e =>
        simp only []
        rw [if_neg (by omega)]
        split_ifs
        · exact ⟨_, _, _, rfl⟩
        · exact ⟨_, _, _, rfl⟩
    · obtain ⟨d, e, r', hr, _, hd, hok', hst, hst', he⟩ := T.step r (size - got.length) hok
        (by omega) hp
      have he' : e = none := by
        rcases he with h | ⟨hf', _⟩
        · exact h
        · exact hf'.elim
      subst he'
      have hlen : (pend r).length = d.length + (pend r').length := by
        rw [← hd, List.length_append]
      rw [hr]
      simp only []
      exact ih r' (got ++ d) hok' (by rw [List.length_append]; omega)
        (by
          by_cases hd0 : d = []
          · have := hst' hd0
            subst hd0
            simp at hlen
            omega
          · have : 0 < d.length := List.length_pos.mpr hd0
            omega)

/-- `ReadUnsignedShort` on a tracked reader with two bytes pending: their
big-endian value. -/
theorem ReadUnsignedShort_bytes {ρ : Type} [Reader ρ] {pend : ρ → List Nat} {stall : ρ → Nat}
    {ok : ρ → Prop} {lax : Prop} (T : Tracks pend stall ok lax) (r : ρ) (hi lo : Nat)
    (rest : List Nat) (hok : ok r) (hp : pend r = hi :: lo :: rest) (fuel : Nat)
    (hf : stall r + 3 ≤ fuel) :
    ∃ r', ReadUnsignedShort fuel r = some (.ok (lo ||| (hi <<< 8)), r') ∧ pend r' = rest ∧
      ok r' ∧ stall r' ≤ stall r := by
  obtain ⟨r', h1, h2, h3, h4⟩ := ioReadFull_loop_ok T rest 2 fuel r [] [hi, lo] hok hp rfl
    (by simp; omega)
  refine ⟨r', ?_, h2, h3, h4⟩
  rw [ReadUnsignedShort, ioReadFull, h1]
  rfl

/-- `ReadUnsignedShort` on a tracked reader whose stream ends before two bytes:
an error. -/
theorem ReadUnsignedShort_short {ρ : Type} [Reader ρ] {pend : ρ → List Nat} {stall : ρ → Nat}
    {ok : ρ → Prop} (T : Tracks pend stall ok False) (E : Ends pend stall ok) (r : ρ)
    (hok : ok r) (hp : (pend r).length < 2) (fuel : Nat) (hf : stall r + 3 ≤ fuel) :
    ∃ e r', ReadUnsignedShort fuel r = some (.error e, r') := by
  obtain ⟨got, e, r', h1⟩ := ioReadFull_loop_short T E 2 fuel r [] hok (by simpa using hp)
    (by omega)
  refine ⟨e, r', ?_⟩
  rw [ReadUnsignedShort, ioReadFull, h1]

/-- `ReadUTF16BEString` on a tracked reader that has the bytes of the code
units pending: the decoded bytes. -/
theorem ReadUTF16BEString_ok {ρ : Type} [Reader ρ] {pend : ρ → List Nat} {stall : ρ → Nat}
    {ok : ρ → Prop} {lax : Prop} (T : Tracks pend stall ok lax) (r : ρ) (symbolLen : Nat)
    (w rest : List Nat) (hok : ok r) (hp : pend r = w ++ rest)
    (hw : w.length = (symbolLen * 2) % 2 ^ 16) (fuel : Nat)
    (hf : stall r + w.length + 1 ≤ fuel) :
    ∃ r', ReadUTF16BEString fuel r symbolLen = some (.ok (decodeUTF16BE w), r') ∧
      pend r' = rest ∧ ok r' ∧ stall r' ≤ stall r := by
  obtain ⟨r', h1, h2, h3, h4⟩ := ioReadFull_loop_ok T rest ((symbolLen * 2) % 2 ^ 16) fuel r [] w
    hok hp (by simpa using hw) hf
  refine ⟨r', ?_, h2, h3, h4⟩
  rw [ReadUTF16BEString, ioReadFull, h1]
  rfl

/-- `ReadUTF16BEString` on a tracked reader whose stream ends before the bytes
of the code units: an error. -/
theorem ReadUTF16BEString_short {ρ : Type} [Reader ρ] {pend : ρ → List Nat} {stall : ρ → Nat}
    {ok : ρ → Prop} (T : Tracks pend stall ok False) (E : Ends pend stall ok) (r : ρ)
    (symbolLen : Nat) (hok : ok r) (hp : (pend r).length < (symbolLen * 2) % 2 ^ 16)
    (fuel : Nat) (hf : stall r + (pend r).length + 1 ≤ fuel) :
    ∃ e r', ReadUTF16BEString fuel r symbolLen = some (.error e, r') := by
  obtain ⟨got, e, r', h1⟩ := ioReadFull_loop_short T E ((symbolLen * 2) % 2 ^ 16) fuel r [] hok
    (by simpa using hp) hf
  refine ⟨e, r', ?_⟩
  rw [ReadUTF16BEString, ioReadFull, h1]

/-! ## The head of a legacy ping -/

/-- `ReadLegacyServerListPing.message` on a `bufio.Reader` over a tracked reader
that does not stall: it returns an error, unless the pending bytes are the length
11 and 22 bytes that decode to `MC|PingHost`. -/
theorem legacy_message_or_error {ρ : Type} [Reader ρ] {pend : ρ → List Nat} {stall : ρ → Nat}
    {ok : ρ → Prop} (T : Tracks pend stall ok False) (E : Ends pend stall ok)
    (b : BufReader ρ) (hok : BufReader.ok pend ok b) (hst : stall b.rd = 0) (fuel : Nat)
    (hf : 24 ≤ fuel) :
    (∃ e, ReadLegacyServerListPing.message fuel b = some (.error e)) ∨
    (∃ hi lo w rest, BufReader.pend pend b = hi :: lo :: (w ++ rest) ∧
      lo ||| (hi <<< 8) = 11 ∧ w.length = 22 ∧ decodeUTF16BE w = pingHost) := by
  have TB := BufReader_tracks T
  have EB := BufReader_ends E
  match hs : BufReader.pend pend b with
  | [] =>
    left
    obtain ⟨e, r', h1⟩ := ReadUnsignedShort_short TB EB b hok (by rw [hs]; simp) fuel
      (by show stall b.rd + 3 ≤ fuel; omega)
    rw [ReadLegacyServerListPing.message, h1]
    exact ⟨_, rfl⟩
  | [a] =>
    left
    obtain ⟨e, r', h1⟩ := ReadUnsignedShort_short TB EB b hok (by rw [hs]; simp) fuel
      (by show stall b.rd + 3 ≤ fuel; omega)
    rw [ReadLegacyServerListPing.message, h1]
    exact ⟨_, rfl⟩
  | hi :: lo :: s4 =>
    obtain ⟨b4, h1, p4, ok4, st4⟩ := ReadUnsignedShort_bytes TB b hi lo s4 hok hs fuel
      (by show stall b.rd + 3 ≤ fuel; omega)
    have st4' : stall b4.rd = 0 := by
      have : stall b4.rd ≤ stall b.rd := st4
      omega
    by_cases hv : lo ||| (hi <<< 8) = 11
    · by_cases hlen : s4.length < 22
      · left
        obtain ⟨e, r', h2⟩ := ReadUTF16BEString_short TB EB b4 11 ok4 (by rw [p4]; exact hlen)
          fuel (by show stall b4.rd + (BufReader.pend pend b4).length + 1 ≤ fuel; rw [p4]; omega)
        rw [ReadLegacyServerListPing.message, h1]
        simp only [hv, ne_eq, not_true_eq_false, if_false, h2]
        rw [if_pos (by decide)]
        exact ⟨_, rfl⟩
      · have hsplit : s4 = s4.take 22 ++ s4.drop 22 := (List.take_append_drop 22 s4).symm
        have hw : (s4.take 22).length = 22 := by rw [List.length_take]; omega
        obtain ⟨b5, h2, _⟩ := ReadUTF16BEString_ok TB b4 11 (s4.take 22) (s4.drop 22) ok4
          (by rw [p4]; exact hsplit) (by rw [hw]; rfl) fuel
          (by show stall b4.rd + (s4.take 22).length + 1 ≤ fuel; omega)
        by_cases hdec : decodeUTF16BE (s4.take 22) = pingHost
        · right
          exact ⟨hi, lo, s4.take 22, s4.drop 22, by rw [← hsplit], hv, hw, hdec⟩
        · left
          rw [ReadLegacyServerListPing.message, h1]
          simp only [hv, ne_eq, not_true_eq_false, if_false, h2]
          rw [if_pos hdec]
          exact ⟨_, rfl⟩
    · left
      rw [ReadLegacyServerListPing.message, h1]
      simp only [ne_eq, hv, not_false_eq_true, if_true]
      exact ⟨_, rfl⟩

/-- `ReadLegacyServerListPing` on a `bufio.Reader` over a tracked reader that
does not stall: it returns an error, unless the pending bytes start with the head
of a legacy ping. -/
theorem legacy_head_or_error {ρ : Type} [Reader ρ] {pend : ρ → List Nat} {stall : ρ → Nat}
    {ok : ρ → Prop} (T : Tracks pend stall ok False) (E : Ends pend stall ok)
    (b : BufReader ρ) (hok : BufReader.ok pend ok b) (hst : stall b.rd = 0) (fuel : Nat)
    (hf : 24 ≤ fuel) :
    (∃ e, ReadLegacyServerListPing fuel b = some (.error e)) ∨
    LegacyHead (BufReader.pend pend b) := by
  have EB := BufReader_ends E
  have h100 : ∀ b' : BufReader ρ, stall b'.rd = 0 → stall b'.rd < maxConsecutiveEmptyReads :=
    fun b' h => by rw [h]; decide
  match hs : BufReader.pend pend b with
  | [] =>
    left
    obtain ⟨e, b', h0⟩ := BufReader_ReadByte_end E b hok hs
    rw [ReadLegacyServerListPing, h0]
    exact ⟨_, rfl⟩
  | x0 :: s1 =>
    obtain ⟨b1, h0, p1, ok1, st1⟩ := BufReader_ReadByte_ok T b x0 s1 hok hs (h100 b hst)
    have st1' : stall b1.rd = 0 := by omega
    by_cases hx0 : x0 = PacketIdLegacyServerListPing
    · match s1, p1 with
      | [], p1 =>
        left
        obtain ⟨e, b', h1⟩ := BufReader_ReadByte_end E b1 ok1 p1
        rw [ReadLegacyServerListPing, h0]
        simp only [ne_eq, hx0, not_true_eq_false, if_false, h1]
        exact ⟨_, rfl⟩
      | x1 :: s2, p1 =>
        obtain ⟨b2, h1, p2, ok2, st2⟩ := BufReader_ReadByte_ok T b1 x1 s2 ok1 p1 (h100 b1 st1')
        have st2' : stall b2.rd = 0 := by omega
        by_cases hx1 : x1 = 0x01
        · match s2, p2 with
          | [], p2 =>
            left
            obtain ⟨e, b', h2⟩ := BufReader_ReadByte_end E b2 ok2 p2
            rw [ReadLegacyServerListPing, h0]
            simp only [ne_eq, hx0, not_true_eq_false, if_false, h1, hx1, h2]
            exact ⟨_, rfl⟩
          | x2 :: s3, p2 =>
            obtain ⟨b3, h2, p3, ok3, st3⟩ := BufReader_ReadByte_ok T b2 x2 s3 ok2 p2
              (h100 b2 st2')
            have st3' : stall b3.rd = 0 := by omega
            by_cases hx2 : x2 = 0xFA
            · have hrw : ReadLegacyServerListPing fuel b
                  = ReadLegacyServerListPing.message fuel b3 := by
                rw [ReadLegacyServerListPing, h0]
                simp only [ne_eq, hx0, not_true_eq_false, if_false, h1, hx1, h2, hx2]
              rcases legacy_message_or_error T E b3 ok3 st3' fuel hf with ⟨e, he⟩ | hhead
              · left; exact ⟨e, by rw [hrw, he]⟩
              · right
                obtain ⟨hi, lo, w, rest, hp, hv, hw, hdec⟩ := hhead
                refine ⟨hi, lo, w, rest, ?_, hv, hw, hdec⟩
                rw [hx0, hx1, hx2, ← hp, p3]
                rfl
            · left
              rw [ReadLegacyServerListPing, h0]
              simp only [ne_eq, hx0, not_true_eq_false, if_false, h1, hx1, h2, hx2,
                not_false_eq_true, if_true]
              exact ⟨_, rfl⟩
        · left
          rw [ReadLegacyServerListPing, h0]
          simp only [ne_eq, hx0, not_true_eq_false, if_false, h1, hx1, not_false_eq_true,
            if_true]
          exact ⟨_, rfl⟩
    · left
      rw [ReadLegacyServerListPing, h0]
      simp only [ne_eq, hx0, not_false_eq_true, if_true]
      exact ⟨_, rfl⟩

/-- A stream of bytes that is malformed does not start with the head of a legacy
ping. -/
theorem not_head_of_malformed (s : List Nat) (hb : ∀ x ∈ s, x < 256)
    (hbad : MalformedLegacyPing s) : ¬ LegacyHead s := by
  rintro ⟨hi, lo, w, rest, rfl, hv, hw, hdec⟩
  rcases hbad with ⟨x, hx, hne⟩ | ⟨x, hx, hne⟩ | ⟨hi', lo', hhi, hlo, hne⟩ | ⟨_, hne⟩ | hlen
  · simp at hx; exact hne hx.symm
  · simp at hx; exact hne hx.symm
  · simp at hhi hlo
    subst hhi hlo
    have hlo8 : lo < 2 ^ 8 := hb lo (by simp)
    have h := Nat.mul_add_lt_is_or hlo8 hi
    rw [Nat.shiftLeft_eq, Nat.lor_comm, Nat.mul_comm, ← h] at hv
    omega
  · apply hne
    simp only [List.drop_succ_cons, List.drop_zero]
    rw [List.take_left' hw]
    exact hdec
  · simp only [List.length_cons, List.length_append] at hlen
    omega

/-- C14. Malformed legacy ping rejection: for every input of bytes that begins
with `0xFE` and in which the second byte is not `0x01`, or the third byte is not
`0xFA`, or the `uint16` length of the message name is not 11, or the following 22
bytes do not decode from UTF-16BE to `MC|PingHost`, or the stream ends before one
of these fields is complete, `ReadLegacyServerListPing`, on a `bufio.Reader` over
a connection that delivers the input in non-empty chunks and then ends, returns
an error and no packet. -/
theorem malformed_legacy_ping_rejected (chunks : List (List Nat)) (atEnd : Error)
    (t : List Nat) (hch : chunks.flatten = 0xFE :: t) (hne : ∀ c ∈ chunks, c ≠ [])
    (hb : ∀ x ∈ t, x < 256) (hbad : MalformedLegacyPing (0xFE :: t)) (fuel : Nat)
    (hf : 24 ≤ fuel) :
    ∃ e, ReadLegacyServerListPing fuel (NewReader (Conn.mk chunks atEnd false))
      = some (.error e) := by
  have hst := Conn.stall_eq_zero chunks atEnd false hne
  have hbs : ∀ x ∈ 0xFE :: t, x < 256 := by
    intro x hx
    rcases List.mem_cons.mp hx with h | h
    · rw [h]; decide
    · exact hb x h
  rcases legacy_head_or_error (Conn_tracks_strict atEnd) (Conn_ends atEnd false)
    (NewReader (Conn.mk chunks atEnd false)) ⟨⟨rfl, rfl⟩, Or.inl rfl⟩ hst fuel hf with h | h
  · exact h
  · have hp : BufReader.pend Conn.pend (NewReader (Conn.mk chunks atEnd false)) = 0xFE :: t := by
      simp [BufReader.pend, NewReader, Conn.pend, hch]
    rw [hp] at h
    exact absurd h (not_head_of_malformed _ hbs hbad)

/-- The rejection of C14 for the stream `FE 01 FA 00 0B 00 4D` that ends in the
message name, delivered in two chunks. -/
theorem malformed_legacy_ping_rejected_witness :
    [[0xFE, 0x01, 0xFA], [0x00, 0x0B, 0x00, 0x4D]].flatten
      = 0xFE :: [0x01, 0xFA, 0x00, 0x0B, 0x00, 0x4D] ∧
    MalformedLegacyPing (0xFE :: [0x01, 0xFA, 0x00, 0x0B, 0x00, 0x4D]) ∧
    ∃ e, ReadLegacyServerListPing 24
        (NewReader (Conn.mk [[0xFE, 0x01, 0xFA], [0x00, 0x0B, 0x00, 0x4D]] .EOF false))
      = some (.error e) :=
  have hbad : MalformedLegacyPing (0xFE :: [0x01, 0xFA, 0x00, 0x0B, 0x00, 0x4D]) :=
    Or.inr (Or.inr (Or.inr (Or.inr (by decide))))
  ⟨by decide, hbad,
    malformed_legacy_ping_rejected [[0xFE, 0x01, 0xFA], [0x00, 0x0B, 0x00, 0x4D]] .EOF
      [0x01, 0xFA, 0x00, 0x0B, 0x00, 0x4D] (by decide) (by decide) (by decide) hbad 24
      (le_refl 24)⟩

/-! ## The legacy ping, read to the end -/

/-- `ReadByte` on a tracked reader that does not stall, with a byte pending: it
returns that byte. -/
theorem ReadByte_ok {ρ : Type} [Reader ρ] {pend : ρ → List Nat} {stall : ρ → Nat}
    {ok : ρ → Prop} {lax : Prop} (T : Tracks pend stall ok lax) (r : ρ) (x : Nat)
    (rest : List Nat) (hok : ok r) (hst : stall r = 0) (hp : pend r = x :: rest)
    (hl : lax → rest ≠ []) :
    ∃ r', ReadByte r = (.ok x, r') ∧ pend r' = rest ∧ ok r' ∧ stall r' = 0 := by
  obtain ⟨r', hok', hst', h | h⟩ := T.step_one r x rest hok hp hl
  · omega
  · refine ⟨r', ?_, h.2, hok', by omega⟩
    rw [ReadByte, h.1]
    rfl

theorem lor_shift (a b i : Nat) (h : a < 2 ^ i) : a ||| (b <<< i) = a + b * 2 ^ i := by
  rw [Nat.shiftLeft_eq, Nat.lor_comm, Nat.mul_comm, ← Nat.mul_add_lt_is_or h, Nat.add_comm,
    Nat.mul_comm]

theorem bigEndian32 (v : Nat) (h : v < 2 ^ 32) :
    v % 256 ||| ((v >>> 8) % 256) <<< 8 ||| ((v >>> 16) % 256) <<< 16
      ||| ((v >>> 24) % 256) <<< 24 = v := by
  have h0 : v % 256 < 2 ^ 8 := Nat.mod_lt _ (by norm_num)
  rw [lor_shift _ _ 8 h0]
  have h1 : v % 256 + (v >>> 8) % 256 * 2 ^ 8 < 2 ^ 16 := by
    have : (v >>> 8) % 256 < 256 := Nat.mod_lt _ (by norm_num)
    norm_num at h0 ⊢; omega
  rw [lor_shift _ _ 16 h1]
  have h2 : v % 256 + (v >>> 8) % 256 * 2 ^ 8 + (v >>> 16) % 256 * 2 ^ 16 < 2 ^ 24 := by
    have : (v >>> 16) % 256 < 256 := Nat.mod_lt _ (by norm_num)
    norm_num at h1 ⊢; omega
  rw [lor_shift _ _ 24 h2]
  simp only [Nat.shiftRight_eq_div_pow]
  norm_num at h ⊢
  omega

/-- `ReadUnsignedInt` reads back the four big-endian bytes of a `uint32`. -/
theorem ReadUnsignedInt_ok {ρ : Type} [Reader ρ] {pend : ρ → List Nat} {stall : ρ → Nat}
    {ok : ρ → Prop} {lax : Prop} (T : Tracks pend stall ok lax) (r : ρ) (v : Nat)
    (rest : List Nat) (hok : ok r) (hp : pend r = u32BE v ++ rest) (hv : v < 2 ^ 32)
    (fuel : Nat) (hf : stall r + 5 ≤ fuel) :
    ∃ r', ReadUnsignedInt fuel r = some (.ok v, r') ∧ pend r' = rest ∧ ok r' ∧
      stall r' ≤ stall r := by
  obtain ⟨r', h1, h2, h3, h4⟩ := ioReadFull_loop_ok T rest 4 fuel r [] (u32BE v) hok hp
    (by simp [u32BE]) (by simp [u32BE]; omega)
  refine ⟨r', ?_, h2, h3, h4⟩
  rw [ReadUnsignedInt, ioReadFull, h1]
  simp only [List.nil_append, u32BE, List.getD_cons_zero, List.getD_cons_succ]
  rw [bigEndian32 v hv]

theorem WriteUnsignedShort_mod (v : Nat) :
    WriteUnsignedShort v = WriteUnsignedShort (v % 2 ^ 16) := by
  simp only [WriteUnsignedShort, Nat.shiftRight_eq_div_pow]
  have h1 : v / 2 ^ 8 % 256 = v % 2 ^ 16 / 2 ^ 8 % 256 := by norm_num; omega
  have h2 : v % 256 = v % 2 ^ 16 % 256 := by norm_num
  rw [← h1]
  exact congrArg (fun x => [v / 2 ^ 8 % 256, x]) h2

theorem utf16BE_length (units : List Nat) : (utf16BE units).length = 2 * units.length := by
  induction units with
  | nil => rfl
  | cons u us ih =>
    simp only [utf16BE, List.flatMap_cons, List.length_append, List.length_cons] at ih ⊢
    rw [ih]
    simp only [WriteUnsignedShort, List.length_cons, List.length_nil]
    omega

/-- The decoder gives back, in UTF-8, code units that are no surrogates. -/
theorem decodeUTF16BE_utf16BE (units : List Nat)
    (hu : ∀ u ∈ units, u < 2 ^ 16 ∧ ¬ (0xD800 ≤ u ∧ u < 0xE000)) :
    decodeUTF16BE (utf16BE units) = units.flatMap EncodeRune := by
  induction units with
  | nil => rfl
  | cons u us ih =>
    obtain ⟨hlt, hns⟩ := hu u (by simp)
    have hx : (((u >>> 8) % 256) <<< 8 ||| u % 256) % 2 ^ 16 = u := by
      rw [Nat.lor_comm, bigEndian16 u hlt]
      exact Nat.mod_eq_of_lt hlt
    have hcons : utf16BE (u :: us) = (u >>> 8) % 256 :: u % 256 :: utf16BE us := rfl
    have hstep : decodeUTF16BE ((u >>> 8) % 256 :: u % 256 :: utf16BE us)
        = EncodeRune u ++ decodeUTF16BE (utf16BE us) := by
      rcases utf16BE us with _ | ⟨a, _ | ⟨b, r⟩⟩ <;>
        simp only [decodeUTF16BE, hx, if_neg hns]
    rw [hcons, hstep, ih (fun u' hu' => hu u' (by simp [hu']))]
    rfl

/-- `ReadLegacyServerListPing.remaining` on a tracked reader that does not
stall and has the protocol byte, the host name and the port pending: it returns
the packet of the legacy ping. -/
theorem legacy_remaining_ok {ρ : Type} [Reader ρ] {pend : ρ → List Nat} {stall : ρ → Nat}
    {ok : ρ → Prop} (T : Tracks pend stall ok False) (r : ρ) (v p : Nat) (h : List Nat)
    (hok : ok r) (hst : stall r = 0)
    (hp : pend r = [v] ++ WriteUnsignedShort h.length ++ utf16BE h ++ u32BE p)
    (hn : h.length < 32768)
    (hu : ∀ u ∈ h, u < 2 ^ 16 ∧ ¬ (0xD800 ≤ u ∧ u < 0xE000)) (hport : p < 2 ^ 16)
    (fuel : Nat) (hf : 2 * h.length + 5 ≤ fuel) :
    ReadLegacyServerListPing.remaining fuel r
      = some (.ok ⟨0, 0xFE, .legacy ⟨v, h.flatMap EncodeRune, p⟩⟩) := by
  have nolax : ∀ l : List Nat, False → l ≠ [] := fun _ hf => hf.elim
  obtain ⟨r1, h1, p1, ok1, st1⟩ := ReadByte_ok T r v
    (WriteUnsignedShort h.length ++ (utf16BE h ++ u32BE p)) hok hst
    (by rw [hp]; simp) (nolax _)
  obtain ⟨r2, h2, p2, ok2, st2⟩ := ReadUnsignedShort_ok T r1 h.length (utf16BE h ++ u32BE p) ok1
    p1 (by norm_num; omega) fuel (by omega)
  obtain ⟨r3, h3, p3, ok3, st3⟩ := ReadUTF16BEString_ok T r2 h.length (utf16BE h) (u32BE p) ok2
    p2 (by rw [utf16BE_length, Nat.mod_eq_of_lt (by norm_num; omega)]; omega) fuel
    (by rw [utf16BE_length]; omega)
  obtain ⟨r4, h4, _⟩ := ReadUnsignedInt_ok T r3 p [] ok3 (by simpa using p3)
    (by norm_num at hport ⊢; omega) fuel (by omega)
  rw [decodeUTF16BE_utf16BE h hu] at h3
  rw [ReadLegacyServerListPing.remaining, h1]
  simp only [h2, h3, h4, Nat.mod_eq_of_lt hport]
  rfl

/-- `ReadLegacyServerListPing` on a `bufio.Reader` with the head of a legacy
ping and the field `remainingLen` pending: it goes on with the rest behind a
limit of `remainingLen`, taken as a `uint16`. -/
theorem legacy_head_read {ρ : Type} [Reader ρ] {pend : ρ → List Nat} {stall : ρ → Nat}
    {ok : ρ → Prop} (T : Tracks pend stall ok False) (b : BufReader ρ) (R : Nat)
    (tail : List Nat) (hok : BufReader.ok pend ok b) (hst : stall b.rd = 0)
    (hp : BufReader.pend pend b = [0xFE, 0x01, 0xFA] ++ WriteUnsignedShort 11
      ++ utf16BE pingHost ++ WriteUnsignedShort R ++ tail)
    (fuel : Nat) (hf : 24 ≤ fuel) :
    ∃ b6, ReadLegacyServerListPing fuel b
        = ReadLegacyServerListPing.remaining fuel (LimitReader b6 ((R % 2 ^ 16 : Nat) : Int)) ∧
      BufReader.pend pend b6 = tail ∧ BufReader.ok pend ok b6 ∧ stall b6.rd = 0 := by
  have TB := BufReader_tracks T
  have h100 : ∀ b' : BufReader ρ, stall b'.rd = 0 → stall b'.rd < maxConsecutiveEmptyReads :=
    fun b' h => by rw [h]; decide
  have hp' : BufReader.pend pend b = 0xFE :: 0x01 :: 0xFA :: 0 :: 11
      :: (utf16BE pingHost ++ (WriteUnsignedShort (R % 2 ^ 16) ++ tail)) := by
    rw [hp, WriteUnsignedShort_mod R]
    simp only [List.append_assoc]
    rfl
  obtain ⟨b1, h0, p1, ok1, st1⟩ := BufReader_ReadByte_ok T b _ _ hok hp' (h100 b hst)
  have st1' : stall b1.rd = 0 := by omega
  obtain ⟨b2, h1, p2, ok2, st2⟩ := BufReader_ReadByte_ok T b1 _ _ ok1 p1 (h100 b1 st1')
  have st2' : stall b2.rd = 0 := by omega
  obtain ⟨b3, h2, p3, ok3, st3⟩ := BufReader_ReadByte_ok T b2 _ _ ok2 p2 (h100 b2 st2')
  have st3' : stall b3.rd = 0 := by omega
  obtain ⟨b4, h3, p4, ok4, st4⟩ := ReadUnsignedShort_bytes TB b3 0 11 _ ok3 p3 fuel
    (by show stall b3.rd + 3 ≤ fuel; omega)
  have st4' : stall b4.rd = 0 := by
    have : stall b4.rd ≤ stall b3.rd := st4
    omega
  obtain ⟨b5, h4, p5, ok5, st5⟩ := ReadUTF16BEString_ok TB b4 11 (utf16BE pingHost)
    (WriteUnsignedShort (R % 2 ^ 16) ++ tail) ok4 p4 (by decide) fuel
    (by show stall b4.rd + (utf16BE pingHost).length + 1 ≤ fuel
        rw [utf16BE_length, st4']
        simp only [pingHost, List.length_cons, List.length_nil]
        omega)
  have st5' : stall b5.rd = 0 := by
    have : stall b5.rd ≤ stall b4.rd := st5
    omega
  obtain ⟨b6, h5, p6, ok6, st6⟩ := ReadUnsignedShort_ok TB b5 (R % 2 ^ 16) tail ok5 p5
    (Nat.mod_lt _ (by norm_num)) fuel (by show stall b5.rd + 3 ≤ fuel; omega)
  have st6' : stall b6.rd = 0 := by
    have : stall b6.rd ≤ stall b5.rd := st6
    omega
  have hv : (11 ||| (0 <<< 8) : Nat) = 11 := by decide
  have hdec : decodeUTF16BE (utf16BE pingHost) = pingHost := by decide
  refine ⟨b6, ?_, p6, ok6, st6'⟩
  rw [ReadLegacyServerListPing, h0]
  simp only [PacketIdLegacyServerListPing, ne_eq, not_true_eq_false, if_false, h1, h2]
  rw [ReadLegacyServerListPing.message, h3]
  simp only [hv, ne_eq, not_true_eq_false, if_false, h4, hdec, h5]

/-- `ReadUnsignedShort` through a limited reader whose limit is used up: the
error is `io.EOF`. -/
theorem ReadUnsignedShort_spent {ρ : Type} [Reader ρ] (l : LimitedReader ρ) (hN : l.N ≤ 0)
    (fuel : Nat) (hf : 1 ≤ fuel) : ReadUnsignedShort fuel l = some (.error .EOF, l) := by
  obtain ⟨fuel, rfl⟩ : ∃ f, fuel = f + 1 := ⟨fuel - 1, by omega⟩
  have hread : Reader.Read l (2 - ([] : List Nat).length) = (([], some .EOF), l) := by
    show LimitedReader.Read l 2 = _
    rw [LimitedReader.Read, if_pos hN]
  rw [ReadUnsignedShort, ioReadFull, ioReadFull.loop, if_pos (by decide), hread]
  rfl

/-- `ReadPacket` in the state `StateHandshaking` on a connection that delivers a
legacy ping: it goes on with the rest of the ping behind a limit of
`7 + 2 * n`, taken as a `uint16`. -/
theorem legacy_ping_to_remaining (v p : Nat) (h : List Nat) (chunks : List (List Nat))
    (atEnd : Error) (hch : chunks.flatten = legacyPing v h p) (hne : ∀ c ∈ chunks, c ≠ [])
    (fuel : Nat) (hf : 24 ≤ fuel) :
    ∃ b6, ReadPacket fuel (Conn.mk chunks atEnd false) StateHandshaking
        = ReadLegacyServerListPing.remaining fuel
            (LimitReader b6 (((7 + 2 * h.length) % 2 ^ 16 : Nat) : Int)) ∧
      BufReader.pend Conn.pend b6 = [v] ++ WriteUnsignedShort h.length ++ utf16BE h ++ u32BE p ∧
      BufReader.ok Conn.pend (fun c => c.atEnd = atEnd ∧ c.early = false) b6 ∧
      b6.rd.stall = 0 := by
  have T := Conn_tracks_strict atEnd
  have hst := Conn.stall_eq_zero chunks atEnd false hne
  have hhead : legacyPing v h p = 0xFE :: (legacyPing v h p).tail := rfl
  obtain ⟨b, h0, p0, ok0, st0⟩ := BufReader_Peek1_ok T (Conn.mk chunks atEnd false) 0xFE
    (legacyPing v h p).tail ⟨rfl, rfl⟩ (by rw [Conn.pend, hch]; exact hhead)
    (by rw [hst]; decide)
  have st0' : b.rd.stall = 0 := by omega
  obtain ⟨b6, h1, p6, ok6, st6⟩ := legacy_head_read T b (7 + 2 * h.length)
    ([v] ++ WriteUnsignedShort h.length ++ utf16BE h ++ u32BE p) ok0 st0'
    (by rw [p0, ← hhead]; rfl) fuel hf
  refine ⟨b6, ?_, p6, ok6, st6⟩
  rw [ReadPacket, if_pos rfl, h0]
  simp only [PacketIdLegacyServerListPing, if_true]
  exact h1

/-- C12. Legacy server list ping decoding, as the code has it: for every
protocol byte `v`, every hostname `h` of `n ≤ 32764` UTF-16 code units without
surrogates and every port `p ≤ 65535`, `ReadPacket` in the state
`StateHandshaking`, on a connection that delivers the bytes
`FE 01 FA 00 0B ++ UTF16BE("MC|PingHost") ++ u16BE(7 + 2n) ++ v ++ u16BE(n) ++
UTF16BE(h) ++ u32BE(p)` in non-empty chunks, returns without error the packet
with `PacketID = 0xFE`, `Length = 0` and the data
`LegacyServerListPing{ProtocolVersion: v, ServerAddress: h, ServerPort: p}`, the
address being `h` in UTF-8. -/
theorem legacy_ping_decoded (v p : Nat) (h : List Nat) (chunks : List (List Nat))
    (atEnd : Error) (_ : v < 256)
    (hu : ∀ u ∈ h, u < 2 ^ 16 ∧ ¬ (0xD800 ≤ u ∧ u < 0xE000)) (hn : h.length ≤ 32764)
    (hp : p ≤ 65535) (hch : chunks.flatten = legacyPing v h p)
    (hne : ∀ c ∈ chunks, c ≠ []) (fuel : Nat) (hf : 2 * h.length + 24 ≤ fuel) :
    ReadPacket fuel (Conn.mk chunks atEnd false) StateHandshaking
      = some (.ok ⟨0, 0xFE, .legacy ⟨v, h.flatMap EncodeRune, p⟩⟩) := by
  obtain ⟨b6, h1, p6, ok6, st6⟩ := legacy_ping_to_remaining v p h chunks atEnd hch hne fuel
    (by omega)
  have hlen : ([v] ++ WriteUnsignedShort h.length ++ utf16BE h ++ u32BE p).length
      = 7 + 2 * h.length := by
    simp only [List.length_append, utf16BE_length, WriteUnsignedShort, u32BE, List.length_cons,
      List.length_nil]
    omega
  rw [h1, Nat.mod_eq_of_lt (by norm_num; omega)]
  have TL := LimitedReader_tracks (BufReader_tracks (Conn_tracks_strict atEnd))
  refine legacy_remaining_ok TL (LimitReader b6 ((7 + 2 * h.length : Nat) : Int)) v p h
    ⟨ok6, by show (0 : Int) ≤ ((7 + 2 * h.length : Nat) : Int); omega, ?_⟩ st6 ?_ (by omega) hu
    (by norm_num; omega) fuel (by omega)
  · show ((7 + 2 * h.length : Nat) : Int).toNat ≤ (BufReader.pend Conn.pend b6).length
    rw [p6, hlen, Int.toNat_ofNat]
  · show (BufReader.pend Conn.pend b6).take ((7 + 2 * h.length : Nat) : Int).toNat = _
    rw [p6, Int.toNat_ofNat, ← hlen, List.take_length]

/-- The decoding of C12 for `v = 1`, `h = "example"` and `p = 25565`, the ping
delivered in one chunk. -/
theorem legacy_ping_decoded_witness :
    ReadPacket 38
        (Conn.mk [legacyPing 1 [101, 120, 97, 109, 112, 108, 101] 25565] .EOF false)
        StateHandshaking
      = some (.ok ⟨0, 0xFE, .legacy ⟨1, [101, 120, 97, 109, 112, 108, 101], 25565⟩⟩) :=
  legacy_ping_decoded 1 25565 [101, 120, 97, 109, 112, 108, 101]
    [legacyPing 1 [101, 120, 97, 109, 112, 108, 101] 25565] .EOF (by decide) (by decide)
    (by decide) (by decide) (by decide) (by decide) 38 (by decide)

/-- `ReadPacket` on a legacy ping whose hostname has 32765 code units: the field
`remainingLen` holds `65537 mod 2 ^ 16 = 1`, the limited reader ends after the
protocol byte, and the read of the length of the hostname fails with `io.EOF`. -/
theorem legacy_ping_cut (v p : Nat) (h : List Nat) (chunks : List (List Nat))
    (atEnd : Error) (hn : h.length = 32765) (hch : chunks.flatten = legacyPing v h p)
    (hne : ∀ c ∈ chunks, c ≠ []) (fuel : Nat) (hf : 24 ≤ fuel) :
    ReadPacket fuel (Conn.mk chunks atEnd false) StateHandshaking = some (.error .EOF) := by
  obtain ⟨b6, h1, p6, ok6, st6⟩ := legacy_ping_to_remaining v p h chunks atEnd hch hne fuel hf
  have hR : (7 + 2 * h.length) % 2 ^ 16 = 1 := by rw [hn]; decide
  rw [h1, hR]
  have TL := LimitedReader_tracks (BufReader_tracks (Conn_tracks_strict atEnd))
  have p6' : BufReader.pend Conn.pend b6
      = v :: (WriteUnsignedShort h.length ++ utf16BE h ++ u32BE p) := by
    rw [p6]; simp only [List.append_assoc]; rfl
  obtain ⟨l1, h2, p1, ok1, _⟩ := ReadByte_ok TL (LimitReader b6 ((1 : Nat) : Int)) v []
    ⟨ok6, Int.ofNat_nonneg 1, by
      show ((1 : Nat) : Int).toNat ≤ (BufReader.pend Conn.pend b6).length
      rw [p6']; simp⟩
    st6 (by
      show (BufReader.pend Conn.pend b6).take ((1 : Nat) : Int).toNat = [v]
      rw [p6']; rfl)
    (fun hfalse => hfalse.elim)
  have hN : l1.N ≤ 0 := by
    obtain ⟨_, hN0, hNle⟩ := ok1
    have htake : (BufReader.pend Conn.pend l1.R).take l1.N.toNat = [] := p1
    rcases List.take_eq_nil_iff.mp htake with h0 | h0
    · omega
    · rw [h0] at hNle
      simp only [List.length_nil] at hNle
      omega
  rw [ReadLegacyServerListPing.remaining, h2]
  simp only [ReadUnsignedShort_spent l1 hN fuel (by omega)]

/-- A legacy ping with a hostname of 32765 code units, inside the bounds of the
claim, is not decoded: `ReadPacket` returns the error `io.EOF`. -/
theorem legacy_ping_32765_rejected :
    ReadPacket 65554
        (Conn.mk [legacyPing 1 (List.replicate 32765 0x61) 25565] .EOF false)
        StateHandshaking
      = some (.error .EOF) :=
  legacy_ping_cut 1 25565 (List.replicate 32765 0x61)
    [legacyPing 1 (List.replicate 32765 0x61) 25565] .EOF (List.length_replicate _ _)
    (by rw [List.flatten_cons, List.flatten_nil, List.append_nil])
    (fun c hc => by
      rw [List.mem_singleton] at hc
      rw [hc]
      exact List.cons_ne_nil _ _)
    65554 (by decide)

end mcproto
